import Mathlib

/-!
Verification of the session-lifecycle and security-boundary subsystem of the
claude-agent-mcp-server repository, via a shallow embedding of its TypeScript
sources into Lean.  JavaScript `Map`s are embedded as insertion-ordered
association lists (`set` on a present key replaces in place, on an absent key
appends; iteration follows list order), timestamps (`Date.now()` milliseconds)
as `Nat`, and thrown exceptions as `Except String`.
-/

namespace CAMS

/-- Insertion-ordered string-keyed association list: the embedding of a JS `Map`. -/
abbrev AList (α : Type) := List (String × α)

/-- `Map.get`: first (and, for states built by `mapSet`, only) binding of `k`. -/
def mapGet {α : Type} (m : AList α) (k : String) : Option α :=
  match m with
  | [] => none
  | (k', v) :: rest => if k' = k then some v else mapGet rest k

/-- `Map.set`: replace in place when the key is present, append otherwise. -/
def mapSet {α : Type} (m : AList α) (k : String) (v : α) : AList α :=
  match m with
  | [] => [(k, v)]
  | (k', v') :: rest => if k' = k then (k, v) :: rest else (k', v') :: mapSet rest k v

/-- The last `n` elements of a list (`xs.slice(-n)` for `n ≥ 1`). -/
def takeLast {α : Type} (n : Nat) (l : List α) : List α :=
  l.drop (l.length - n)

/-- JS `xs.slice(-n)` for a non-negative `n`: `-0` is `0`, so `slice(-0)`
returns the whole array; for `n ≥ 1` it returns the last `n` elements. -/
def jsSliceNeg {α : Type} (n : Nat) (l : List α) : List α :=
  if n = 0 then l else takeLast n l

/-- Whitespace as recognized by JS `String.prototype.trim` (WhiteSpace ∪ LineTerminator;
the ASCII portion plus NBSP and BOM, which is what this codebase can meet). -/
def jsIsWs (c : Char) : Bool :=
  c = ' ' ∨ c = '\t' ∨ c = '\n' ∨ c = '\r' ∨ c = '\x0b' ∨ c = '\x0c' ∨
    c = ' ' ∨ c = '﻿'

/-- JS `s.trim()` on the character list. -/
def jsTrimList (s : List Char) : List Char :=
  ((s.dropWhile jsIsWs).reverse.dropWhile jsIsWs).reverse

/-- JS `s.trim()`. -/
def jsTrim (s : String) : String :=
  ⟨jsTrimList s.data⟩

inductive Role
  | user
  | assistant

deriving DecidableEq, Repr

structure Message where
  role : Role
  content : String

deriving DecidableEq, Repr

structure Session where
  id : String
  messages : List Message
  lastActivity : Nat

deriving DecidableEq, Repr

/-- `sessionTimeout` (seconds) and `maxHistory`, as passed to the constructor. -/
structure ConvConfig where
  sessionTimeout : Nat
  maxHistory : Nat

deriving DecidableEq, Repr

/-- `createSession`: insert a session with empty history and current timestamp. -/
def createSession (sid : String) (now : Nat) (m : AList Session) : AList Session :=
  mapSet m sid { id := sid, messages := [], lastActivity := now }

/-- `getSession`: look up; when found, refresh `lastActivity` (in place) and
return the session.  Returns the updated store together with the result. -/
def getSession (now : Nat) (m : AList Session) (sid : String) :
    AList Session × Option Session :=
  match mapGet m sid with
  | some s =>
      let s' := { s with lastActivity := now }
      (mapSet m sid s', some s')
  | none => (m, none)

/-- The push-then-truncate step of `addMessage`:
`messages.push(message)` followed by
`if (messages.length > maxHistory) messages = messages.slice(-maxHistory)`. -/
def pushTrunc (maxHistory : Nat) (l : List Message) (msg : Message) : List Message :=
  let msgs := l ++ [msg]
  if msgs.length > maxHistory then jsSliceNeg maxHistory msgs else msgs

/-- `addMessage`: via `getSession`; push the message, truncate with
`messages.slice(-maxHistory)` when the length exceeds `maxHistory`, refresh
`lastActivity`.  Silently a no-op when the id is unknown. -/
def addMessage (cfg : ConvConfig) (now : Nat) (m : AList Session) (sid : String)
    (msg : Message) : AList Session :=
  match getSession now m sid with
  | (m', some s) =>
      mapSet m' sid { s with messages := pushTrunc cfg.maxHistory s.messages msg,
                             lastActivity := now }
  | (m', none) => m'

/-- `getHistory`: via `getSession` (which refreshes `lastActivity`); a copy of
the messages, or `[]` for an unknown id. -/
def getHistory (now : Nat) (m : AList Session) (sid : String) :
    AList Session × List Message :=
  match getSession now m sid with
  | (m', some s) => (m', s.messages)
  | (m', none) => (m', [])

/-- `cleanupExpiredSessions`: delete every session with
`now - lastActivity > sessionTimeout * 1000`. -/
def cleanupExpiredSessions (cfg : ConvConfig) (now : Nat) (m : AList Session) :
    AList Session :=
  m.filter (fun p => ¬ (now - p.2.lastActivity > cfg.sessionTimeout * 1000))

/-- One externally observable operation on the manager. -/
inductive ConvOp
  | create (sid : String) (now : Nat)
  | get (sid : String) (now : Nat)
  | add (sid : String) (msg : Message) (now : Nat)
  | history (sid : String) (now : Nat)
  | cleanup (now : Nat)

deriving DecidableEq, Repr

def convStep (cfg : ConvConfig) (m : AList Session) : ConvOp → AList Session
  | .create sid now => createSession sid now m
  | .get sid now => (getSession now m sid).1
  | .add sid msg now => addMessage cfg now m sid msg
  | .history sid now => (getHistory now m sid).1
  | .cleanup now => cleanupExpiredSessions cfg now m

def convRunFrom (cfg : ConvConfig) (m : AList Session) (ops : List ConvOp) :
    AList Session :=
  ops.foldl (convStep cfg) m

/-- The manager state after a sequence of operations on a fresh manager. -/
def convRun (cfg : ConvConfig) (ops : List ConvOp) : AList Session :=
  convRunFrom cfg [] ops

/-- The session ids handed out by `createSession` along a trace. -/
def issuedIds (ops : List ConvOp) : List String :=
  ops.filterMap (fun op => match op with
    | .create sid _ => some sid
    | _ => none)

/-- States whose key list is duplicate-free. -/
def KeysND {α : Type} (m : AList α) : Prop := (m.map Prod.fst).Nodup

/-- A sequence of `addMessage` calls for one session, as a fold. -/
def runAdds (cfg : ConvConfig) (sid : String) (adds : List (Message × Nat))
    (m : AList Session) : AList Session :=
  adds.foldl (fun m p => addMessage cfg p.2 m sid p.1) m

def MAX_PROMPT_LENGTH : Nat := 500000

def MAX_QUERY_LENGTH : Nat := 50000

def MAX_CACHE_SIZE : Nat := 100

def CACHE_TTL_MS : Nat := 3600000

def MAX_MULTIMODAL_PARTS : Nat := 20

def MAX_BASE64_SIZE : Nat := 20 * 1024 * 1024

/-- `validateTextInput`: `!input || input.trim().length === 0` throws
"cannot be empty"; then `input.length > maxLength` throws "too long". -/
def validateTextInput (input : String) (fieldName : String) (maxLength : Nat) :
    Except String Unit :=
  if input.length = 0 ∨ (jsTrim input).length = 0 then
    .error (fieldName ++ " cannot be empty")
  else if input.length > maxLength then
    .error (fieldName ++ " too long")
  else
    .ok ()

def validatePrompt (prompt : String) : Except String Unit :=
  validateTextInput prompt "Prompt" MAX_PROMPT_LENGTH

def validateQuery (query : String) : Except String Unit :=
  validateTextInput query "Query" MAX_QUERY_LENGTH

/-- A multimodal part as seen by `validateMultimodalParts`: only
`part.inlineData?.data` is inspected, embedded as an `Option String`
(`none` when `inlineData` or `data` is absent). -/
structure MultimodalPart where
  inlineData : Option String

deriving DecidableEq, Repr

/-- The `for (const part of parts)` loop body: `if (part.inlineData?.data)`
(JS truthiness: present and non-empty) then check
`data.length > MAX_BASE64_SIZE`. -/
def checkPartsSize : List MultimodalPart → Except String Unit
  | [] => .ok ()
  | p :: rest =>
      match p.inlineData with
      | some d =>
          if d.length = 0 then checkPartsSize rest
          else if d.length > MAX_BASE64_SIZE then .error "Base64 data too large"
          else checkPartsSize rest
      | none => checkPartsSize rest

/-- `validateMultimodalParts`: count cap first, then the per-part size loop. -/
def validateMultimodalParts (parts : List MultimodalPart) : Except String Unit :=
  if parts.length > MAX_MULTIMODAL_PARTS then
    .error "Too many multimodal parts"
  else
    checkPartsSize parts

/-- Decoded-byte estimate for a base64 string of length `len` (3 bytes per 4
base64 characters); the spec measures the 20MB cap "after decoding-size
estimation". -/
def base64DecodedEstimate (len : Nat) : Nat :=
  len * 3 / 4

/-! ## QueryHandler (src/handlers/QueryHandler.ts), conversation mode enabled

The backend call `claudeAI.query(prompt, conversationHistory)` is an external
async call; it is embedded as an explicit `backend : Except String String`
outcome parameter.  The fresh id that `createSession` would draw from
`crypto.randomBytes` is likewise an explicit parameter.  The result is the new
store together with either the thrown error or the response content paired
with the reported session id (`formatResponse` appends the latter). -/

/-- The session-resolution step of `QueryHandler.handle` (lines 38-48): with a
supplied sessionId, fetch its history; when the history is empty (unknown id,
or an existing session with zero messages) create a brand-new session;
otherwise keep the supplied id.  Without a sessionId, create a new session.
Returns (store, conversationHistory, effectiveSessionId). -/
def querySessionResolve (m : AList Session) (sessionId : Option String)
    (freshId : String) (now : Nat) : AList Session × List Message × String :=
  match sessionId with
  | some sid =>
      let r := getHistory now m sid
      if r.2.length = 0 then (createSession freshId now r.1, r.2, freshId)
      else (r.1, r.2, sid)
  | none => (createSession freshId now m, [], freshId)

def queryHandle (cfg : ConvConfig) (m : AList Session) (prompt : String)
    (sessionId : Option String) (parts : List MultimodalPart)
    (freshId : String) (backend : Except String String) (now : Nat) :
    AList Session × Except String (String × Option String) :=
  match validatePrompt prompt with
  | .error e => (m, .error e)
  | .ok () =>
  match (if parts.length > 0 then validateMultimodalParts parts else .ok ()) with
  | .error e => (m, .error e)
  | .ok () =>
  let resolved := querySessionResolve m sessionId freshId now
  match backend with
  | .error e => (resolved.1, .error e)
  | .ok content =>
      (addMessage cfg now
        (addMessage cfg now resolved.1 resolved.2.2 ⟨Role.user, prompt⟩)
        resolved.2.2 ⟨Role.assistant, content⟩,
       .ok (content, some resolved.2.2))

/-- "Appended no message": every session in `m'` has the same message list it
had in `m`, and sessions new in `m'` have an empty list. -/
def MsgsPreserved (m m' : AList Session) : Prop :=
  ∀ id s', mapGet m' id = some s' →
    (∃ s, mapGet m id = some s ∧ s'.messages = s.messages) ∨
    (mapGet m id = none ∧ s'.messages = [])

structure CachedDocument where
  id : String
  title : String
  text : String
  url : String
  query : String
  timestamp : Nat

deriving DecidableEq, Repr

structure SearchResult where
  id : String
  title : String
  url : String

deriving DecidableEq, Repr

/-- JS `query.replace(/\s+/g, '-')`: each maximal whitespace run becomes one
dash. -/
def collapseWsDash : List Char → List Char
  | [] => []
  | c :: rest =>
      if jsIsWs c then '-' :: collapseWsDash (rest.dropWhile jsIsWs)
      else c :: collapseWsDash rest
termination_by l => l.length
decreasing_by
  · simp only [List.length_cons]
    exact Nat.lt_succ_of_le ((List.dropWhile_suffix jsIsWs).sublist.length_le)
  · simp

/-- JS `str.split(sep)` for a one-character separator, over the character
list ("a\nb" ↦ ["a","b"], "a\n" ↦ ["a",""], "" ↦ [""]). -/
def splitOnChar (sep : Char) : List Char → List (List Char)
  | [] => [[]]
  | c :: rest =>
      match splitOnChar sep rest with
      | [] => if c = sep then [[], []] else [[c]]
      | cur :: rs => if c = sep then [] :: cur :: rs else (c :: cur) :: rs

/-- `SearchHandler.parseSearchResults`: split the response into non-blank
lines, synthesize up to 3 results (`doc-NOW-i` ids) from lines longer than
10 characters, and fall back to a single result wrapping the query. -/
def parseSearchResults (responseText : String) (query : String) (nowMs : Nat) :
    List SearchResult :=
  let lines := ((splitOnChar '\n' responseText.data).map String.mk).filter
    (fun line => (jsTrim line).length != 0)
  let results := (lines.take 3).enum.filterMap (fun p =>
    if p.2.length > 10 then
      some { id := "doc-" ++ toString nowMs ++ "-" ++ toString p.1,
             title := jsTrim ⟨p.2.data.take 100⟩,
             url := "https://claude-search/" ++
               String.mk (collapseWsDash query.data) ++ "/" ++ toString p.1 }
    else none)
  if results.length = 0 then
    [{ id := "doc-" ++ toString nowMs ++ "-0",
       title := query,
       url := "https://claude-search/" ++ String.mk (collapseWsDash query.data) }]
  else results

/-- `SearchHandler.cleanupCache`: when `size >= MAX_CACHE_SIZE`, delete the
oldest `size - MAX_CACHE_SIZE + 10` entries (insertion order); then delete
every entry older than `CACHE_TTL_MS`. -/
def cleanupCache (now : Nat) (c : AList CachedDocument) : AList CachedDocument :=
  let c1 := if c.length ≥ MAX_CACHE_SIZE
    then c.drop (c.length - MAX_CACHE_SIZE + 10)
    else c
  c1.filter (fun p => ¬ (now - p.2.timestamp > CACHE_TTL_MS))

/-- `SearchHandler.handle`: validate the query, call the backend, parse the
results, clean the cache, then insert one `CachedDocument` per result.  On a
validation or backend error the catch block leaves the cache untouched. -/
def searchHandle (query : String) (backend : Except String String) (now : Nat)
    (c : AList CachedDocument) :
    AList CachedDocument × Except String (List SearchResult) :=
  match validateQuery query with
  | .error e => (c, .error e)
  | .ok () =>
  match backend with
  | .error e => (c, .error e)
  | .ok responseText =>
      let results := parseSearchResults responseText query now
      let c1 := cleanupCache now c
      let c2 := results.foldl (fun acc r => mapSet acc r.id
        { id := r.id, title := r.title, text := responseText, url := r.url,
          query := query, timestamp := now }) c1
      (c2, .ok results)

/-- `FetchHandler.handle`: a pure lookup; a miss yields the structured
not-found payload (no mutation either way). -/
def fetchHandle (docId : String) (c : AList CachedDocument) :
    AList CachedDocument × Option CachedDocument :=
  (c, mapGet c docId)

/-- One externally observable Document Cache operation. -/
inductive CacheOp
  | search (query : String) (backend : Except String String) (now : Nat)
  | fetch (id : String) (now : Nat)

deriving Repr

def cacheStep (c : AList CachedDocument) : CacheOp → AList CachedDocument
  | .search q b now => (searchHandle q b now c).1
  | .fetch id _ => (fetchHandle id c).1

def cacheRun (ops : List CacheOp) : AList CachedDocument :=
  ops.foldl cacheStep []

def EXECUTABLE_EXTENSIONS : List String :=
  [".exe", ".bat", ".cmd", ".com", ".msi", ".app", ".dmg", ".pkg",
   ".deb", ".rpm", ".sh", ".bash", ".zsh", ".fish", ".ps1", ".psm1",
   ".dll", ".so", ".dylib", ".jar", ".apk", ".ipa", ".vbs", ".wsf",
   ".scr", ".pif", ".gadget", ".msp", ".cpl", ".lnk", ".run"]

def isAbsolute (p : String) : Bool :=
  match p.data with
  | '/' :: _ => true
  | _ => false

/-- One step of Node's `normalizeString`: skip `""`/`"."`, pop on `".."`
(dropping above the root, as `resolve` does for absolute paths), push any
other segment. -/
def normStep (acc : List String) (seg : String) : List String :=
  if seg = "" ∨ seg = "." then acc
  else if seg = ".." then acc.dropLast
  else acc ++ [seg]

def normSegs (segs : List String) : List String :=
  segs.foldl normStep []

def joinSegs : List String → String
  | [] => ""
  | [s] => s
  | s :: rest => s ++ "/" ++ joinSegs rest

/-- `path.resolve(filePath)` with an absolute working directory. -/
def resolvePath (cwd : String) (p : String) : String :=
  let full := if isAbsolute p then p else cwd ++ "/" ++ p
  "/" ++ joinSegs (normSegs ((splitOnChar '/' full.data).map String.mk))

/-- The final path segment, ignoring trailing separators (the portion of the
string that `path.extname` inspects). -/
def lastSegment (p : String) : List Char :=
  ((p.data.reverse.dropWhile (fun c => c = '/')).takeWhile
    (fun c => ¬ (c = '/'))).reverse

/-- Node `path.extname` on a basename: empty when there is no dot, when the
only dot is the leading character (dotfile), or for `".."`; otherwise from
the last dot to the end. -/
def extOfBase (b : List Char) : String :=
  if ¬ b.contains '.' then ""
  else
    let afterLastDot := (b.reverse.takeWhile (fun c => ¬ (c = '.'))).reverse
    let ext := '.' :: afterLastDot
    if ext.length = b.length then ""
    else if b = ['.', '.'] then ""
    else String.mk ext

def extname (p : String) : String :=
  extOfBase (lastSegment p)

/-- JS `String.prototype.toLowerCase` on the character list. -/
def lowerStr (s : String) : String :=
  String.mk (s.data.map Char.toLower)

def strStartsWith (s pre : String) : Bool :=
  pre.data.isPrefixOf s.data

/-- `validateFileExtension`: deny-listed (lower-cased) extension throws
(`EXECUTABLE_EXTENSIONS.has(ext)` is set membership). -/
def validateFileExtension (filePath : String) : Except String Unit :=
  if lowerStr (extname filePath) ∈ EXECUTABLE_EXTENSIONS then
    .error "SecurityError: executable file type not allowed"
  else .ok ()

structure FileSecurityConfig where
  additionalSafeDirectories : List String := []
  allowAllDirectories : Bool := false

/-- `getDefaultSafeDirectories`: cwd plus Documents/Downloads/Desktop under
the home directory when one is configured. -/
def getDefaultSafeDirectories (cwd : String) (home : Option String) :
    List String :=
  [cwd] ++ (match home with
    | some h => [h ++ "/Documents", h ++ "/Downloads", h ++ "/Desktop"]
    | none => [])

def safeDirectories (cwd : String) (home : Option String)
    (config : FileSecurityConfig) : List String :=
  (getDefaultSafeDirectories cwd home ++ config.additionalSafeDirectories).map
    (resolvePath cwd)

/-- `validateFilePath`: resolve, reject executable extensions, then require
the resolved path to be equal to or a separator-bounded descendant of a safe
directory; return the resolved absolute path on success. -/
def validateFilePath (cwd : String) (home : Option String) (filePath : String)
    (config : FileSecurityConfig) : Except String String :=
  match validateFileExtension (resolvePath cwd filePath) with
  | .error e => .error e
  | .ok () =>
    if config.allowAllDirectories then .ok (resolvePath cwd filePath)
    else
      if (safeDirectories cwd home config).any
          (fun d => strStartsWith (resolvePath cwd filePath) (d ++ "/") ∨
            resolvePath cwd filePath = d)
      then .ok (resolvePath cwd filePath)
      else .error "SecurityError: file path is outside allowed directories"

structure Url where
  scheme : String
  host : String
  path : String

deriving DecidableEq, Repr

def digitsToNat : List Char → Option Nat
  | [] => none
  | l => l.foldl (fun acc c => match acc with
      | none => none
      | some n => if c.isDigit then some (n * 10 + (c.toNat - 48)) else none)
      (some 0)

/-- Dotted-quad IPv4 literal parsing (octets 0..255). -/
def parseIPv4 (host : String) : Option (Nat × Nat × Nat × Nat) :=
  match (splitOnChar '.' host.data).map digitsToNat with
  | [some a, some b, some c, some d] =>
      if a ≤ 255 ∧ b ≤ 255 ∧ c ≤ 255 ∧ d ≤ 255 then some (a, b, c, d) else none
  | _ => none

/-- Modelled from the spec: the private/loopback/link-local/metadata host
test of `assertFetchAllowed` (§4.3) — `src/utils/urlSecurity.ts` is missing
from the corpus.  RFC1918 ranges, 127.0.0.0/8, 169.254.0.0/16 (which covers
the 169.254.169.254 metadata address), the GCP metadata hostnames and the
Alibaba metadata IP 100.100.100.200. -/
def isPrivateHost (host : String) : Bool :=
  if host = "metadata.google.internal" ∨ host = "metadata.goog" then true
  else match parseIPv4 host with
    | some (a, b, c, d) =>
        a = 10 ∨ (a = 172 ∧ 16 ≤ b ∧ b ≤ 31) ∨ (a = 192 ∧ b = 168) ∨
          a = 127 ∨ (a = 169 ∧ b = 254) ∨ (a = 100 ∧ b = 100 ∧ c = 100 ∧ d = 200)
    | none => false

/-- Modelled from the spec: `validateSecureUrl` — https only, no
private/metadata hosts. -/
def validateSecureUrl (u : Url) : Except String Unit :=
  if u.scheme ≠ "https" then .error "SecurityError: only https is allowed"
  else if isPrivateHost u.host then
    .error "SecurityError: private or metadata host blocked"
  else .ok ()

/-- Modelled from the spec: `validateRedirectUrl` — the same base checks as a
fresh fetch on the target, plus rejection when the target's host differs from
the current URL's host. -/
def validateRedirectUrl (original target : Url) : Except String Unit :=
  match validateSecureUrl target with
  | .error e => .error e
  | .ok () =>
      if target.host ≠ original.host then
        .error "SecurityError: cross-domain redirect blocked"
      else .ok ()

/-- One network response, as the handler observes it. -/
inductive FetchResponse
  | redirect (location : Url)
  | success (content : String)
  | httpError (status : Nat)

def MAX_REDIRECTS : Nat := 5

/-- The `while (redirectCount < MAX_REDIRECTS)` loop of
`fetchWithRedirectValidation`, with `fuel = MAX_REDIRECTS - redirectCount`,
instrumented with the list of URLs actually requested, in request order. -/
def fetchLoop (net : Url → FetchResponse) :
    Nat → Url → Except String (String × Url) × List Url
  | 0, _ => (.error "Too many redirects", [])
  | fuel + 1, cur =>
      match net cur with
      | .redirect loc =>
          match validateRedirectUrl cur loc with
          | .error e => (.error e, [cur])
          | .ok () =>
              let r := fetchLoop net fuel loc
              (r.1, cur :: r.2)
      | .success content => (.ok (content, cur), [cur])
      | .httpError _ => (.error "HTTP error", [cur])

/-- `WebFetchHandler.handle`'s security gate plus the redirect loop (content
truncation and tagging after the loop do not touch the URLs). -/
def webFetchHandle (net : Url → FetchResponse) (u : Url) :
    Except String (String × Url) × List Url :=
  match validateSecureUrl u with
  | .error e => (.error e, [])
  | .ok () => fetchLoop net MAX_REDIRECTS u

/-- Every adjacent pair of requested URLs passed `validateRedirectUrl`. -/
def ChainValidated : List Url → Prop
  | [] => True
  | [_] => True
  | a :: b :: rest => validateRedirectUrl a b = .ok () ∧ ChainValidated (b :: rest)

-- ### Redaction Filter: sanitizeForLogging (securityLimits.ts) ###


/-- ASCII lower-casing, the case folding the `i` regex flag applies to the
ASCII literals of the two redaction patterns. -/
def lowerChar (c : Char) : Char :=
  if 65 ≤ c.toNat ∧ c.toNat ≤ 90 then Char.ofNat (c.toNat + 32) else c

/-- Regex `\d`. -/
def isDigitC (c : Char) : Bool := decide (48 ≤ c.toNat ∧ c.toNat ≤ 57)

/-- Regex `\w` = `[A-Za-z0-9_]`. -/
def isWordC (c : Char) : Bool :=
  decide (48 ≤ c.toNat ∧ c.toNat ≤ 57 ∨ 65 ≤ c.toNat ∧ c.toNat ≤ 90 ∨
    97 ≤ c.toNat ∧ c.toNat ≤ 122 ∨ c.toNat = 95)

/-- Regex `[\w-]`. -/
def isWordDashC (c : Char) : Bool := isWordC c || decide (c.toNat = 45)

/-- Strip a lower-cased literal off the head of the text, case-insensitively;
`some rest` on success. -/
def stripCI : List Char → List Char → Option (List Char)
  | [], cs => some cs
  | _ :: _, [] => none
  | p :: ps, c :: cs => if lowerChar c = p then stripCI ps cs else none

/-- Both redaction regexes have the shape
`literal (ci) · class1+ · [separator] · class2+` (greedy; no backtracking can
help, because each class is disjoint from the element that follows it). -/
structure Pat where
  lit : List Char
  cls1 : Char → Bool
  sep : Option Char
  cls2 : Char → Bool

/-- Consume the optional literal separator. -/
def sepMatch : Option Char → List Char → Option (List Char)
  | some _, [] => none
  | some s, c :: r3 => if c = s then some r3 else none
  | none, r2 => some r2

/-- After `literal · class1+`: consume the separator, then a nonempty greedy
`class2+` run. -/
def tailMatch (sep : Option Char) (cls2 : Char → Bool) (r2 : List Char) :
    Option (List Char) :=
  match sepMatch sep r2 with
  | none => none
  | some r3 =>
      if (r3.takeWhile cls2).isEmpty then none
      else some (r3.dropWhile cls2)

/-- Try to match the pattern at the head of the text; `some rest` returns the
text after the greedy match. -/
def tryMatchG (p : Pat) (cs : List Char) : Option (List Char) :=
  match stripCI p.lit cs with
  | none => none
  | some r1 =>
      if (r1.takeWhile p.cls1).isEmpty then none
      else tailMatch p.sep p.cls2 (r1.dropWhile p.cls1)

/-- `/sk-ant-api\d+-[\w-]+/gi` -/
def skPat : Pat := ⟨"sk-ant-api".data, isDigitC, some '-', isWordDashC⟩

/-- `/Bearer\s+[\w-]+/gi` -/
def bearerPat : Pat := ⟨"bearer".data, jsIsWs, none, isWordDashC⟩

def skMask : List Char := "sk-ant-***".data

def bearerMask : List Char := "Bearer ***".data

/-- `String.prototype.replace` with a global regex: scan left to right, at
each position either emit the replacement and resume after the match, or copy
one character. The fuel argument is only a structural-termination device;
`replaceG` supplies enough for the whole scan. -/
def replaceGF (p : Pat) (mask : List Char) : Nat → List Char → List Char
  | _, [] => []
  | 0, cs => cs
  | fuel + 1, c :: cs' =>
      match tryMatchG p (c :: cs') with
      | some rest => mask ++ replaceGF p mask fuel rest
      | none => c :: replaceGF p mask fuel cs'

def replaceG (p : Pat) (mask : List Char) (cs : List Char) : List Char :=
  replaceGF p mask cs.length cs

def replaceSk (cs : List Char) : List Char := replaceG skPat skMask cs

def replaceBearer (cs : List Char) : List Char := replaceG bearerPat bearerMask cs

/-- Decimal digit character. -/
def digitChar (n : Nat) : Char := Char.ofNat (48 + n % 10)

/-- JS number-to-string for a nonnegative integer (template literal
`${n}`); the fuel argument is only a structural-termination device. -/
def natDigitsF : Nat → Nat → List Char
  | 0, n => [digitChar n]
  | fuel + 1, n =>
      if n < 10 then [digitChar n]
      else natDigitsF fuel (n / 10) ++ [digitChar (n % 10)]

def natDigits (n : Nat) : List Char := natDigitsF n n

/-- Both regex replacements applied in source order. -/
def maskedStr (s : List Char) : List Char := replaceBearer (replaceSk s)

/-- `` `${...}...[${n} chars total]...${...}` ``'s middle part. -/
def truncMarker (n : Nat) : List Char :=
  "...[".data ++ natDigits n ++ " chars total]...".data

/-- The string branch of `sanitizeForLogging`: mask API keys and bearer
tokens, then truncate results longer than 200 characters to
`first100...[N chars total]...last50`. -/
def sanitizeStr (s : List Char) : List Char :=
  if 200 < (maskedStr s).length then
    (maskedStr s).take 100 ++ truncMarker (maskedStr s).length ++
      (maskedStr s).drop ((maskedStr s).length - 50)
  else maskedStr s

/-- A JSON-like runtime value (`any` that `sanitizeForLogging` recurses
over); strings are character lists. -/
inductive JsValue where
  | str (s : List Char)
  | num (n : Int)
  | bool (b : Bool)
  | null
  | arr (xs : List JsValue)
  | obj (kvs : List (List Char × JsValue))

/-- `hay.includes(sub)`. -/
def containsStr (hay sub : List Char) : Bool :=
  hay.tails.any fun t => sub.isPrefixOf t

/-- `lowerKey.includes('key') || ... ('token') || ('secret') ||
('password')`. -/
def sensitiveKey (k : List Char) : Bool :=
  containsStr (k.map lowerChar) "key".data ||
    containsStr (k.map lowerChar) "token".data ||
    containsStr (k.map lowerChar) "secret".data ||
    containsStr (k.map lowerChar) "password".data

/-- One object field of the output: `'***'` for sensitive keys, `[N chars]`
for a long string under the key `data`, else the recursive result `rec`. -/
def fieldOut (k : List Char) (v rec : JsValue) : JsValue :=
  if sensitiveKey k then .str "***".data
  else if k.map lowerChar = "data".data then
    match v with
    | .str s =>
        if 200 < s.length then
          .str ("[".data ++ natDigits s.length ++ " chars]".data)
        else rec
    | _ => rec
  else rec

mutual

/-- `sanitizeForLogging` (fileSecurity.ts): strings are masked and truncated,
arrays and objects are rebuilt key by key (array index keys are all-digit
strings, so they never hit the sensitive-key or `data` branches), other
primitives pass through. -/
def sanitizeVal : JsValue → JsValue
  | .str s => .str (sanitizeStr s)
  | .num n => .num n
  | .bool b => .bool b
  | .null => .null
  | .arr xs => .arr (sanitizeList xs)
  | .obj kvs => .obj (sanitizeKvs kvs)

def sanitizeList : List JsValue → List JsValue
  | [] => []
  | x :: xs => sanitizeVal x :: sanitizeList xs

def sanitizeKvs : List (List Char × JsValue) → List (List Char × JsValue)
  | [] => []
  | (k, v) :: kvs => (k, fieldOut k v (sanitizeVal v)) :: sanitizeKvs kvs

end

mutual

/-- Every string in the value is shorter than 2^53 (a JS string length is a
number below 2^53; V8 caps far lower). -/
def smallStrs : JsValue → Bool
  | .str s => decide (s.length < 2 ^ 53)
  | .num _ => true
  | .bool _ => true
  | .null => true
  | .arr xs => smallStrsList xs
  | .obj kvs => smallStrsKvs kvs

def smallStrsList : List JsValue → Bool
  | [] => true
  | x :: xs => smallStrs x && smallStrsList xs

def smallStrsKvs : List (List Char × JsValue) → Bool
  | [] => true
  | (_, v) :: kvs => smallStrs v && smallStrsKvs kvs

end

/-- Partially strip a literal against a prefix only: either a mismatch, the
prefix exhausted with pattern `ps` left over, or the pattern exhausted with
text `u'` left over. -/
inductive StripRes where
  | mismatch : StripRes
  | leftover : List Char → StripRes
  | done : List Char → StripRes

def stripRem : List Char → List Char → StripRes
  | [], u => .done u
  | ps, [] => .leftover ps
  | p :: ps, c :: u => if lowerChar c = p then stripRem ps u else .mismatch

/-- No suffix of the text opens a match. -/
def noM (p : Pat) (Y : List Char) : Prop :=
  ∀ X, X <:+ Y → tryMatchG p X = none

theorem takeLast_length {α : Type} (n : Nat) (l : List α) :
    (takeLast n l).length = min n l.length := by
  unfold takeLast
  rw [List.length_drop]
  omega

theorem takeLast_length_le {α : Type} (n : Nat) (l : List α) :
    (takeLast n l).length ≤ n := by
  rw [takeLast_length]
  omega

theorem takeLast_of_length_le {α : Type} {n : Nat} {l : List α}
    (h : l.length ≤ n) : takeLast n l = l := by
  unfold takeLast
  rw [Nat.sub_eq_zero_of_le h, List.drop_zero]

theorem takeLast_append_singleton {α : Type} (n : Nat) (l : List α) (x : α)
    (hn : 1 ≤ n) :
    (if (takeLast n l ++ [x]).length > n
      then takeLast n (takeLast n l ++ [x])
      else takeLast n l ++ [x]) = takeLast n (l ++ [x]) := by
  by_cases hlen : l.length < n
  · have h1 : takeLast n l = l := takeLast_of_length_le (Nat.le_of_lt hlen)
    have h2 : (l ++ [x]).length ≤ n := by
      rw [List.length_append]
      simp only [List.length_singleton]
      omega
    rw [h1, takeLast_of_length_le h2, ite_self]
  · push_neg at hlen
    have htl : (takeLast n l).length = n := by rw [takeLast_length]; omega
    have hcond : (takeLast n l ++ [x]).length > n := by
      rw [List.length_append, htl]
      simp
    rw [if_pos hcond]
    show takeLast n (takeLast n l ++ [x]) = takeLast n (l ++ [x])
    unfold takeLast
    rw [List.length_append, List.length_append, List.length_drop]
    simp only [List.length_singleton]
    have e1 : l.length - (l.length - n) + 1 - n = 1 := by omega
    have e2 : l.length + 1 - n = (l.length - n) + 1 := by omega
    rw [e1, e2]
    rw [List.drop_append_of_le_length (by rw [List.length_drop]; omega),
      List.drop_append_of_le_length (by omega), List.drop_drop]

/-! ## ConversationManager (src/managers/ConversationManager.ts)

Sessions live in a `Map<string, Session>`; `Date.now()` is threaded through as
an explicit `now : Nat` parameter, and the `crypto.randomBytes(16).toString('hex')`
session id is an explicit parameter of `createSession` (freshness becomes a
hypothesis where a theorem needs it). -/

theorem mapGet_mapSet_ne {α : Type} (m : AList α) {k k' : String} (v : α)
    (h : k ≠ k') : mapGet (mapSet m k v) k' = mapGet m k' := by
  induction m with
  | nil => simp [mapSet, mapGet, h]
  | cons p rest ih =>
      by_cases hk : p.1 = k
      · simp [mapSet, hk, mapGet, h]
      · simp only [mapSet, hk, if_false]
        by_cases hk' : p.1 = k'
        · simp [mapGet, hk']
        · simp [mapGet, hk', ih]

theorem mapGet_mapSet_eq {α : Type} (m : AList α) (k : String) (v : α) :
    mapGet (mapSet m k v) k = some v := by
  induction m with
  | nil => simp [mapSet, mapGet]
  | cons p rest ih =>
      by_cases hk : p.1 = k
      · simp [mapSet, hk, mapGet]
      · simp [mapSet, hk, mapGet, ih]

/-- No operation other than a `create sid` can make an absent `sid` present. -/
theorem convStep_absent (cfg : ConvConfig) (m : AList Session) (op : ConvOp)
    (sid : String) (habs : mapGet m sid = none)
    (hop : ∀ now, op ≠ .create sid now) :
    mapGet (convStep cfg m op) sid = none := by
  cases op with
  | create sid' now =>
      have hne : sid' ≠ sid := fun h => hop now (by rw [h])
      simpa [convStep, createSession, mapGet_mapSet_ne m _ hne] using habs
  | get sid' now =>
      simp only [convStep, getSession]
      cases hg : mapGet m sid' with
      | none => simpa using habs
      | some s =>
          have hne : sid' ≠ sid := by
            intro h
            rw [h, habs] at hg
            exact Option.noConfusion hg
          simpa [mapGet_mapSet_ne m _ hne] using habs
  | add sid' msg now =>
      simp only [convStep, addMessage, getSession]
      cases hg : mapGet m sid' with
      | none => simpa using habs
      | some s =>
          have hne : sid' ≠ sid := by
            intro h
            rw [h, habs] at hg
            exact Option.noConfusion hg
          simpa [mapGet_mapSet_ne _ _ hne, mapGet_mapSet_ne m _ hne] using habs
  | history sid' now =>
      simp only [convStep, getHistory, getSession]
      cases hg : mapGet m sid' with
      | none => simpa using habs
      | some s =>
          have hne : sid' ≠ sid := by
            intro h
            rw [h, habs] at hg
            exact Option.noConfusion hg
          simpa [mapGet_mapSet_ne m _ hne] using habs
  | cleanup now =>
      simp only [convStep, cleanupExpiredSessions]
      induction m with
      | nil => simp [mapGet]
      | cons p rest ih =>
          by_cases hp : p.1 = sid
          · rw [mapGet, if_pos hp] at habs
            exact Option.noConfusion habs
          · rw [mapGet, if_neg hp] at habs
            by_cases hkeep : ¬ (now - p.2.lastActivity > cfg.sessionTimeout * 1000)
            · simpa [List.filter, hkeep, mapGet, hp] using ih habs
            · simpa [List.filter, hkeep] using ih habs

theorem convRunFrom_absent (cfg : ConvConfig) (ops : List ConvOp) :
    ∀ (m : AList Session) (sid : String), mapGet m sid = none →
      sid ∉ issuedIds ops → mapGet (convRunFrom cfg m ops) sid = none := by
  induction ops with
  | nil => intro m sid habs _; exact habs
  | cons op rest ih =>
      intro m sid habs hni
      have hni' : sid ∉ issuedIds rest := by
        intro hmem
        apply hni
        simp only [issuedIds, List.filterMap_cons]
        cases op <;> simp_all [issuedIds]
      refine ih _ sid ?_ hni'
      apply convStep_absent cfg m op sid habs
      intro now hop
      apply hni
      rw [hop]
      simp [issuedIds]

theorem mapGet_filter_none {α : Type} (f : String × α → Bool) (m : AList α)
    (sid : String) (h : mapGet m sid = none) :
    mapGet (m.filter f) sid = none := by
  induction m with
  | nil => simp [mapGet]
  | cons p rest ih =>
      by_cases hp : p.1 = sid
      · rw [mapGet, if_pos hp] at h
        exact Option.noConfusion h
      · rw [mapGet, if_neg hp] at h
        by_cases hf : f p
        · simpa [List.filter, hf, mapGet, hp] using ih h
        · simpa [List.filter, hf] using ih h

theorem mapGet_none_of_not_mem {α : Type} (m : AList α) (sid : String)
    (h : sid ∉ m.map Prod.fst) : mapGet m sid = none := by
  induction m with
  | nil => simp [mapGet]
  | cons p rest ih =>
      simp only [List.map_cons, List.mem_cons] at h
      push_neg at h
      rw [mapGet, if_neg (Ne.symm h.1)]
      exact ih h.2

theorem keysND_mapSet {α : Type} (m : AList α) (k : String) (v : α)
    (h : KeysND m) : KeysND (mapSet m k v) := by
  induction m with
  | nil => simp [mapSet, KeysND]
  | cons p rest ih =>
      simp only [KeysND, List.map_cons, List.nodup_cons] at h
      by_cases hk : p.1 = k
      · simpa [mapSet, hk, KeysND] using ⟨by simpa [hk] using h.1, h.2⟩
      · have hrest := ih h.2
        simp only [mapSet, hk, if_false, KeysND, List.map_cons, List.nodup_cons]
        refine ⟨?_, hrest⟩
        intro hmem
        -- membership in keys of `mapSet rest k v` is membership in `keys rest ∪ {k}`
        have : p.1 ∈ (rest.map Prod.fst) ∨ p.1 = k := by
          clear h hrest ih
          induction rest with
          | nil => simpa [mapSet] using hmem
          | cons q qs ihq =>
              by_cases hq : q.1 = k
              · simp only [mapSet, hq, if_true, List.map_cons, List.mem_cons] at hmem
                rcases hmem with h1 | h2
                · right; exact h1
                · left; simp [h2]
              · simp only [mapSet, hq, if_false, List.map_cons, List.mem_cons] at hmem
                rcases hmem with h1 | h2
                · left; simp [h1]
                · rcases ihq h2 with h3 | h3
                  · left; simp [h3]
                  · right; exact h3
        rcases this with h1 | h1
        · exact h.1 h1
        · exact hk h1

theorem keysND_filter {α : Type} (f : String × α → Bool) (m : AList α)
    (h : KeysND m) : KeysND (m.filter f) := by
  have : (m.filter f).map Prod.fst |>.Sublist (m.map Prod.fst) :=
    (List.filter_sublist m).map Prod.fst
  exact this.nodup h

theorem keysND_convStep (cfg : ConvConfig) (m : AList Session) (op : ConvOp)
    (h : KeysND m) : KeysND (convStep cfg m op) := by
  cases op with
  | create sid now => exact keysND_mapSet m sid _ h
  | get sid now =>
      simp only [convStep, getSession]
      cases mapGet m sid with
      | some s => exact keysND_mapSet m sid _ h
      | none => exact h
  | add sid msg now =>
      simp only [convStep, addMessage, getSession]
      cases mapGet m sid with
      | some s => exact keysND_mapSet _ sid _ (keysND_mapSet m sid _ h)
      | none => exact h
  | history sid now =>
      simp only [convStep, getHistory, getSession]
      cases mapGet m sid with
      | some s => exact keysND_mapSet m sid _ h
      | none => exact h
  | cleanup now => exact keysND_filter _ m h

theorem keysND_convRunFrom (cfg : ConvConfig) (ops : List ConvOp) :
    ∀ (m : AList Session), KeysND m → KeysND (convRunFrom cfg m ops) := by
  induction ops with
  | nil => intro m h; exact h
  | cons op rest ih =>
      intro m h
      exact ih _ (keysND_convStep cfg m op h)

theorem keysND_convRun (cfg : ConvConfig) (ops : List ConvOp) :
    KeysND (convRun cfg ops) :=
  keysND_convRunFrom cfg ops [] (by simp [KeysND])

/-- A cleanup pass deletes a session whose age exceeds the timeout. -/
theorem cleanup_removes_expired (cfg : ConvConfig) (t : Nat) (m : AList Session)
    (sid : String) (s : Session) (hnd : KeysND m) (hg : mapGet m sid = some s)
    (hexp : t - s.lastActivity > cfg.sessionTimeout * 1000) :
    mapGet (cleanupExpiredSessions cfg t m) sid = none := by
  induction m with
  | nil => simp [mapGet] at hg
  | cons p rest ih =>
      simp only [KeysND, List.map_cons, List.nodup_cons] at hnd
      simp only [cleanupExpiredSessions, List.filter_cons]
      by_cases hp : p.1 = sid
      · rw [mapGet, if_pos hp] at hg
        injection hg with hg
        subst hg
        rw [if_neg (by simp only [decide_eq_true_eq, not_not]; exact hexp)]
        apply mapGet_filter_none
        apply mapGet_none_of_not_mem
        exact hp ▸ hnd.1
      · rw [mapGet, if_neg hp] at hg
        have hrec := ih hnd.2 hg
        simp only [cleanupExpiredSessions] at hrec
        by_cases hkeep : ¬ (t - p.2.lastActivity > cfg.sessionTimeout * 1000)
        · rw [if_pos (by simp only [decide_eq_true_eq]; exact hkeep)]
          rw [mapGet, if_neg hp]
          exact hrec
        · rw [if_neg (by simp only [decide_eq_true_eq]; exact hkeep)]
          exact hrec

theorem getSession_snd_none (now : Nat) (m : AList Session) (sid : String)
    (h : mapGet m sid = none) : (getSession now m sid).2 = none := by
  unfold getSession
  rw [h]

theorem getSession_snd_some (now : Nat) (m : AList Session) (sid : String)
    (s : Session) (h : mapGet m sid = some s) :
    (getSession now m sid).2 = some { s with lastActivity := now } := by
  unfold getSession
  rw [h]

theorem runAdds_messages_aux (cfg : ConvConfig) (hn : 1 ≤ cfg.maxHistory)
    (sid : String) :
    ∀ (adds : List (Message × Nat)) (m : AList Session) (s : Session)
      (acc : List Message),
      mapGet m sid = some s → s.messages = takeLast cfg.maxHistory acc →
      ∃ s', mapGet (runAdds cfg sid adds m) sid = some s' ∧
        s'.messages = takeLast cfg.maxHistory (acc ++ adds.map Prod.fst) := by
  intro adds
  induction adds with
  | nil =>
      intro m s acc hg hs
      exact ⟨s, by simpa [runAdds] using hg, by simpa using hs⟩
  | cons p rest ih =>
      intro m s acc hg hs
      have hpt : pushTrunc cfg.maxHistory s.messages p.1 =
          takeLast cfg.maxHistory (acc ++ [p.1]) := by
        unfold pushTrunc
        rw [hs]
        rw [show jsSliceNeg cfg.maxHistory = takeLast cfg.maxHistory from
          funext (fun l => by unfold jsSliceNeg; rw [if_neg (by omega)])]
        exact takeLast_append_singleton cfg.maxHistory acc p.1 hn
      have hadd : addMessage cfg p.2 m sid p.1 =
          mapSet (mapSet m sid { s with lastActivity := p.2 }) sid
            { id := s.id, messages := takeLast cfg.maxHistory (acc ++ [p.1]),
              lastActivity := p.2 } := by
        unfold addMessage getSession
        rw [hg]
        show mapSet (mapSet m sid { s with lastActivity := p.2 }) sid
            { id := s.id, messages := pushTrunc cfg.maxHistory s.messages p.1,
              lastActivity := p.2 } = _
        rw [hpt]
      have hstep : runAdds cfg sid (p :: rest) m =
          runAdds cfg sid rest (addMessage cfg p.2 m sid p.1) := rfl
      rw [hstep, hadd]
      obtain ⟨s', h1, h2⟩ := ih (mapSet (mapSet m sid { s with lastActivity := p.2 }) sid
          { id := s.id, messages := takeLast cfg.maxHistory (acc ++ [p.1]),
            lastActivity := p.2 })
        { id := s.id, messages := takeLast cfg.maxHistory (acc ++ [p.1]),
          lastActivity := p.2 } (acc ++ [p.1]) (mapGet_mapSet_eq _ _ _) rfl
      refine ⟨s', h1, ?_⟩
      rw [h2]
      simp [List.append_assoc]

/-- C1 (amended, part of the development for the claim): over any trace,
`getSession` is total (it is a Lean function), returns `none` for ids never
issued and for ids reaped by a cleanup and not re-issued; but for an
expired-not-yet-reaped id it returns the stored session with `lastActivity`
refreshed, rather than absent. -/
theorem C1_getSession_amended (cfg : ConvConfig) :
    (∀ (ops : List ConvOp) (sid : String) (now : Nat),
        sid ∉ issuedIds ops →
        (getSession now (convRun cfg ops) sid).2 = none) ∧
    (∀ (ops₁ : List ConvOp) (t : Nat) (ops₂ : List ConvOp) (sid : String)
        (s : Session) (now : Nat),
        mapGet (convRun cfg ops₁) sid = some s →
        t - s.lastActivity > cfg.sessionTimeout * 1000 →
        sid ∉ issuedIds ops₂ →
        (getSession now (convRun cfg (ops₁ ++ ConvOp.cleanup t :: ops₂)) sid).2 = none) ∧
    (∀ (m : AList Session) (sid : String) (s : Session) (now : Nat),
        mapGet m sid = some s →
        (getSession now m sid).2 = some { s with lastActivity := now }) := by
  refine ⟨?_, ?_, ?_⟩
  · intro ops sid now hni
    exact getSession_snd_none now _ sid
      (convRunFrom_absent cfg ops [] sid rfl hni)
  · intro ops₁ t ops₂ sid s now hg hexp hni
    apply getSession_snd_none
    have hsplit : convRun cfg (ops₁ ++ ConvOp.cleanup t :: ops₂) =
        convRunFrom cfg (convStep cfg (convRun cfg ops₁) (ConvOp.cleanup t)) ops₂ := by
      unfold convRun convRunFrom
      rw [List.foldl_append]
      rfl
    rw [hsplit]
    apply convRunFrom_absent cfg ops₂ _ sid _ hni
    exact cleanup_removes_expired cfg t _ sid s (keysND_convRun cfg ops₁) hg hexp
  · intro m sid s now hg
    exact getSession_snd_some now m sid s hg

/-- C1 counterexample: the session "a" was created at time 0 with
`sessionTimeout = 10` seconds; at time 20000 ms its age exceeds
`sessionTimeout * 1000`, no reaper pass has run, and `getSession` returns the
session (with refreshed `lastActivity`) instead of absent. -/
theorem C1_counterexample :
    20000 - 0 > (⟨10, 10⟩ : ConvConfig).sessionTimeout * 1000 ∧
    (getSession 20000 (convRun ⟨10, 10⟩ [ConvOp.create "a" 0]) "a").2 =
      some { id := "a", messages := [], lastActivity := 20000 } := by
  constructor
  · decide
  · rfl

theorem C1_witness :
    (getSession 5 (convRun ⟨10, 10⟩ [ConvOp.create "b" 0]) "a").2 = none ∧
    (getSession 7 (convRun ⟨10, 10⟩
      ([ConvOp.create "a" 0] ++ ConvOp.cleanup 20000 :: [])) "a").2 = none ∧
    (getSession 9 [("a", ⟨"a", [], 0⟩)] "a").2 = some ⟨"a", [], 9⟩ := by
  refine ⟨?_, ?_, ?_⟩
  · exact (C1_getSession_amended ⟨10, 10⟩).1 [ConvOp.create "b" 0] "a" 5 (by decide)
  · exact (C1_getSession_amended ⟨10, 10⟩).2.1 [ConvOp.create "a" 0] 20000 [] "a"
      ⟨"a", [], 0⟩ 7 (by decide) (by decide) (by decide)
  · exact (C1_getSession_amended ⟨10, 10⟩).2.2 [("a", ⟨"a", [], 0⟩)] "a"
      ⟨"a", [], 0⟩ 9 (by decide)

/-- C3 (amended): provided `maxHistory ≥ 1`, for every session (created empty)
and every sequence of `addMessage` calls on it, the stored list is exactly the
most recent `min (total, maxHistory)` appended messages in append order, hence
has length at most `maxHistory` after each call (instantiate `adds` at every
prefix), and `getHistory` returns exactly that list. -/
theorem C3_amended (cfg : ConvConfig) (hn : 1 ≤ cfg.maxHistory) (sid : String)
    (t₀ : Nat) (m₀ : AList Session) (hm : mapGet m₀ sid = some ⟨sid, [], t₀⟩)
    (adds : List (Message × Nat)) (now : Nat) :
    ∃ s', mapGet (runAdds cfg sid adds m₀) sid = some s' ∧
      s'.messages = takeLast cfg.maxHistory (adds.map Prod.fst) ∧
      s'.messages.length = min cfg.maxHistory adds.length ∧
      s'.messages.length ≤ cfg.maxHistory ∧
      (getHistory now (runAdds cfg sid adds m₀) sid).2 =
        takeLast cfg.maxHistory (adds.map Prod.fst) := by
  obtain ⟨s', h1, h2⟩ := runAdds_messages_aux cfg hn sid adds m₀ ⟨sid, [], t₀⟩ []
    hm (by simp [takeLast])
  simp only [List.nil_append] at h2
  have hlen : s'.messages.length = min cfg.maxHistory (adds.map Prod.fst).length := by
    rw [h2, takeLast_length]
  refine ⟨s', h1, h2, by simpa using hlen, by rw [hlen]; omega, ?_⟩
  unfold getHistory getSession
  rw [h1]
  exact h2

/-- C3 counterexample: with the reachable configuration `maxHistory = 0`
(CLAUDE_MAX_HISTORY=0), `messages.slice(-0)` returns the whole array, so one
`addMessage` leaves a stored list of length 1 > maxHistory. -/
theorem C3_counterexample :
    (⟨3600, 0⟩ : ConvConfig).maxHistory = 0 ∧
    mapGet (runAdds ⟨3600, 0⟩ "a" [(⟨Role.user, "hi"⟩, 1)]
      [("a", ⟨"a", [], 0⟩)]) "a" = some ⟨"a", [⟨Role.user, "hi"⟩], 1⟩ ∧
    ¬ ([(⟨Role.user, "hi"⟩ : Message)].length ≤ (⟨3600, 0⟩ : ConvConfig).maxHistory) := by
  refine ⟨rfl, by decide, by decide⟩

theorem C3_witness :
    (getHistory 5 (runAdds ⟨3600, 2⟩ "a"
      [(⟨Role.user, "m1"⟩, 1), (⟨Role.assistant, "m2"⟩, 2), (⟨Role.user, "m3"⟩, 3)]
      [("a", ⟨"a", [], 0⟩)]) "a").2 =
      [⟨Role.assistant, "m2"⟩, ⟨Role.user, "m3"⟩] := by
  obtain ⟨s', -, -, -, -, h5⟩ := C3_amended ⟨3600, 2⟩ (by decide) "a" 0
    [("a", ⟨"a", [], 0⟩)] (by decide)
    [(⟨Role.user, "m1"⟩, 1), (⟨Role.assistant, "m2"⟩, 2), (⟨Role.user, "m3"⟩, 3)] 5
  rw [h5]
  decide

/-! ## SecurityLimits and input validation (src/utils/securityLimits.ts)

JS string lengths are embedded as `String.length` on the Lean side; the thrown
`Error`s become `Except.error` carrying the message prefix. -/

theorem jsTrimList_eq_nil_iff (l : List Char) :
    jsTrimList l = [] ↔ ∀ c ∈ l, jsIsWs c = true := by
  unfold jsTrimList
  rw [List.reverse_eq_nil_iff, List.dropWhile_eq_nil_iff]
  constructor
  · intro h c hc
    have hsplit : l.takeWhile jsIsWs ++ l.dropWhile jsIsWs = l :=
      List.takeWhile_append_dropWhile jsIsWs l
    rw [← hsplit] at hc
    rcases List.mem_append.mp hc with h1 | h1
    · exact List.mem_takeWhile_imp h1
    · exact h _ (List.mem_reverse.mpr h1)
  · intro h c hc
    have h1 : l.dropWhile jsIsWs = [] :=
      List.dropWhile_eq_nil_iff.mpr (fun x hx => h x hx)
    rw [h1] at hc
    cases hc

/-- C7: `validateText(v, field, max)` throws iff `v` is empty or all
whitespace, or `v.length > max`; in particular a non-whitespace `v` with
`v.length = max` passes (the bound is inclusive). -/
theorem C7_validateText_iff (v fieldName : String) (maxLen : Nat) :
    (validateTextInput v fieldName maxLen ≠ .ok () ↔
      ((∀ c ∈ v.data, jsIsWs c = true) ∨ v.length > maxLen)) ∧
    ((¬ ∀ c ∈ v.data, jsIsWs c = true) → v.length = maxLen →
      validateTextInput v fieldName maxLen = .ok ()) := by
  have hwsiff : (v.length = 0 ∨ (jsTrim v).length = 0) ↔
      ∀ c ∈ v.data, jsIsWs c = true := by
    constructor
    · intro h
      rcases h with h | h
      · intro c hc
        rw [String.length, List.length_eq_zero] at h
        rw [h] at hc
        cases hc
      · have : jsTrimList v.data = [] := by
          have := h
          rw [show (jsTrim v).length = (jsTrimList v.data).length from rfl] at this
          exact List.length_eq_zero.mp this
        exact (jsTrimList_eq_nil_iff v.data).mp this
    · intro h
      right
      rw [show (jsTrim v).length = (jsTrimList v.data).length from rfl]
      rw [List.length_eq_zero]
      exact (jsTrimList_eq_nil_iff v.data).mpr h
  constructor
  · unfold validateTextInput
    by_cases h1 : v.length = 0 ∨ (jsTrim v).length = 0
    · rw [if_pos h1]
      simp only [ne_eq, reduceCtorEq, not_false_eq_true, true_iff]
      exact Or.inl (hwsiff.mp h1)
    · rw [if_neg h1]
      by_cases h2 : v.length > maxLen
      · rw [if_pos h2]
        simp only [ne_eq, reduceCtorEq, not_false_eq_true, true_iff]
        exact Or.inr h2
      · rw [if_neg h2]
        simp only [ne_eq, not_true_eq_false, false_iff, not_or]
        exact ⟨fun hws => h1 (hwsiff.mpr hws), h2⟩
  · intro hws hlen
    unfold validateTextInput
    rw [if_neg (fun h => hws (hwsiff.mp h)), if_neg (by omega)]

theorem C7_witness :
    validateTextInput "abc" "Prompt" 3 = .ok () ∧
    validateTextInput "abcd" "Prompt" 3 ≠ .ok () ∧
    validateTextInput "  " "Prompt" 3 ≠ .ok () := by
  refine ⟨?_, ?_, ?_⟩
  · exact (C7_validateText_iff "abc" "Prompt" 3).2 (by decide) (by decide)
  · exact (C7_validateText_iff "abcd" "Prompt" 3).1.mpr (Or.inr (by decide))
  · exact (C7_validateText_iff "  " "Prompt" 3).1.mpr (Or.inl (by decide))

theorem checkPartsSize_err (parts : List MultimodalPart) (p : MultimodalPart)
    (hp : p ∈ parts) (d : String) (hd : p.inlineData = some d)
    (hlen : d.length > MAX_BASE64_SIZE) : checkPartsSize parts ≠ .ok () := by
  induction parts with
  | nil => cases hp
  | cons q rest ih =>
      rcases List.mem_cons.mp hp with h | h
      · subst h
        unfold checkPartsSize
        rw [hd]
        show (if d.length = 0 then checkPartsSize rest
          else if d.length > MAX_BASE64_SIZE then Except.error "Base64 data too large"
          else checkPartsSize rest) ≠ Except.ok ()
        rw [if_neg (by unfold MAX_BASE64_SIZE at hlen; omega), if_pos hlen]
        simp
      · unfold checkPartsSize
        cases hq : q.inlineData with
        | none => exact ih h
        | some d' =>
            show (if d'.length = 0 then checkPartsSize rest
              else if d'.length > MAX_BASE64_SIZE then Except.error "Base64 data too large"
              else checkPartsSize rest) ≠ Except.ok ()
            by_cases h0 : d'.length = 0
            · rw [if_pos h0]; exact ih h
            · rw [if_neg h0]
              by_cases hbig : d'.length > MAX_BASE64_SIZE
              · rw [if_pos hbig]; simp
              · rw [if_neg hbig]; exact ih h

/-- C8: `validateMultimodalParts` fails when the part count exceeds
`MAX_MULTIMODAL_PARTS` (20), and when any part (at any position, not only the
first) carries inline base64 data whose decoded-size estimate exceeds
`MAX_BASE64_SIZE` (20MB); the code compares the raw base64 length, which
dominates the decoded estimate. -/
theorem C8_multimodal (parts : List MultimodalPart) :
    (parts.length > MAX_MULTIMODAL_PARTS →
      validateMultimodalParts parts ≠ .ok ()) ∧
    (∀ p ∈ parts, ∀ d, p.inlineData = some d →
      base64DecodedEstimate d.length > MAX_BASE64_SIZE →
      validateMultimodalParts parts ≠ .ok ()) := by
  constructor
  · intro hcount
    unfold validateMultimodalParts
    rw [if_pos hcount]
    simp
  · intro p hp d hd hest
    have hlen : d.length > MAX_BASE64_SIZE := by
      have h1 : base64DecodedEstimate d.length ≤ d.length := by
        unfold base64DecodedEstimate
        calc d.length * 3 / 4 ≤ d.length * 4 / 4 :=
              Nat.div_le_div_right (by omega)
          _ = d.length := Nat.mul_div_cancel d.length (by omega)
      omega
    unfold validateMultimodalParts
    by_cases hcount : parts.length > MAX_MULTIMODAL_PARTS
    · rw [if_pos hcount]; simp
    · rw [if_neg hcount]
      exact checkPartsSize_err parts p hp d hd hlen

theorem C8_witness :
    validateMultimodalParts (List.replicate 21 ⟨none⟩) ≠ .ok () :=
  (C8_multimodal (List.replicate 21 ⟨none⟩)).1 (by decide)

theorem takeLast_zero {α : Type} (l : List α) : takeLast 0 l = [] := by
  unfold takeLast
  rw [Nat.sub_zero]
  exact List.drop_length l

theorem takeLast_takeLast_of_le {α : Type} {a b : Nat} (h : a ≤ b) (l : List α) :
    takeLast a (takeLast b l) = takeLast a l := by
  unfold takeLast
  rw [List.length_drop, List.drop_drop]
  congr 1
  omega

theorem takeLast_succ_append {α : Type} (k : Nat) (L : List α) (a : α) :
    takeLast (k + 1) (L ++ [a]) = takeLast k L ++ [a] := by
  unfold takeLast
  rw [List.length_append, List.length_singleton]
  have e : L.length + 1 - (k + 1) = L.length - k := by omega
  rw [e, List.drop_append_of_le_length (by omega)]

theorem takeLast_pushTrunc_of_le {k n : Nat} (hk : k ≤ n) (hn : 1 ≤ n)
    (L : List Message) (x : Message) :
    takeLast k (pushTrunc n L x) = takeLast k (L ++ [x]) := by
  unfold pushTrunc jsSliceNeg
  by_cases hc : (L ++ [x]).length > n
  · rw [if_pos hc, if_neg (by omega)]
    exact takeLast_takeLast_of_le hk _
  · rw [if_neg hc]

theorem takeLast_two_pushTrunc {n : Nat} (hn : 2 ≤ n) (l : List Message)
    (u a : Message) :
    takeLast 2 (pushTrunc n (pushTrunc n l u) a) = [u, a] := by
  rw [takeLast_pushTrunc_of_le hn (by omega),
    show (2 : Nat) = 1 + 1 from rfl, takeLast_succ_append 1,
    takeLast_pushTrunc_of_le (by omega : 1 ≤ n) (by omega),
    show (1 : Nat) = 0 + 1 from rfl, takeLast_succ_append 0, takeLast_zero]
  simp

theorem msgsPreserved_refl (m : AList Session) : MsgsPreserved m m :=
  fun _ s' h => Or.inl ⟨s', h, rfl⟩

theorem mapGet_mapSet_none {α : Type} (m : AList α) (k : String) (v : α)
    (id : String) (h : mapGet (mapSet m k v) id = none) : mapGet m id = none := by
  by_cases hik : id = k
  · subst hik
    rw [mapGet_mapSet_eq] at h
    cases h
  · rwa [mapGet_mapSet_ne m v (fun he => hik he.symm)] at h

theorem msgsPreserved_trans (m x y : AList Session) (h1 : MsgsPreserved m x)
    (hnl : ∀ id, mapGet x id = none → mapGet m id = none)
    (h2 : MsgsPreserved x y) : MsgsPreserved m y := by
  intro id s' hy
  rcases h2 id s' hy with ⟨s₁, hx, he⟩ | ⟨hx, he⟩
  · rcases h1 id s₁ hx with ⟨s, hm, he'⟩ | ⟨hm, he'⟩
    · exact Or.inl ⟨s, hm, he.trans he'⟩
    · exact Or.inr ⟨hm, he.trans he'⟩
  · exact Or.inr ⟨hnl id hx, he⟩

theorem msgsPreserved_set_same (m : AList Session) (sid : String) (s v : Session)
    (hg : mapGet m sid = some s) (hv : v.messages = s.messages) :
    MsgsPreserved m (mapSet m sid v) := by
  intro id s' h
  by_cases hid : id = sid
  · subst hid
    rw [mapGet_mapSet_eq] at h
    injection h with h
    exact Or.inl ⟨s, hg, by rw [← h]; exact hv⟩
  · rw [mapGet_mapSet_ne m v (fun he => hid he.symm)] at h
    exact Or.inl ⟨s', h, rfl⟩

theorem msgsPreserved_set_new (m : AList Session) (sid : String) (v : Session)
    (hg : mapGet m sid = none) (hv : v.messages = []) :
    MsgsPreserved m (mapSet m sid v) := by
  intro id s' h
  by_cases hid : id = sid
  · subst hid
    rw [mapGet_mapSet_eq] at h
    injection h with h
    exact Or.inr ⟨hg, by rw [← h]; exact hv⟩
  · rw [mapGet_mapSet_ne m v (fun he => hid he.symm)] at h
    exact Or.inl ⟨s', h, rfl⟩

theorem msgsPreserved_refresh (now : Nat) (m : AList Session) (sid : String) :
    MsgsPreserved m ((getSession now m sid).1) := by
  unfold getSession
  cases hg : mapGet m sid with
  | none => exact msgsPreserved_refl m
  | some s => exact msgsPreserved_set_same m sid s _ hg rfl

theorem noLoss_refresh (now : Nat) (m : AList Session) (sid : String) :
    ∀ id, mapGet ((getSession now m sid).1) id = none → mapGet m id = none := by
  unfold getSession
  cases hg : mapGet m sid with
  | none => exact fun _ h => h
  | some s => exact fun id h => mapGet_mapSet_none _ _ _ _ h

theorem refresh_preserves_absent (now : Nat) (m : AList Session)
    (sid fid : String) (hf : mapGet m fid = none) :
    mapGet ((getSession now m sid).1) fid = none := by
  unfold getSession
  cases hg : mapGet m sid with
  | none => exact hf
  | some s =>
      have hne : sid ≠ fid := by
        intro he
        rw [he, hf] at hg
        cases hg
      rwa [mapGet_mapSet_ne m _ hne]

theorem querySessionResolve_preserved (m : AList Session)
    (sessionId : Option String) (freshId : String) (now : Nat)
    (hfresh : mapGet m freshId = none) :
    MsgsPreserved m (querySessionResolve m sessionId freshId now).1 := by
  cases sessionId with
  | none => exact msgsPreserved_set_new m freshId _ hfresh rfl
  | some sid =>
      have hhist : (getHistory now m sid).1 = (getSession now m sid).1 := by
        unfold getHistory
        cases hg : getSession now m sid with
        | mk a b => cases b <;> rfl
      show MsgsPreserved m
        (if (getHistory now m sid).2.length = 0
          then (createSession freshId now (getHistory now m sid).1,
                (getHistory now m sid).2, freshId)
          else ((getHistory now m sid).1, (getHistory now m sid).2, sid)).1
      by_cases hemp : (getHistory now m sid).2.length = 0
      · rw [if_pos hemp]
        show MsgsPreserved m (createSession freshId now (getHistory now m sid).1)
        rw [hhist]
        refine msgsPreserved_trans m _ _ (msgsPreserved_refresh now m sid)
          (noLoss_refresh now m sid) ?_
        exact msgsPreserved_set_new _ freshId _
          (refresh_preserves_absent now m sid freshId hfresh) rfl
      · rw [if_neg hemp]
        show MsgsPreserved m (getHistory now m sid).1
        rw [hhist]
        exact msgsPreserved_refresh now m sid

theorem querySessionResolve_found (m : AList Session)
    (sessionId : Option String) (freshId : String) (now : Nat) :
    ∃ s₀, mapGet (querySessionResolve m sessionId freshId now).1
      (querySessionResolve m sessionId freshId now).2.2 = some s₀ := by
  cases sessionId with
  | none => exact ⟨_, mapGet_mapSet_eq m freshId _⟩
  | some sid =>
      show ∃ s₀,
        mapGet (if (getHistory now m sid).2.length = 0
            then (createSession freshId now (getHistory now m sid).1,
                  (getHistory now m sid).2, freshId)
            else ((getHistory now m sid).1, (getHistory now m sid).2, sid)).1
          (if (getHistory now m sid).2.length = 0
            then (createSession freshId now (getHistory now m sid).1,
                  (getHistory now m sid).2, freshId)
            else ((getHistory now m sid).1, (getHistory now m sid).2, sid)).2.2 =
          some s₀
      by_cases hemp : (getHistory now m sid).2.length = 0
      · rw [if_pos hemp]
        exact ⟨_, mapGet_mapSet_eq _ freshId _⟩
      · rw [if_neg hemp]
        show ∃ s₀, mapGet (getHistory now m sid).1 sid = some s₀
        unfold getHistory getSession at hemp ⊢
        cases hg : mapGet m sid with
        | none =>
            rw [hg] at hemp
            exact absurd rfl hemp
        | some s => exact ⟨_, mapGet_mapSet_eq m sid _⟩

theorem addMessage_found (cfg : ConvConfig) (now : Nat) (x : AList Session)
    (eid : String) (s₀ : Session) (hx : mapGet x eid = some s₀) (msg : Message) :
    addMessage cfg now x eid msg =
      mapSet (mapSet x eid { s₀ with lastActivity := now }) eid
        { id := s₀.id, messages := pushTrunc cfg.maxHistory s₀.messages msg,
          lastActivity := now } := by
  unfold addMessage getSession
  rw [hx]

theorem addMessage_twice (cfg : ConvConfig) (h2 : 2 ≤ cfg.maxHistory)
    (x : AList Session) (eid : String) (s₀ : Session)
    (hx : mapGet x eid = some s₀) (u a : Message) (now : Nat) :
    ∃ s', mapGet (addMessage cfg now (addMessage cfg now x eid u) eid a) eid =
      some s' ∧ takeLast 2 s'.messages = [u, a] := by
  rw [addMessage_found cfg now x eid s₀ hx u]
  have hx₁ : mapGet (mapSet (mapSet x eid { s₀ with lastActivity := now }) eid
      { id := s₀.id, messages := pushTrunc cfg.maxHistory s₀.messages u,
        lastActivity := now }) eid = some
      { id := s₀.id, messages := pushTrunc cfg.maxHistory s₀.messages u,
        lastActivity := now } := mapGet_mapSet_eq _ _ _
  rw [addMessage_found cfg now _ eid _ hx₁ a]
  refine ⟨_, mapGet_mapSet_eq _ _ _, ?_⟩
  exact takeLast_two_pushTrunc h2 s₀.messages u a

theorem addMessage_mapGet_other (cfg : ConvConfig) (now : Nat)
    (m : AList Session) (k : String) (msg : Message) (id : String)
    (hne : k ≠ id) :
    mapGet (addMessage cfg now m k msg) id = mapGet m id := by
  unfold addMessage getSession
  cases hg : mapGet m k with
  | none => rfl
  | some s => rw [mapGet_mapSet_ne _ _ hne, mapGet_mapSet_ne m _ hne]

/-- C6: in conversation mode, when the backend call throws, no message at all
is appended to the store (every surviving session keeps its message list, any
newly created session is empty); when the backend call succeeds, both the
user turn and the assistant turn are appended to the effective session (they
are its two most recent messages whenever `maxHistory ≥ 2`). -/
theorem C6_append_only_on_success (cfg : ConvConfig) (m : AList Session)
    (prompt : String) (sessionId : Option String) (parts : List MultimodalPart)
    (freshId : String) (now : Nat) (hfresh : mapGet m freshId = none) :
    (∀ e, MsgsPreserved m
      (queryHandle cfg m prompt sessionId parts freshId (.error e) now).1) ∧
    (∀ content m' eid, 2 ≤ cfg.maxHistory →
      queryHandle cfg m prompt sessionId parts freshId (.ok content) now =
        (m', .ok (content, some eid)) →
      ∃ s', mapGet m' eid = some s' ∧
        takeLast 2 s'.messages = [⟨Role.user, prompt⟩, ⟨Role.assistant, content⟩]) := by
  constructor
  · intro e
    unfold queryHandle
    cases hvp : validatePrompt prompt with
    | error e' => exact msgsPreserved_refl m
    | ok u =>
        cases u
        cases hvm : (if parts.length > 0 then validateMultimodalParts parts
            else Except.ok ()) with
        | error e' => exact msgsPreserved_refl m
        | ok u =>
            cases u
            exact querySessionResolve_preserved m sessionId freshId now hfresh
  · intro content m' eid h2 heq
    unfold queryHandle at heq
    cases hvp : validatePrompt prompt with
    | error e' =>
        rw [hvp] at heq
        simp only [Prod.mk.injEq, reduceCtorEq, and_false] at heq
    | ok u =>
        cases u
        rw [hvp] at heq
        cases hvm : (if parts.length > 0 then validateMultimodalParts parts
            else Except.ok ()) with
        | error e' =>
            rw [hvm] at heq
            simp only [Prod.mk.injEq, reduceCtorEq, and_false] at heq
        | ok u =>
            cases u
            rw [hvm] at heq
            simp only [Prod.mk.injEq, Except.ok.injEq, Option.some.injEq] at heq
            obtain ⟨hm', -, heid⟩ := heq
            obtain ⟨s₀, hs₀⟩ :=
              querySessionResolve_found m sessionId freshId now
            obtain ⟨s', hget, htl⟩ := addMessage_twice cfg h2 _ _ s₀ hs₀
              ⟨Role.user, prompt⟩ ⟨Role.assistant, content⟩ now
            rw [← hm', ← heid]
            exact ⟨s', hget, htl⟩

theorem C6_witness :
    (MsgsPreserved [("a", ⟨"a", [⟨Role.user, "u0"⟩], 0⟩)]
      (queryHandle ⟨3600, 10⟩ [("a", ⟨"a", [⟨Role.user, "u0"⟩], 0⟩)] "hello"
        (some "a") [] "f" (.error "backend down") 5).1) ∧
    (∃ s', mapGet (queryHandle ⟨3600, 10⟩ [("a", ⟨"a", [⟨Role.user, "u0"⟩], 0⟩)]
        "hello" (some "a") [] "f" (.ok "hi") 5).1 "a" = some s' ∧
      takeLast 2 s'.messages = [⟨Role.user, "hello"⟩, ⟨Role.assistant, "hi"⟩]) := by
  constructor
  · exact (C6_append_only_on_success ⟨3600, 10⟩ [("a", ⟨"a", [⟨Role.user, "u0"⟩], 0⟩)]
      "hello" (some "a") [] "f" 5 (by decide)).1 "backend down"
  · exact (C6_append_only_on_success ⟨3600, 10⟩ [("a", ⟨"a", [⟨Role.user, "u0"⟩], 0⟩)]
      "hello" (some "a") [] "f" 5 (by decide)).2 "hi" _ _ (by decide) rfl

/-- C10: a supplied sessionId whose session exists but has zero messages is
treated like an unknown id: a brand-new session is created and receives the
turn, the reported session id is the fresh id (≠ supplied), and the supplied
empty session stays message-free (only its `lastActivity` is refreshed by the
history lookup). -/
theorem C10_empty_session_new (cfg : ConvConfig) (m : AList Session)
    (prompt sid freshId content : String) (t now : Nat)
    (hvp : validatePrompt prompt = .ok ())
    (hsid : mapGet m sid = some ⟨sid, [], t⟩)
    (hne : freshId ≠ sid) :
    ∃ m', queryHandle cfg m prompt (some sid) [] freshId (.ok content) now =
        (m', .ok (content, some freshId)) ∧
      mapGet m' sid = some ⟨sid, [], now⟩ := by
  have hres : querySessionResolve m (some sid) freshId now =
      (mapSet (mapSet m sid ⟨sid, [], now⟩) freshId ⟨freshId, [], now⟩,
        [], freshId) := by
    show (if (getHistory now m sid).2.length = 0
        then (createSession freshId now (getHistory now m sid).1,
              (getHistory now m sid).2, freshId)
        else ((getHistory now m sid).1, (getHistory now m sid).2, sid)) = _
    unfold getHistory getSession
    rw [hsid]
    rfl
  refine ⟨addMessage cfg now (addMessage cfg now
      (mapSet (mapSet m sid ⟨sid, [], now⟩) freshId ⟨freshId, [], now⟩)
      freshId ⟨Role.user, prompt⟩) freshId ⟨Role.assistant, content⟩, ?_, ?_⟩
  · unfold queryHandle
    rw [hvp]
    show (addMessage cfg now
        (addMessage cfg now (querySessionResolve m (some sid) freshId now).1
          (querySessionResolve m (some sid) freshId now).2.2 ⟨Role.user, prompt⟩)
        (querySessionResolve m (some sid) freshId now).2.2 ⟨Role.assistant, content⟩,
      Except.ok (content, some (querySessionResolve m (some sid) freshId now).2.2)) = _
    rw [hres]
  · rw [addMessage_mapGet_other cfg now _ freshId _ sid hne,
      addMessage_mapGet_other cfg now _ freshId _ sid hne,
      mapGet_mapSet_ne _ _ hne]
    exact mapGet_mapSet_eq m sid _

/-! ## Document Cache (SearchHandler.ts / FetchHandler.ts)

The shared `searchCache : Map<string, CachedDocument>` is embedded as an
`AList`; `metadata.timestamp` (an ISO string in the source, written from
`new Date()` and parsed back with `new Date(...).getTime()`, a lossless
millisecond round-trip) is embedded directly as the millisecond `Nat`.
`Date.now()` is the explicit `now` parameter. -/

theorem length_mapSet_le {α : Type} (m : AList α) (k : String) (v : α) :
    (mapSet m k v).length ≤ m.length + 1 := by
  induction m with
  | nil => simp [mapSet]
  | cons p rest ih =>
      by_cases hp : p.1 = k
      · simp [mapSet, hp]
      · simp only [mapSet, hp, if_false, List.length_cons]
        omega

theorem mem_mapSet {α : Type} (m : AList α) (k : String) (v : α)
    (p : String × α) (h : p ∈ mapSet m k v) : p ∈ m ∨ p = (k, v) := by
  induction m with
  | nil =>
      simp only [mapSet, List.mem_singleton] at h
      exact Or.inr h
  | cons q rest ih =>
      by_cases hq : q.1 = k
      · simp only [mapSet, hq, if_true, List.mem_cons] at h
        rcases h with h | h
        · exact Or.inr h
        · exact Or.inl (List.mem_cons_of_mem q h)
      · simp only [mapSet, hq, if_false, List.mem_cons] at h
        rcases h with h | h
        · exact Or.inl (by simp [h])
        · rcases ih h with h1 | h1
          · exact Or.inl (List.mem_cons_of_mem q h1)
          · exact Or.inr h1

theorem length_foldl_mapSet_le (doc : SearchResult → CachedDocument)
    (docs : List SearchResult) :
    ∀ c : AList CachedDocument,
      (docs.foldl (fun acc r => mapSet acc r.id (doc r)) c).length ≤
        c.length + docs.length := by
  induction docs with
  | nil => intro c; simp
  | cons r rs ih =>
      intro c
      calc (List.foldl (fun acc r => mapSet acc r.id (doc r)) (mapSet c r.id (doc r)) rs).length
          ≤ (mapSet c r.id (doc r)).length + rs.length := ih _
        _ ≤ (c.length + 1) + rs.length :=
            Nat.add_le_add_right (length_mapSet_le c r.id (doc r)) _
        _ = c.length + (r :: rs).length := by simp; omega

theorem mem_foldl_mapSet (doc : SearchResult → CachedDocument)
    (Q : String × CachedDocument → Prop) (docs : List SearchResult) :
    ∀ c : AList CachedDocument, (∀ p ∈ c, Q p) →
      (∀ r ∈ docs, Q (r.id, doc r)) →
      ∀ p ∈ docs.foldl (fun acc r => mapSet acc r.id (doc r)) c, Q p := by
  induction docs with
  | nil => intro c hc _ p hp; exact hc p hp
  | cons r rs ih =>
      intro c hc hdocs p hp
      refine ih (mapSet c r.id (doc r)) ?_ (fun r' hr' => hdocs r' (List.mem_cons_of_mem r hr')) p hp
      intro p' hp'
      rcases mem_mapSet c r.id (doc r) p' hp' with h1 | h1
      · exact hc p' h1
      · rw [h1]
        exact hdocs r (List.mem_cons_self r rs)

theorem parseSearchResults_length_le (t q : String) (now : Nat) :
    (parseSearchResults t q now).length ≤ 3 := by
  unfold parseSearchResults
  set ls := (((splitOnChar '\n' t.data).map String.mk).filter
    (fun line => (jsTrim line).length != 0)).take 3 with hls
  set rs := ls.enum.filterMap
    (fun p =>
      if p.2.length > 10 then
        some { id := "doc-" ++ toString now ++ "-" ++ toString p.1,
               title := jsTrim ⟨p.2.data.take 100⟩,
               url := "https://claude-search/" ++
                 String.mk (collapseWsDash q.data) ++ "/" ++ toString p.1 }
      else (none : Option SearchResult)) with hrs
  by_cases h : rs.length = 0
  · rw [if_pos h]
    simp
  · rw [if_neg h]
    calc rs.length
        ≤ ls.enum.length := by rw [hrs]; exact List.length_filterMap_le _ _
      _ = ls.length := by rw [List.enum_length]
      _ ≤ 3 := by rw [hls, List.length_take]; omega

theorem cleanupCache_length_le (now : Nat) (c : AList CachedDocument)
    (h : c.length ≤ MAX_CACHE_SIZE + 2) :
    (cleanupCache now c).length ≤ MAX_CACHE_SIZE - 1 := by
  unfold cleanupCache
  by_cases hge : c.length ≥ MAX_CACHE_SIZE
  · rw [if_pos hge]
    calc ((c.drop (c.length - MAX_CACHE_SIZE + 10)).filter
          (fun p => ¬ (now - p.2.timestamp > CACHE_TTL_MS))).length
        ≤ (c.drop (c.length - MAX_CACHE_SIZE + 10)).length :=
          List.length_filter_le _ _
      _ = c.length - (c.length - MAX_CACHE_SIZE + 10) := List.length_drop _ _
      _ ≤ MAX_CACHE_SIZE - 1 := by unfold MAX_CACHE_SIZE at *; omega
  · rw [if_neg hge]
    calc (c.filter (fun p => ¬ (now - p.2.timestamp > CACHE_TTL_MS))).length
        ≤ c.length := List.length_filter_le _ _
      _ ≤ MAX_CACHE_SIZE - 1 := by unfold MAX_CACHE_SIZE at *; omega

theorem cacheStep_length_le (c : AList CachedDocument) (op : CacheOp)
    (h : c.length ≤ MAX_CACHE_SIZE + 2) :
    (cacheStep c op).length ≤ MAX_CACHE_SIZE + 2 := by
  cases op with
  | fetch id now => exact h
  | search q b now =>
      show (searchHandle q b now c).1.length ≤ MAX_CACHE_SIZE + 2
      unfold searchHandle
      cases hv : validateQuery q with
      | error e => exact h
      | ok u =>
          cases u
          cases b with
          | error e => exact h
          | ok responseText =>
              calc ((parseSearchResults responseText q now).foldl
                    (fun acc r => mapSet acc r.id _) (cleanupCache now c)).length
                  ≤ (cleanupCache now c).length +
                      (parseSearchResults responseText q now).length :=
                    length_foldl_mapSet_le _ _ _
                _ ≤ (MAX_CACHE_SIZE - 1) + 3 := by
                    have h1 := cleanupCache_length_le now c h
                    have h2 := parseSearchResults_length_le responseText q now
                    omega
                _ ≤ MAX_CACHE_SIZE + 2 := by unfold MAX_CACHE_SIZE; omega

theorem searchHandle_fresh (q t : String) (now : Nat) (c : AList CachedDocument)
    (hv : validateQuery q = .ok ()) :
    ∀ p ∈ (searchHandle q (.ok t) now c).1, now - p.2.timestamp ≤ CACHE_TTL_MS := by
  unfold searchHandle
  rw [hv]
  intro p hp
  refine mem_foldl_mapSet _ (fun p => now - p.2.timestamp ≤ CACHE_TTL_MS) _ _
    ?_ ?_ p hp
  · intro p' hp'
    unfold cleanupCache at hp'
    have hker : ¬ (now - p'.2.timestamp > CACHE_TTL_MS) :=
      of_decide_eq_true ((List.mem_filter.mp hp').2)
    omega
  · intro r _
    simp

/-- C2 (amended): after every Document Cache operation the entry count is at
most `MAX_CACHE_SIZE + 2` (the pre-insertion sweep only guarantees headroom
`MAX_CACHE_SIZE - 1`, and a batch adds up to 3 entries); and immediately after
every successful search batch no surviving entry is older than `CACHE_TTL_MS`.
Fetches evict nothing, so between batches over-age entries may persist. -/
theorem C2_cache_amended :
    (∀ ops : List CacheOp, (cacheRun ops).length ≤ MAX_CACHE_SIZE + 2) ∧
    (∀ (ops : List CacheOp) (q t : String) (now : Nat),
      validateQuery q = .ok () →
      ∀ p ∈ cacheRun (ops ++ [CacheOp.search q (.ok t) now]),
        now - p.2.timestamp ≤ CACHE_TTL_MS) := by
  constructor
  · intro ops
    have hgen : ∀ (l : List CacheOp) (c : AList CachedDocument),
        c.length ≤ MAX_CACHE_SIZE + 2 →
        (l.foldl cacheStep c).length ≤ MAX_CACHE_SIZE + 2 := by
      intro l
      induction l with
      | nil => intro c hc; exact hc
      | cons op rest ih =>
          intro c hc
          exact ih _ (cacheStep_length_le c op hc)
    exact hgen ops [] (by simp)
  · intro ops q t now hv p hp
    rw [show cacheRun (ops ++ [CacheOp.search q (.ok t) now]) =
        cacheStep (cacheRun ops) (CacheOp.search q (.ok t) now) from by
      unfold cacheRun
      rw [List.foldl_append]
      rfl] at hp
    exact searchHandle_fresh q t now (cacheRun ops) hv p hp

set_option maxRecDepth 8192 in
/-- C2 counterexample: (i) after a fetch at time `CACHE_TTL_MS + 1`, the entry
cached by a search at time 0 is still present though over-age (gets never
evict); (ii) 34 search batches of 3 fresh documents leave 102 entries, which
exceeds `MAX_CACHE_SIZE = 100` (the sweep only fires at ≥ 100, so 99 + 3 is
reachable). -/
theorem C2_counterexample :
    ((cacheRun [CacheOp.search "hello" (.ok "this is a search result line") 0,
        CacheOp.fetch "x" 3600001]).any
      (fun p => decide (3600001 - p.2.timestamp > CACHE_TTL_MS)) = true) ∧
    (cacheRun ((List.range 34).map
        (fun k => CacheOp.search "q" (.ok "aaaaaaaaaaaa\nbbbbbbbbbbbb\ncccccccccccc") k))).length
      = MAX_CACHE_SIZE + 2 ∧
    MAX_CACHE_SIZE + 2 > MAX_CACHE_SIZE := by
  refine ⟨by decide, by decide, by decide⟩

theorem C2_witness :
    (cacheRun [CacheOp.search "hello" (.ok "this is a search result line") 0]).length
      ≤ MAX_CACHE_SIZE + 2 ∧
    (∀ p ∈ cacheRun ([] ++ [CacheOp.search "hello" (.ok "one sufficiently long line") 5]),
      5 - p.2.timestamp ≤ CACHE_TTL_MS) := by
  constructor
  · exact C2_cache_amended.1 _
  · exact C2_cache_amended.2 [] "hello" "one sufficiently long line" 5 (by rfl)

/-! ## Path Guard (src/utils/fileSecurity.ts)

POSIX path semantics (`path.sep = "/"`; `process.cwd()` is absolute):
`path.resolve` is embedded as join-with-cwd followed by segment
normalization (empty and `.` segments dropped, `..` pops, `..` above the
root of an absolute path is discarded), `path.extname` by Node's rules on
the final path segment, and `path.join(a, b)` as `a ++ "/" ++ b` (its own
normalization is subsumed by the `path.resolve` applied to every safe
directory). -/

theorem splitOnChar_cons (sep c : Char) (rest : List Char) :
    splitOnChar sep (c :: rest) =
      match splitOnChar sep rest with
      | [] => if c = sep then [[], []] else [[c]]
      | cur :: rs => if c = sep then [] :: cur :: rs else (c :: cur) :: rs := rfl

theorem splitOnChar_ne_nil (sep : Char) (l : List Char) :
    splitOnChar sep l ≠ [] := by
  cases l with
  | nil => simp [splitOnChar]
  | cons c rest =>
      rw [splitOnChar_cons]
      cases h : splitOnChar sep rest with
      | nil => by_cases hc : c = sep <;> simp [hc]
      | cons cur rs => by_cases hc : c = sep <;> simp [hc]

theorem splitOnChar_append_sep (sep : Char) (a b : List Char) :
    splitOnChar sep (a ++ sep :: b) = splitOnChar sep a ++ splitOnChar sep b := by
  induction a with
  | nil =>
      show splitOnChar sep (sep :: b) = [[]] ++ splitOnChar sep b
      rw [splitOnChar_cons]
      cases h : splitOnChar sep b with
      | nil => exact absurd h (splitOnChar_ne_nil sep b)
      | cons cur rs => simp
  | cons c a ih =>
      show splitOnChar sep (c :: (a ++ sep :: b)) =
        splitOnChar sep (c :: a) ++ splitOnChar sep b
      rw [splitOnChar_cons, splitOnChar_cons, ih]
      cases h : splitOnChar sep a with
      | nil => exact absurd h (splitOnChar_ne_nil sep a)
      | cons cur rs => by_cases hc : c = sep <;> simp [hc]

theorem splitOnChar_no_sep (sep : Char) (l : List Char)
    (h : ∀ c ∈ l, c ≠ sep) : splitOnChar sep l = [l] := by
  induction l with
  | nil => rfl
  | cons c rest ih =>
      rw [splitOnChar_cons, ih (fun c' hc' => h c' (List.mem_cons_of_mem c hc'))]
      show (if c = sep then ([[], rest] : List (List Char)) else [c :: rest]) = _
      rw [if_neg (h c (List.mem_cons_self c rest))]

theorem splitOnChar_replicate (sep : Char) (k : Nat) :
    splitOnChar sep (List.replicate k sep) = List.replicate (k + 1) [] := by
  induction k with
  | zero => rfl
  | succ k ih =>
      rw [List.replicate_succ, splitOnChar_cons, ih]
      simp [List.replicate_succ]

theorem splitOnChar_seg_trail (sep : Char) (b : List Char)
    (hb : ∀ c ∈ b, c ≠ sep) (k : Nat) :
    splitOnChar sep (b ++ List.replicate k sep) = b :: List.replicate k [] := by
  cases k with
  | zero => simpa using splitOnChar_no_sep sep b hb
  | succ k =>
      rw [List.replicate_succ, splitOnChar_append_sep,
        splitOnChar_no_sep sep b hb, splitOnChar_replicate]
      rfl

theorem foldl_normStep_empties (tr : List String) :
    ∀ st : List String, (∀ s ∈ tr, s = "") → tr.foldl normStep st = st := by
  induction tr with
  | nil => intro st _; rfl
  | cons s rest ih =>
      intro st h
      have hs : s = "" := h s (List.mem_cons_self s rest)
      show (rest.foldl normStep (normStep st s)) = st
      rw [show normStep st s = st from by
        unfold normStep; rw [if_pos (Or.inl hs)]]
      exact ih st (fun s' hs' => h s' (List.mem_cons_of_mem s hs'))

theorem normSegs_last (pref : List String) (b : String) (k : Nat)
    (hb1 : ¬ (b = "" ∨ b = ".")) (hb2 : b ≠ "..") :
    normSegs (pref ++ b :: List.replicate k "") = normSegs pref ++ [b] := by
  unfold normSegs
  rw [List.foldl_append]
  show List.foldl normStep (normStep (pref.foldl normStep []) b)
    (List.replicate k "") = _
  rw [show normStep (pref.foldl normStep []) b = pref.foldl normStep [] ++ [b] from by
    unfold normStep; rw [if_neg hb1, if_neg hb2]]
  exact foldl_normStep_empties _ _ (fun s hs => List.eq_of_mem_replicate hs)

theorem str_data_append (s t : String) : (s ++ t).data = s.data ++ t.data := rfl

theorem joinSegs_cons_ne (s : String) (l : List String) (h : l ≠ []) :
    joinSegs (s :: l) = s ++ "/" ++ joinSegs l := by
  cases l with
  | nil => exact absurd rfl h
  | cons x xs => rfl

theorem joinSegs_data (St : List String) (b : String) :
    ∃ xs, ("/" ++ joinSegs (St ++ [b])).data = xs ++ ('/' :: b.data) := by
  induction St with
  | nil => exact ⟨[], rfl⟩
  | cons s rest ih =>
      obtain ⟨xs', hxs'⟩ := ih
      have hxs : ('/' :: (joinSegs (rest ++ [b])).data : List Char) =
          xs' ++ ('/' :: b.data) := hxs'
      refine ⟨('/' :: s.data) ++ xs', ?_⟩
      have h2 : ("/" ++ joinSegs ((s :: rest) ++ [b])).data =
          ('/' :: s.data) ++ ('/' :: (joinSegs (rest ++ [b])).data) := by
        rw [show ((s :: rest) ++ [b] : List String) = s :: (rest ++ [b]) from rfl,
          joinSegs_cons_ne s _ (by simp)]
        show ('/' :: ((s.data ++ ['/']) ++ (joinSegs (rest ++ [b])).data) : List Char) = _
        simp [List.append_assoc]
      rw [h2, hxs]
      simp [List.append_assoc]

theorem takeWhile_all_append (p : Char → Bool) (l : List Char) (x : Char)
    (r : List Char) (hl : ∀ y ∈ l, p y) (hx : ¬ p x) :
    (l ++ x :: r).takeWhile p = l := by
  induction l with
  | nil =>
      show (x :: r).takeWhile p = []
      rw [List.takeWhile_cons, if_neg hx]
  | cons c cs ih =>
      show ((c :: cs) ++ x :: r).takeWhile p = c :: cs
      rw [List.cons_append, List.takeWhile_cons,
        if_pos (hl c (List.mem_cons_self c cs)),
        ih (fun y hy => hl y (List.mem_cons_of_mem c hy))]

theorem lastSegment_append (xs b : List Char) (hb : ∀ c ∈ b, c ≠ '/')
    (hne : b ≠ []) : lastSegment ⟨xs ++ '/' :: b⟩ = b := by
  unfold lastSegment
  show (((xs ++ '/' :: b).reverse.dropWhile (fun c => c = '/')).takeWhile
    (fun c => ¬ (c = '/'))).reverse = b
  rw [List.reverse_append, List.reverse_cons, List.append_assoc]
  simp only [List.singleton_append]
  obtain ⟨c, cs, hc⟩ : ∃ c cs, b.reverse = c :: cs := by
    cases hbrev : b.reverse with
    | nil => exact absurd (List.reverse_eq_nil_iff.mp hbrev) hne
    | cons c cs => exact ⟨c, cs, rfl⟩
  have hmemrev : ∀ y ∈ b.reverse, y ≠ '/' := fun y hy =>
    hb y (List.mem_reverse.mp hy)
  have hcne : ¬ (c = '/') := hmemrev c (hc ▸ List.mem_cons_self c cs)
  rw [hc, List.cons_append, List.dropWhile_cons, if_neg (by simpa using hcne)]
  have htw := takeWhile_all_append (fun ch => ¬ (ch = '/')) (c :: cs) '/'
    xs.reverse
    (fun y hy => by
      have hyb : y ∈ b.reverse := hc ▸ hy
      simpa using hmemrev y hyb)
    (by simp)
  rw [List.cons_append] at htw
  rw [htw, ← hc, List.reverse_reverse]

theorem dropWhile_head_not (p : Char → Bool) :
    ∀ (l : List Char) (x : Char) (xs : List Char),
      l.dropWhile p = x :: xs → ¬ p x := by
  intro l
  induction l with
  | nil => intro x xs h; cases h
  | cons a as ih =>
      intro x xs h
      rw [List.dropWhile_cons] at h
      by_cases hp : p a
      · rw [if_pos hp] at h
        exact ih x xs h
      · rw [if_neg hp] at h
        injection h with h1 _
        exact h1 ▸ hp

/-- Decomposition of a path around its final segment: everything before it is
empty or ends with a separator, and everything after it is separators. -/
theorem data_decomp (p : String) :
    ∃ (q₁ : List Char) (k : Nat),
      p.data = q₁ ++ lastSegment p ++ List.replicate k '/' ∧
      (q₁ = [] ∨ ∃ q₂, q₁ = q₂ ++ ['/']) ∧
      (∀ c ∈ lastSegment p, c ≠ '/') := by
  have hmem : ∀ c ∈ lastSegment p, c ≠ '/' := by
    intro c hcm
    unfold lastSegment at hcm
    have := List.mem_takeWhile_imp (List.mem_reverse.mp hcm)
    simpa using this
  set r := p.data.reverse with hrdef
  set k := (r.takeWhile (fun c => c = '/')).length with hkdef
  set dW := r.dropWhile (fun c => c = '/') with hdwdef
  have hr : r = List.replicate k '/' ++ dW := by
    have h1 : r.takeWhile (fun c => c = '/') ++ dW = r :=
      List.takeWhile_append_dropWhile _ _
    have h2 : r.takeWhile (fun c => c = '/') = List.replicate k '/' := by
      apply List.eq_replicate_iff.mpr
      refine ⟨rfl, ?_⟩
      intro c hc
      have := List.mem_takeWhile_imp hc
      simpa using this
    rw [← h2]
    exact h1.symm
  set lbr := dW.takeWhile (fun c => ¬ (c = '/')) with hlbrdef
  set rest := dW.dropWhile (fun c => ¬ (c = '/')) with hrestdef
  have hdw : dW = lbr ++ rest := (List.takeWhile_append_dropWhile _ _).symm
  have hls : lastSegment p = lbr.reverse := rfl
  have hq : p.data = rest.reverse ++ lastSegment p ++ List.replicate k '/' := by
    have hp : p.data = r.reverse := (List.reverse_reverse p.data).symm
    rw [hp, hr, hdw, List.reverse_append, List.reverse_append,
      List.reverse_replicate, hls]
  refine ⟨rest.reverse, k, hq, ?_, hmem⟩
  cases hrest : rest with
  | nil => exact Or.inl rfl
  | cons x xs =>
      right
      have hx : ¬ ¬ (x = '/') := by
        have := dropWhile_head_not (fun c => ¬ (c = '/')) dW x xs
          (hrestdef.symm.trans hrest)
        simpa using this
      refine ⟨xs.reverse, ?_⟩
      rw [List.reverse_cons, not_not.mp hx]

theorem string_eq_of_data (s : String) (l : List Char) (h : s.data = l) :
    s = ⟨l⟩ := by
  cases s with
  | mk d => exact congrArg String.mk h

/-- `path.resolve` preserves the final path segment whenever that segment is
a real file name (nonempty, not `.` or `..`). -/
theorem resolvePath_lastSegment (cwd p : String)
    (h1 : lastSegment p ≠ []) (h2 : lastSegment p ≠ ['.'])
    (h3 : lastSegment p ≠ ['.', '.']) :
    lastSegment (resolvePath cwd p) = lastSegment p := by
  obtain ⟨q₁, k, hdata, hq₁, hmem⟩ := data_decomp p
  have hfull : ∃ Q : List Char,
      (if isAbsolute p then p else cwd ++ "/" ++ p).data =
        Q ++ lastSegment p ++ List.replicate k '/' ∧
      (Q = [] ∨ ∃ q₂, Q = q₂ ++ ['/']) := by
    by_cases habs : isAbsolute p
    · exact ⟨q₁, by rw [if_pos habs]; exact hdata, hq₁⟩
    · refine ⟨cwd.data ++ '/' :: q₁, ?_, ?_⟩
      · rw [if_neg habs, str_data_append, str_data_append, hdata]
        show (cwd.data ++ ['/']) ++ ((q₁ ++ lastSegment p) ++ _) = _
        simp [List.append_assoc]
      · right
        rcases hq₁ with h | ⟨q₂, h⟩
        · exact ⟨cwd.data, by rw [h]⟩
        · exact ⟨cwd.data ++ '/' :: q₂, by rw [h]; simp⟩
  obtain ⟨Q, hQdata, hQshape⟩ := hfull
  have hb1 : ¬ (String.mk (lastSegment p) = "" ∨ String.mk (lastSegment p) = ".") := by
    rintro (h | h)
    · exact h1 (congrArg String.data h)
    · exact h2 (congrArg String.data h)
  have hb2 : String.mk (lastSegment p) ≠ ".." := fun h => h3 (congrArg String.data h)
  have hnorm : ∃ St, normSegs
      ((splitOnChar '/' ((if isAbsolute p then p else cwd ++ "/" ++ p).data)).map
        String.mk) = St ++ [String.mk (lastSegment p)] := by
    rw [hQdata]
    rcases hQshape with hQ | ⟨q₂, hQ⟩
    · subst hQ
      rw [show (([] ++ lastSegment p) ++ List.replicate k '/' : List Char) =
        lastSegment p ++ List.replicate k '/' from by simp]
      rw [splitOnChar_seg_trail '/' (lastSegment p) hmem k]
      refine ⟨[], ?_⟩
      have hstep := normSegs_last [] (String.mk (lastSegment p)) k hb1 hb2
      rw [List.nil_append] at hstep
      rw [show (List.map String.mk (lastSegment p :: List.replicate k []) :
          List String) = String.mk (lastSegment p) :: List.replicate k "" from by
        rw [List.map_cons, List.map_replicate]]
      rw [hstep]
      rfl
    · subst hQ
      rw [show (((q₂ ++ ['/']) ++ lastSegment p) ++ List.replicate k '/' : List Char) =
        q₂ ++ '/' :: (lastSegment p ++ List.replicate k '/') from by
        simp [List.append_assoc]]
      rw [splitOnChar_append_sep, splitOnChar_seg_trail '/' (lastSegment p) hmem k]
      refine ⟨normSegs ((splitOnChar '/' q₂).map String.mk), ?_⟩
      rw [List.map_append]
      rw [show (List.map String.mk (lastSegment p :: List.replicate k []) :
          List String) = String.mk (lastSegment p) :: List.replicate k "" from by
        rw [List.map_cons, List.map_replicate]]
      exact normSegs_last _ _ k hb1 hb2
  obtain ⟨St, hSt⟩ := hnorm
  show lastSegment ("/" ++ joinSegs (normSegs
    ((splitOnChar '/' ((if isAbsolute p then p else cwd ++ "/" ++ p).data)).map
      String.mk))) = lastSegment p
  rw [hSt]
  obtain ⟨xs, hxs⟩ := joinSegs_data St (String.mk (lastSegment p))
  rw [string_eq_of_data _ _ hxs]
  exact lastSegment_append xs (lastSegment p) hmem h1

/-- `path.extname` is unchanged by `path.resolve` whenever the raw path has a
nonempty extension. -/
theorem extname_eq_of_resolve (cwd p : String) (hne : extname p ≠ "") :
    extname (resolvePath cwd p) = extname p := by
  have h1 : lastSegment p ≠ [] := by
    intro h
    apply hne
    unfold extname
    rw [h]
    rfl
  have h2 : lastSegment p ≠ ['.'] := by
    intro h
    apply hne
    unfold extname
    rw [h]
    rfl
  have h3 : lastSegment p ≠ ['.', '.'] := by
    intro h
    apply hne
    unfold extname
    rw [h]
    rfl
  have hls := resolvePath_lastSegment cwd p h1 h2 h3
  unfold extname
  rw [hls]

set_option maxHeartbeats 2000000 in
/-- C5: `validateFilePath` throws for every path whose lower-cased extension
is deny-listed, regardless of configuration or directory; for paths whose
resolved form has an allowed extension (with the directory check enabled) it
throws exactly when the resolved absolute path is neither equal to nor a
separator-bounded descendant of some allow-listed directory; and on success
it returns the resolved absolute path. -/
theorem C5_validateFilePath (cwd : String) (home : Option String)
    (cfg : FileSecurityConfig) (p : String) :
    (lowerStr (extname p) ∈ EXECUTABLE_EXTENSIONS →
      ∃ e, validateFilePath cwd home p cfg = .error e) ∧
    (cfg.allowAllDirectories = false →
      lowerStr (extname (resolvePath cwd p)) ∉ EXECUTABLE_EXTENSIONS →
      ((∃ e, validateFilePath cwd home p cfg = .error e) ↔
        ¬ ∃ d ∈ safeDirectories cwd home cfg,
          strStartsWith (resolvePath cwd p) (d ++ "/") = true ∨
            resolvePath cwd p = d)) ∧
    (∀ r, validateFilePath cwd home p cfg = .ok r → r = resolvePath cwd p) := by
  refine ⟨?_, ?_, ?_⟩
  · intro hmem
    have hne : extname p ≠ "" := by
      intro h
      rw [h] at hmem
      exact absurd hmem (by decide)
    have hpres := extname_eq_of_resolve cwd p hne
    refine ⟨"SecurityError: executable file type not allowed", ?_⟩
    unfold validateFilePath
    rw [show validateFileExtension (resolvePath cwd p) =
        Except.error "SecurityError: executable file type not allowed" from by
      unfold validateFileExtension
      rw [hpres, if_pos hmem]]
  · intro hall hnotext
    unfold validateFilePath
    rw [show validateFileExtension (resolvePath cwd p) = Except.ok () from by
      unfold validateFileExtension
      rw [if_neg hnotext]]
    rw [hall]
    simp only [Bool.false_eq_true, if_false]
    by_cases hin : (safeDirectories cwd home cfg).any
        (fun d => strStartsWith (resolvePath cwd p) (d ++ "/") ∨
          resolvePath cwd p = d)
    · rw [if_pos hin]
      apply iff_of_false
      · rintro ⟨e, he⟩
        cases he
      · intro hcon
        apply hcon
        have := List.any_eq_true.mp hin
        obtain ⟨d, hd, hpd⟩ := this
        refine ⟨d, hd, ?_⟩
        simpa using of_decide_eq_true hpd
    · rw [if_neg hin]
      apply iff_of_true
      · exact ⟨_, rfl⟩
      · rintro ⟨d, hd, hpd⟩
        apply hin
        apply List.any_eq_true.mpr
        refine ⟨d, hd, ?_⟩
        apply decide_eq_true
        simpa using hpd
  · intro r hr
    unfold validateFilePath at hr
    split at hr
    · cases hr
    · split at hr
      · injection hr with hr
        exact hr.symm
      · split at hr
        · injection hr with hr
          exact hr.symm
        · cases hr

theorem C5_witness :
    (∃ e, validateFilePath "/home/user" none "notes.exe" ⟨[], false⟩ = .error e) ∧
    (∃ e, validateFilePath "/home/user" none "/home/userevil/x.txt" ⟨[], false⟩ =
      .error e) ∧
    validateFilePath "/home/user" none "notes.txt" ⟨[], false⟩ =
      .ok "/home/user/notes.txt" := by
  refine ⟨?_, ?_, ?_⟩
  · exact (C5_validateFilePath "/home/user" none ⟨[], false⟩ "notes.exe").1
      (by decide)
  · exact ((C5_validateFilePath "/home/user" none ⟨[], false⟩
      "/home/userevil/x.txt").2.1 rfl (by decide)).mpr (by decide)
  · rfl

/-! ## URL Guard and the web-fetch redirect loop (WebFetchHandler)

`WebFetchHandler.fetchWithRedirectValidation` is in the corpus; the URL-guard
module it calls (`src/utils/urlSecurity.ts`, `validateSecureUrl` /
`validateRedirectUrl`) is not, so those two functions are modelled from the
spec (§4.3).  `fetch` is the external network, embedded as a response
function; relative `Location` resolution (`new URL(location, currentUrl)`) is
folded into it, so redirect targets arrive absolute. -/

theorem fetchLoop_succ (net : Url → FetchResponse) (fuel : Nat) (cur : Url) :
    fetchLoop net (fuel + 1) cur =
      match net cur with
      | .redirect loc =>
          match validateRedirectUrl cur loc with
          | .error e => (.error e, [cur])
          | .ok () => ((fetchLoop net fuel loc).1, cur :: (fetchLoop net fuel loc).2)
      | .success content => (.ok (content, cur), [cur])
      | .httpError _ => (.error "HTTP error", [cur]) := rfl

theorem fetchLoop_succ_success (net : Url → FetchResponse) (fuel : Nat)
    (cur : Url) (content : String) (h : net cur = .success content) :
    fetchLoop net (fuel + 1) cur = (.ok (content, cur), [cur]) := by
  rw [fetchLoop_succ, h]

theorem fetchLoop_succ_http (net : Url → FetchResponse) (fuel : Nat)
    (cur : Url) (status : Nat) (h : net cur = .httpError status) :
    fetchLoop net (fuel + 1) cur = (.error "HTTP error", [cur]) := by
  rw [fetchLoop_succ, h]

theorem fetchLoop_succ_redirect_err (net : Url → FetchResponse) (fuel : Nat)
    (cur loc : Url) (e : String) (h : net cur = .redirect loc)
    (hv : validateRedirectUrl cur loc = .error e) :
    fetchLoop net (fuel + 1) cur = (.error e, [cur]) := by
  rw [fetchLoop_succ, h]
  show (match validateRedirectUrl cur loc with
    | Except.error e => (Except.error e, [cur])
    | Except.ok _ => ((fetchLoop net fuel loc).1, cur :: (fetchLoop net fuel loc).2)) = _
  rw [hv]

theorem fetchLoop_succ_redirect_ok (net : Url → FetchResponse) (fuel : Nat)
    (cur loc : Url) (h : net cur = .redirect loc)
    (hv : validateRedirectUrl cur loc = .ok ()) :
    fetchLoop net (fuel + 1) cur =
      ((fetchLoop net fuel loc).1, cur :: (fetchLoop net fuel loc).2) := by
  rw [fetchLoop_succ, h]
  show (match validateRedirectUrl cur loc with
    | Except.error e => (Except.error e, [cur])
    | Except.ok _ => ((fetchLoop net fuel loc).1, cur :: (fetchLoop net fuel loc).2)) = _
  rw [hv]

theorem fetchLoop_spec (net : Url → FetchResponse) :
    ∀ (fuel : Nat) (cur : Url),
      ChainValidated (fetchLoop net fuel cur).2 ∧
      (fetchLoop net fuel cur).2.length ≤ fuel ∧
      ((fetchLoop net fuel cur).2 ≠ [] →
        (fetchLoop net fuel cur).2.head? = some cur) ∧
      (∀ c f, (fetchLoop net fuel cur).1 = .ok (c, f) →
        (fetchLoop net fuel cur).2.getLast? = some f ∧ net f = .success c) := by
  intro fuel
  induction fuel with
  | zero =>
      intro cur
      refine ⟨trivial, by simp [fetchLoop], by simp [fetchLoop], ?_⟩
      intro c f h
      simp [fetchLoop] at h
  | succ fuel ih =>
      intro cur
      cases hnet : net cur with
      | success content =>
          rw [fetchLoop_succ_success net fuel cur content hnet]
          refine ⟨trivial, by simp, by simp, ?_⟩
          intro c f h
          injection h with h
          injection h with h1 h2
          subst h1
          subst h2
          exact ⟨by simp, hnet⟩
      | httpError status =>
          rw [fetchLoop_succ_http net fuel cur status hnet]
          refine ⟨trivial, by simp, by simp, ?_⟩
          intro c f h
          cases h
      | redirect loc =>
          cases hval : validateRedirectUrl cur loc with
          | error e =>
              rw [fetchLoop_succ_redirect_err net fuel cur loc e hnet hval]
              refine ⟨trivial, by simp, by simp, ?_⟩
              intro c f h
              cases h
          | ok u' =>
              cases u'
              rw [fetchLoop_succ_redirect_ok net fuel cur loc hnet hval]
              obtain ⟨ihCV, ihLen, ihHead, ihLast⟩ := ih loc
              refine ⟨?_, ?_, ?_, ?_⟩
              · show ChainValidated (cur :: (fetchLoop net fuel loc).2)
                cases hrest : (fetchLoop net fuel loc).2 with
                | nil => trivial
                | cons b bs =>
                    have hb : b = loc := by
                      have hh := ihHead (by rw [hrest]; simp)
                      rw [hrest] at hh
                      simpa using hh
                    subst hb
                    exact ⟨hval, hrest ▸ ihCV⟩
              · show (cur :: (fetchLoop net fuel loc).2).length ≤ fuel + 1
                simp only [List.length_cons]
                omega
              · intro _
                simp
              · intro c f h
                have h' : (fetchLoop net fuel loc).1 = .ok (c, f) := h
                obtain ⟨hlast, hsucc⟩ := ihLast c f h'
                refine ⟨?_, hsucc⟩
                show (cur :: (fetchLoop net fuel loc).2).getLast? = some f
                cases hrest : (fetchLoop net fuel loc).2 with
                | nil => rw [hrest] at hlast; cases hlast
                | cons b bs =>
                    rw [hrest] at hlast
                    rw [show (cur :: (b :: bs)).getLast? = (b :: bs).getLast? from by
                      simp [List.getLast?]]
                    exact hlast

theorem fetchLoop_all_redirect (net : Url → FetchResponse)
    (hnet : ∀ v, ∃ loc, net v = .redirect loc) :
    ∀ (fuel : Nat) (cur : Url), ∃ e, (fetchLoop net fuel cur).1 = .error e := by
  intro fuel
  induction fuel with
  | zero => intro cur; exact ⟨"Too many redirects", rfl⟩
  | succ fuel ih =>
      intro cur
      obtain ⟨loc, hloc⟩ := hnet cur
      cases hval : validateRedirectUrl cur loc with
      | error e =>
          rw [fetchLoop_succ_redirect_err net fuel cur loc e hloc hval]
          exact ⟨e, rfl⟩
      | ok u' =>
          cases u'
          rw [fetchLoop_succ_redirect_ok net fuel cur loc hloc hval]
          obtain ⟨e, he⟩ := ih loc
          exact ⟨e, he⟩

/-- C4: in the web-fetch redirect handling, every requested URL beyond the
first passed `validateRedirectUrl` against its predecessor before the request
was issued (and `validateRedirectUrl` is the fresh-fetch base check plus
same-host enforcement); at most `MAX_REDIRECTS` (5) requests are ever issued,
so content is never reached through more than 5 hops; returned content comes
from the last requested URL of such a validated chain, whose head is the
(pre-validated) original URL; and a chain of unbounded redirects terminates
with an error rather than content. -/
theorem C4_redirect_validation (net : Url → FetchResponse) (u : Url) :
    (∀ o t, validateRedirectUrl o t = .ok () →
      validateSecureUrl t = .ok () ∧ t.host = o.host) ∧
    ChainValidated (webFetchHandle net u).2 ∧
    (webFetchHandle net u).2.length ≤ MAX_REDIRECTS ∧
    ((webFetchHandle net u).2 ≠ [] →
      validateSecureUrl u = .ok () ∧ (webFetchHandle net u).2.head? = some u) ∧
    (∀ c f, (webFetchHandle net u).1 = .ok (c, f) →
      (webFetchHandle net u).2.getLast? = some f ∧ net f = .success c) ∧
    ((∀ v, ∃ loc, net v = .redirect loc) →
      ∃ e, (webFetchHandle net u).1 = .error e) := by
  refine ⟨?_, ?_, ?_, ?_, ?_, ?_⟩
  · intro o t hok
    unfold validateRedirectUrl at hok
    cases hvs : validateSecureUrl t with
    | error e => rw [hvs] at hok; cases hok
    | ok u' =>
        cases u'
        rw [hvs] at hok
        refine ⟨rfl, ?_⟩
        by_cases hh : t.host ≠ o.host
        · rw [if_pos hh] at hok; cases hok
        · push_neg at hh; exact hh
  · unfold webFetchHandle
    cases hvs : validateSecureUrl u with
    | error e => trivial
    | ok u' => cases u'; exact (fetchLoop_spec net MAX_REDIRECTS u).1
  · unfold webFetchHandle
    cases hvs : validateSecureUrl u with
    | error e => simp
    | ok u' => cases u'; exact (fetchLoop_spec net MAX_REDIRECTS u).2.1
  · unfold webFetchHandle
    cases hvs : validateSecureUrl u with
    | error e => intro h; exact absurd rfl h
    | ok u' =>
        cases u'
        intro h
        exact ⟨rfl, (fetchLoop_spec net MAX_REDIRECTS u).2.2.1 h⟩
  · unfold webFetchHandle
    cases hvs : validateSecureUrl u with
    | error e => intro c f h; cases h
    | ok u' => cases u'; exact (fetchLoop_spec net MAX_REDIRECTS u).2.2.2
  · intro hnet
    unfold webFetchHandle
    cases hvs : validateSecureUrl u with
    | error e => exact ⟨e, rfl⟩
    | ok u' => cases u'; exact fetchLoop_all_redirect net hnet MAX_REDIRECTS u

theorem C4_witness :
    (validateSecureUrl ⟨"https", "b.example", "/y"⟩ = .ok () ∧
      (⟨"https", "b.example", "/y"⟩ : Url).host ≠
        (⟨"https", "a.example", "/x"⟩ : Url).host) ∧
    (∃ e, (webFetchHandle
      (fun _ => FetchResponse.redirect ⟨"https", "a.example", "/x"⟩)
      ⟨"https", "a.example", "/"⟩).1 = .error e) := by
  constructor
  · constructor
    · rfl
    · decide
  · exact (C4_redirect_validation
      (fun _ => FetchResponse.redirect ⟨"https", "a.example", "/x"⟩)
      ⟨"https", "a.example", "/"⟩).2.2.2.2.2
      (fun v => ⟨⟨"https", "a.example", "/x"⟩, rfl⟩)

theorem C10_witness :
    ∃ m', queryHandle ⟨3600, 10⟩ [("e", ⟨"e", [], 2⟩)] "hello" (some "e") []
        "fresh" (.ok "answer") 7 = (m', .ok ("answer", some "fresh")) ∧
      mapGet m' "e" = some ⟨"e", [], 7⟩ :=
  C10_empty_session_new ⟨3600, 10⟩ [("e", ⟨"e", [], 2⟩)] "hello" "e" "fresh"
    "answer" 2 7 (by rfl) (by decide) (by decide)

theorem char_eq_iff_toNat (a b : Char) : a = b ↔ a.toNat = b.toNat := by
  constructor
  · intro h; rw [h]
  · intro h
    apply Char.ext
    apply UInt32.toNat.inj
    exact h

theorem char_toNat_ofNat (n : Nat) (h : n < 55296) : (Char.ofNat n).toNat = n := by
  unfold Char.ofNat
  rw [dif_pos]
  · rfl
  · exact Or.inl h

theorem lowerChar_toNat (c : Char) :
    (lowerChar c).toNat =
      if 65 ≤ c.toNat ∧ c.toNat ≤ 90 then c.toNat + 32 else c.toNat := by
  unfold lowerChar
  split
  · next hc => exact char_toNat_ofNat _ (by omega)
  · rfl

/-- The preimages of a lower-case letter under ASCII lower-casing are the
letter and its upper-case form. -/
theorem lowerChar_eq_elim (c t : Char) (ht : 97 ≤ t.toNat ∧ t.toNat ≤ 122)
    (h : lowerChar c = t) : c.toNat = t.toNat ∨ c.toNat = t.toNat - 32 := by
  have hn : (lowerChar c).toNat = t.toNat := by rw [h]
  rw [lowerChar_toNat] at hn
  by_cases hu : 65 ≤ c.toNat ∧ c.toNat ≤ 90
  · rw [if_pos hu] at hn; omega
  · rw [if_neg hu] at hn; omega

theorem lowerChar_eq_intro (c t : Char) (ht : 97 ≤ t.toNat ∧ t.toNat ≤ 122)
    (h : c.toNat = t.toNat ∨ c.toNat = t.toNat - 32) : lowerChar c = t := by
  rw [char_eq_iff_toNat, lowerChar_toNat]
  by_cases hu : 65 ≤ c.toNat ∧ c.toNat ≤ 90
  · rw [if_pos hu]; omega
  · rw [if_neg hu]; omega

/-- Lower-casing a regular character: digits, stars, dots, brackets are
fixed and never equal a lower-case letter unless identical. -/
theorem lowerChar_ne_of_toNat (c t : Char) (h : c.toNat ≠ t.toNat ∧ c.toNat + 32 ≠ t.toNat) :
    lowerChar c ≠ t := by
  intro he
  have hn : (lowerChar c).toNat = t.toNat := by rw [he]
  rw [lowerChar_toNat] at hn
  by_cases hu : 65 ≤ c.toNat ∧ c.toNat ≤ 90
  · rw [if_pos hu] at hn; omega
  · rw [if_neg hu] at hn; omega

theorem isDigitC_eq_false_of_lower (c t : Char) (ht : 97 ≤ t.toNat ∧ t.toNat ≤ 122)
    (h : lowerChar c = t) : isDigitC c = false := by
  rcases lowerChar_eq_elim c t ht h with h1 | h1 <;>
    · unfold isDigitC
      simp only [decide_eq_false_iff_not]
      omega

theorem jsIsWs_eq_false_of_lower (c t : Char) (ht : 97 ≤ t.toNat ∧ t.toNat ≤ 122)
    (h : lowerChar c = t) : jsIsWs c = false := by
  have hb : c.toNat = t.toNat ∨ c.toNat = t.toNat - 32 := lowerChar_eq_elim c t ht h
  unfold jsIsWs
  simp only [Bool.decide_or, Bool.or_eq_false_iff, decide_eq_false_iff_not,
    char_eq_iff_toNat]
  have e1 : (' ' : Char).toNat = 32 := rfl
  have e2 : ('\t' : Char).toNat = 9 := rfl
  have e3 : ('\n' : Char).toNat = 10 := rfl
  have e4 : ('\r' : Char).toNat = 13 := rfl
  have e5 : ('\x0b' : Char).toNat = 11 := rfl
  have e6 : ('\x0c' : Char).toNat = 12 := rfl
  have e7 : (' ' : Char).toNat = 160 := rfl
  have e8 : ('﻿' : Char).toNat = 65279 := rfl
  refine ⟨?_, ?_, ?_, ?_, ?_, ?_, ?_, ?_⟩ <;>
    simp only [e1, e2, e3, e4, e5, e6, e7, e8] <;> omega

theorem isWordDashC_eq_true_of_lower (c t : Char) (ht : 97 ≤ t.toNat ∧ t.toNat ≤ 122)
    (h : lowerChar c = t) : isWordDashC c = true := by
  have hb : c.toNat = t.toNat ∨ c.toNat = t.toNat - 32 := lowerChar_eq_elim c t ht h
  unfold isWordDashC isWordC
  simp only [Bool.or_eq_true, decide_eq_true_eq]
  left
  omega

theorem stripCI_append (lit u z : List Char) :
    stripCI lit (u ++ z) =
      match stripRem lit u with
      | .mismatch => none
      | .leftover ps => stripCI ps z
      | .done u' => some (u' ++ z) := by
  induction u generalizing lit with
  | nil =>
      cases lit with
      | nil => rfl
      | cons p ps => rfl
  | cons c u' ih =>
      cases lit with
      | nil => rfl
      | cons p ps =>
          show (if lowerChar c = p then stripCI ps (u' ++ z) else none) = _
          have hres : stripRem (p :: ps) (c :: u') =
              if lowerChar c = p then stripRem ps u' else .mismatch := rfl
          rw [hres]
          by_cases hc : lowerChar c = p
          · rw [if_pos hc, if_pos hc, ih]
          · rw [if_neg hc, if_neg hc]

theorem stripRem_leftover (lit u ps : List Char)
    (h : stripRem lit u = .leftover ps) : ps = lit.drop u.length := by
  induction u generalizing lit with
  | nil =>
      cases lit with
      | nil => cases h
      | cons p ps' => cases h; rfl
  | cons c u' ih =>
      cases lit with
      | nil => cases h
      | cons p ps' =>
          have hres : (if lowerChar c = p then stripRem ps' u' else .mismatch) =
              .leftover ps := h
          by_cases hc : lowerChar c = p
          · rw [if_pos hc] at hres
            exact ih ps' hres
          · rw [if_neg hc] at hres; cases hres

theorem stripRem_done (lit u u' : List Char)
    (h : stripRem lit u = .done u') : stripCI lit u = some u' := by
  induction u generalizing lit with
  | nil =>
      cases lit with
      | nil => cases h; rfl
      | cons p ps => cases h
  | cons c u'' ih =>
      cases lit with
      | nil => cases h; rfl
      | cons p ps =>
          have hres : (if lowerChar c = p then stripRem ps u'' else .mismatch) =
              .done u' := h
          show (if lowerChar c = p then stripCI ps u'' else none) = some u'
          by_cases hc : lowerChar c = p
          · rw [if_pos hc] at hres
            rw [if_pos hc]
            exact ih ps hres
          · rw [if_neg hc] at hres; cases hres

theorem stripCI_length (lit cs r : List Char) (h : stripCI lit cs = some r) :
    r.length + lit.length = cs.length := by
  induction lit generalizing cs with
  | nil => cases h; simp
  | cons p ps ih =>
      cases cs with
      | nil => cases h
      | cons c cs' =>
          have hres : (if lowerChar c = p then stripCI ps cs' else none) = some r := h
          by_cases hc : lowerChar c = p
          · rw [if_pos hc] at hres
            have := ih cs' hres
            simp only [List.length_cons]
            omega
          · rw [if_neg hc] at hres; cases hres

theorem stripCI_suffix (lit cs r : List Char) (h : stripCI lit cs = some r) :
    r <:+ cs := by
  induction lit generalizing cs with
  | nil => cases h; exact List.suffix_refl _
  | cons p ps ih =>
      cases cs with
      | nil => cases h
      | cons c cs' =>
          have hres : (if lowerChar c = p then stripCI ps cs' else none) = some r := h
          by_cases hc : lowerChar c = p
          · rw [if_pos hc] at hres
            exact (ih cs' hres).trans (List.suffix_cons c cs')
          · rw [if_neg hc] at hres; cases hres

/-- takeWhile of an append when the left part has a stopping element. -/
theorem takeWhile_append_stop (q : Char → Bool) (a z : List Char)
    (h : a.dropWhile q ≠ []) :
    (a ++ z).takeWhile q = a.takeWhile q ∧
      (a ++ z).dropWhile q = a.dropWhile q ++ z := by
  induction a with
  | nil => simp at h
  | cons x xs ih =>
      by_cases hx : q x
      · have hd : (x :: xs).dropWhile q = xs.dropWhile q := by
          simp [List.dropWhile_cons, hx]
        rw [hd] at h
        obtain ⟨h1, h2⟩ := ih h
        constructor
        · simp only [List.cons_append, List.takeWhile_cons, hx, if_true, h1]
        · simp only [List.cons_append, List.dropWhile_cons, hx, if_true, h2, hd]
      · rw [Bool.not_eq_true] at hx
        constructor
        · simp only [List.cons_append, List.takeWhile_cons, hx]
          simp
        · simp only [List.cons_append, List.dropWhile_cons, hx]
          simp

/-- takeWhile of an append when every element of the left part passes. -/
theorem takeWhile_append_all (q : Char → Bool) (a z : List Char)
    (h : a.dropWhile q = []) :
    (a ++ z).takeWhile q = a ++ z.takeWhile q ∧
      (a ++ z).dropWhile q = z.dropWhile q := by
  have hall : ∀ x ∈ a, q x := by
    intro x hx
    by_contra hq
    rw [Bool.not_eq_true] at hq
    have := List.dropWhile_eq_nil_iff.mp h x hx
    rw [hq] at this
    cases this
  exact ⟨List.takeWhile_append_of_pos hall, List.dropWhile_append_of_pos hall⟩

/-- Inversion: a successful match factors into its four stages. -/
theorem tryMatchG_inv (p : Pat) (cs r : List Char) (h : tryMatchG p cs = some r) :
    ∃ r1 r3, stripCI p.lit cs = some r1 ∧
      ¬(r1.takeWhile p.cls1).isEmpty = true ∧
      sepMatch p.sep (r1.dropWhile p.cls1) = some r3 ∧
      ¬(r3.takeWhile p.cls2).isEmpty = true ∧
      r = r3.dropWhile p.cls2 := by
  unfold tryMatchG at h
  cases hs : stripCI p.lit cs with
  | none => rw [hs] at h; cases h
  | some r1 =>
      rw [hs] at h
      have h' : (if (r1.takeWhile p.cls1).isEmpty = true then none
          else tailMatch p.sep p.cls2 (r1.dropWhile p.cls1)) = some r := h
      by_cases he1 : (r1.takeWhile p.cls1).isEmpty = true
      · rw [if_pos he1] at h'; cases h'
      · rw [if_neg he1] at h'
        unfold tailMatch at h'
        cases hsm : sepMatch p.sep (r1.dropWhile p.cls1) with
        | none => rw [hsm] at h'; cases h'
        | some r3 =>
            rw [hsm] at h'
            have h'' : (if (r3.takeWhile p.cls2).isEmpty = true then none
                else some (r3.dropWhile p.cls2)) = some r := h'
            by_cases he2 : (r3.takeWhile p.cls2).isEmpty = true
            · rw [if_pos he2] at h''; cases h''
            · rw [if_neg he2] at h''
              cases h''
              exact ⟨r1, r3, rfl, he1, hsm, he2, rfl⟩

/-- Construction: the four stages make a successful match. -/
theorem tryMatchG_mk (p : Pat) (cs r1 r3 : List Char)
    (hs : stripCI p.lit cs = some r1)
    (he1 : ¬(r1.takeWhile p.cls1).isEmpty = true)
    (hsm : sepMatch p.sep (r1.dropWhile p.cls1) = some r3)
    (he2 : ¬(r3.takeWhile p.cls2).isEmpty = true) :
    tryMatchG p cs = some (r3.dropWhile p.cls2) := by
  unfold tryMatchG
  rw [hs]
  show (if (r1.takeWhile p.cls1).isEmpty = true then none
      else tailMatch p.sep p.cls2 (r1.dropWhile p.cls1)) = _
  rw [if_neg he1]
  unfold tailMatch
  rw [hsm]
  show (if (r3.takeWhile p.cls2).isEmpty = true then none
      else some (r3.dropWhile p.cls2)) = _
  rw [if_neg he2]

/-- No match at an empty text (the literal is nonempty). -/
theorem tryMatchG_nil (p : Pat) (l0 : Char) (ls : List Char)
    (hl : p.lit = l0 :: ls) : tryMatchG p [] = none := by
  unfold tryMatchG
  rw [hl]
  rfl

/-- A first character that cannot open the literal kills the match. -/
theorem tryMatchG_headfail (p : Pat) (c : Char) (X : List Char) (l0 : Char)
    (ls : List Char) (hl : p.lit = l0 :: ls) (hne : lowerChar c ≠ l0) :
    tryMatchG p (c :: X) = none := by
  unfold tryMatchG
  rw [hl]
  have hs : stripCI (l0 :: ls) (c :: X) = none := by
    show (if lowerChar c = l0 then stripCI ls X else none) = none
    rw [if_neg hne]
  rw [hs]

/-- A successful match opens with the literal's first character (up to
case). -/
theorem tryMatchG_some_head (p : Pat) (cs r : List Char) (l0 : Char)
    (ls : List Char) (hl : p.lit = l0 :: ls) (h : tryMatchG p cs = some r) :
    ∃ c cs', cs = c :: cs' ∧ lowerChar c = l0 := by
  obtain ⟨r1, r3, hs, _⟩ := tryMatchG_inv p cs r h
  rw [hl] at hs
  cases cs with
  | nil => cases hs
  | cons c cs' =>
      have hres : (if lowerChar c = l0 then stripCI ls cs' else none) = some r1 := hs
      by_cases hc : lowerChar c = l0
      · exact ⟨c, cs', rfl, hc⟩
      · rw [if_neg hc] at hres; cases hres

theorem sepMatch_suffix (o : Option Char) (l r : List Char)
    (h : sepMatch o l = some r) : r <:+ l := by
  cases o with
  | none => cases h; exact List.suffix_refl _
  | some s =>
      cases l with
      | nil => cases h
      | cons a l' =>
          have h' : (if a = s then some l' else none) = some r := h
          by_cases ha : a = s
          · rw [if_pos ha] at h'; cases h'; exact List.suffix_cons a _
          · rw [if_neg ha] at h'; cases h'

theorem takeWhile_nonempty_drop_lt (q : Char → Bool) (l : List Char)
    (h : ¬(l.takeWhile q).isEmpty = true) : (l.dropWhile q).length < l.length := by
  have hsum : (l.takeWhile q).length + (l.dropWhile q).length = l.length := by
    rw [← List.length_append, List.takeWhile_append_dropWhile]
  have hpos : 0 < (l.takeWhile q).length := by
    cases hq : l.takeWhile q with
    | nil => rw [hq] at h; simp [List.isEmpty] at h
    | cons a as => simp [hq]
  omega

/-- The rest of a successful match is a strictly shorter suffix. -/
theorem tryMatchG_rest (p : Pat) (cs r : List Char) (h : tryMatchG p cs = some r) :
    r <:+ cs ∧ r.length < cs.length := by
  obtain ⟨r1, r3, hs, he1, hsm, he2, hr⟩ := tryMatchG_inv p cs r h
  have s1 : r1 <:+ cs := stripCI_suffix _ _ _ hs
  have s2 : r1.dropWhile p.cls1 <:+ r1 := List.dropWhile_suffix _
  have s3 : r3 <:+ r1.dropWhile p.cls1 := sepMatch_suffix _ _ _ hsm
  have s4 : r <:+ r3 := hr ▸ List.dropWhile_suffix _
  have l2 : (r1.dropWhile p.cls1).length < r1.length :=
    takeWhile_nonempty_drop_lt _ _ he1
  have l4 : r.length < r3.length := by
    rw [hr]; exact takeWhile_nonempty_drop_lt _ _ he2
  refine ⟨(s4.trans s3).trans (s2.trans s1), ?_⟩
  have := s3.length_le
  have := s1.length_le
  omega

theorem noM_suffix (p : Pat) (Y X : List Char) (h : noM p Y) (hx : X <:+ Y) :
    noM p X := fun Z hz => h Z (hz.trans hx)

/-- On a match-free text the replacement is the identity. -/
theorem replaceGF_invariant (p : Pat) (mask : List Char) :
    ∀ f g cs, cs.length ≤ f → cs.length ≤ g →
      replaceGF p mask f cs = replaceGF p mask g cs := by
  intro f
  induction f with
  | zero =>
      intro g cs hf hg
      have hnil : cs = [] := List.eq_nil_of_length_eq_zero (by omega)
      rw [hnil]
      cases g <;> rfl
  | succ f ih =>
      intro g cs hf hg
      cases cs with
      | nil => cases g <;> rfl
      | cons c cs' =>
          cases g with
          | zero => simp at hg
          | succ g' =>
              simp only [List.length_cons] at hf hg
              cases hm : tryMatchG p (c :: cs') with
              | some rest =>
                  have hr := tryMatchG_rest p _ _ hm
                  simp only [List.length_cons] at hr
                  show (match tryMatchG p (c :: cs') with
                    | some rest => mask ++ replaceGF p mask f rest
                    | none => c :: replaceGF p mask f cs') =
                    (match tryMatchG p (c :: cs') with
                    | some rest => mask ++ replaceGF p mask g' rest
                    | none => c :: replaceGF p mask g' cs')
                  rw [hm]
                  show mask ++ replaceGF p mask f rest =
                    mask ++ replaceGF p mask g' rest
                  rw [ih g' rest (by omega) (by omega)]
              | none =>
                  show (match tryMatchG p (c :: cs') with
                    | some rest => mask ++ replaceGF p mask f rest
                    | none => c :: replaceGF p mask f cs') =
                    (match tryMatchG p (c :: cs') with
                    | some rest => mask ++ replaceGF p mask g' rest
                    | none => c :: replaceGF p mask g' cs')
                  rw [hm]
                  show c :: replaceGF p mask f cs' = c :: replaceGF p mask g' cs'
                  rw [ih g' cs' (by omega) (by omega)]

theorem replaceG_nil (p : Pat) (mask : List Char) : replaceG p mask [] = [] := rfl

theorem replaceG_cons_some (p : Pat) (mask : List Char) (c : Char)
    (cs' rest : List Char) (h : tryMatchG p (c :: cs') = some rest) :
    replaceG p mask (c :: cs') = mask ++ replaceG p mask rest := by
  have hr := tryMatchG_rest p _ _ h
  show (match tryMatchG p (c :: cs') with
    | some rest => mask ++ replaceGF p mask cs'.length rest
    | none => c :: replaceGF p mask cs'.length cs') = _
  rw [h]
  show mask ++ replaceGF p mask cs'.length rest =
    mask ++ replaceGF p mask rest.length rest
  simp only [List.length_cons] at hr
  rw [replaceGF_invariant p mask cs'.length rest.length rest (by omega) (Nat.le_refl _)]

theorem replaceG_cons_none (p : Pat) (mask : List Char) (c : Char)
    (cs' : List Char) (h : tryMatchG p (c :: cs') = none) :
    replaceG p mask (c :: cs') = c :: replaceG p mask cs' := by
  show (match tryMatchG p (c :: cs') with
    | some rest => mask ++ replaceGF p mask cs'.length rest
    | none => c :: replaceGF p mask cs'.length cs') = _
  rw [h]
  rfl

theorem replaceG_id (p : Pat) (mask cs : List Char) (h : noM p cs) :
    replaceG p mask cs = cs := by
  induction cs with
  | nil => exact replaceG_nil p mask
  | cons c cs' ih =>
      have h0 : tryMatchG p (c :: cs') = none := h _ (List.suffix_refl _)
      rw [replaceG_cons_none p mask c cs' h0]
      rw [ih (noM_suffix p _ _ h (List.suffix_cons c cs'))]

theorem tryMatchG_none_of_strip (p : Pat) (cs : List Char)
    (h : stripCI p.lit cs = none) : tryMatchG p cs = none := by
  unfold tryMatchG
  rw [h]

theorem tryMatchG_none_of_empty1 (p : Pat) (cs r1 : List Char)
    (hs : stripCI p.lit cs = some r1)
    (he : (r1.takeWhile p.cls1).isEmpty = true) : tryMatchG p cs = none := by
  unfold tryMatchG
  rw [hs]
  show (if (r1.takeWhile p.cls1).isEmpty = true then none
      else tailMatch p.sep p.cls2 (r1.dropWhile p.cls1)) = none
  rw [if_pos he]

theorem tryMatchG_none_of_sep (p : Pat) (cs r1 : List Char)
    (hs : stripCI p.lit cs = some r1)
    (he : ¬(r1.takeWhile p.cls1).isEmpty = true)
    (hm : sepMatch p.sep (r1.dropWhile p.cls1) = none) : tryMatchG p cs = none := by
  unfold tryMatchG
  rw [hs]
  show (if (r1.takeWhile p.cls1).isEmpty = true then none
      else tailMatch p.sep p.cls2 (r1.dropWhile p.cls1)) = none
  rw [if_neg he]
  unfold tailMatch
  rw [hm]

theorem tryMatchG_none_of_empty2 (p : Pat) (cs r1 r3 : List Char)
    (hs : stripCI p.lit cs = some r1)
    (he : ¬(r1.takeWhile p.cls1).isEmpty = true)
    (hm : sepMatch p.sep (r1.dropWhile p.cls1) = some r3)
    (he2 : (r3.takeWhile p.cls2).isEmpty = true) : tryMatchG p cs = none := by
  unfold tryMatchG
  rw [hs]
  show (if (r1.takeWhile p.cls1).isEmpty = true then none
      else tailMatch p.sep p.cls2 (r1.dropWhile p.cls1)) = none
  rw [if_neg he]
  unfold tailMatch
  rw [hm]
  show (if (r3.takeWhile p.cls2).isEmpty = true then none
      else some (r3.dropWhile p.cls2)) = none
  rw [if_pos he2]

theorem takeWhile_cons_isEmpty (q : Char → Bool) (c : Char) (t : List Char) :
    ((c :: t).takeWhile q).isEmpty = !q c := by
  cases hq : q c
  · simp [List.takeWhile_cons, hq]
  · simp [List.takeWhile_cons, hq]

/-- The emptiness of a takeWhile is decided by the head; appending different
tails after heads with the same class leaves it unchanged. -/
theorem takeWhile_isEmpty_cong (q : Char → Bool) (v z' w' : List Char)
    (cz cw : Char) (h : q cz = q cw) :
    ((v ++ cz :: z').takeWhile q).isEmpty = ((v ++ cw :: w').takeWhile q).isEmpty := by
  cases v with
  | nil =>
      simp only [List.nil_append, takeWhile_cons_isEmpty, h]
  | cons x v' =>
      simp only [List.cons_append, takeWhile_cons_isEmpty]

/-- When the head after the junction fails the class, dropWhile factors
through the junction. -/
theorem dropWhile_append_cons (q : Char → Bool) (v t : List Char) (c : Char)
    (hq : q c = false) :
    (v ++ c :: t).dropWhile q = v.dropWhile q ++ c :: t := by
  by_cases h : v.dropWhile q = []
  · rw [(takeWhile_append_all q v (c :: t) h).2, h]
    simp [List.dropWhile_cons, hq]
  · exact (takeWhile_append_stop q v (c :: t) h).2

/-- Core congruence: with a junction character of the same (folded) letter on
both sides — one that cannot continue the literal past its first position,
cannot belong to `cls1`, is not the separator, and has the same `cls2`
status — success of a match attempt spanning the junction does not depend on
which of the two texts follows. -/
theorem tryMatchG_cong (p : Pat) (u z' w' : List Char) (cz cw : Char) (h : Char)
    (hcz : lowerChar cz = h) (hcw : lowerChar cw = h)
    (hlit0 : ∀ l0 ls, p.lit = l0 :: ls → l0 = h → u ≠ [])
    (htail : ∀ q ∈ p.lit.tail, q ≠ h)
    (hc1z : p.cls1 cz = false) (hc1w : p.cls1 cw = false)
    (hsepz : ∀ s, p.sep = some s → cz ≠ s)
    (hsepw : ∀ s, p.sep = some s → cw ≠ s)
    (hc2 : p.cls2 cz = p.cls2 cw) :
    (tryMatchG p (u ++ cz :: z')).isSome = (tryMatchG p (u ++ cw :: w')).isSome := by
  have hz := stripCI_append p.lit u (cz :: z')
  have hw := stripCI_append p.lit u (cw :: w')
  cases hsr : stripRem p.lit u with
  | mismatch =>
      rw [hsr] at hz hw
      rw [tryMatchG_none_of_strip p _ hz, tryMatchG_none_of_strip p _ hw]
  | leftover ps =>
      rw [hsr] at hz hw
      cases hps : ps with
      | nil =>
          rw [hps] at hz hw
          have hz' : stripCI p.lit (u ++ cz :: z') = some (cz :: z') := hz
          have hw' : stripCI p.lit (u ++ cw :: w') = some (cw :: w') := hw
          rw [tryMatchG_none_of_empty1 p _ _ hz'
              (by rw [takeWhile_cons_isEmpty, hc1z]; rfl),
            tryMatchG_none_of_empty1 p _ _ hw'
              (by rw [takeWhile_cons_isEmpty, hc1w]; rfl)]
      | cons q ps' =>
          have hq : q ≠ h := by
            cases hu : u with
            | nil =>
                have hlit : ps = p.lit := by
                  have := stripRem_leftover p.lit u ps hsr
                  rw [hu] at this
                  simpa using this
                intro hqh
                exact (hlit0 q ps' (by rw [← hlit, hps]) hqh) (by rw [hu])
            | cons a u'' =>
                have hdrop := stripRem_leftover p.lit u ps hsr
                have h1 : q ∈ ps := by rw [hps]; exact List.mem_cons_self q ps'
                rw [hdrop, hu] at h1
                have h2 : p.lit.drop (a :: u'').length = p.lit.tail.drop u''.length := by
                  rw [List.length_cons, ← List.drop_tail]
                rw [h2] at h1
                exact htail q (List.mem_of_mem_drop h1)
          have hnz : stripCI (q :: ps') (cz :: z') = none := by
            show (if lowerChar cz = q then stripCI ps' z' else none) = none
            rw [if_neg (by rw [hcz]; exact fun hh => hq hh.symm)]
          have hnw : stripCI (q :: ps') (cw :: w') = none := by
            show (if lowerChar cw = q then stripCI ps' w' else none) = none
            rw [if_neg (by rw [hcw]; exact fun hh => hq hh.symm)]
          rw [hps] at hz hw
          rw [tryMatchG_none_of_strip p _ (hz.trans hnz),
            tryMatchG_none_of_strip p _ (hw.trans hnw)]
  | done u' =>
      rw [hsr] at hz hw
      have hz' : stripCI p.lit (u ++ cz :: z') = some (u' ++ cz :: z') := hz
      have hw' : stripCI p.lit (u ++ cw :: w') = some (u' ++ cw :: w') := hw
      have hemp := takeWhile_isEmpty_cong p.cls1 u' z' w' cz cw (hc1z.trans hc1w.symm)
      by_cases he : ((u' ++ cz :: z').takeWhile p.cls1).isEmpty = true
      · rw [tryMatchG_none_of_empty1 p _ _ hz' he,
          tryMatchG_none_of_empty1 p _ _ hw' (by rw [← hemp]; exact he)]
      · have hew : ¬((u' ++ cw :: w').takeWhile p.cls1).isEmpty = true := by
          rw [← hemp]; exact he
        have hdz : (u' ++ cz :: z').dropWhile p.cls1 =
            u'.dropWhile p.cls1 ++ cz :: z' := dropWhile_append_cons _ _ _ _ hc1z
        have hdw : (u' ++ cw :: w').dropWhile p.cls1 =
            u'.dropWhile p.cls1 ++ cw :: w' := dropWhile_append_cons _ _ _ _ hc1w
        cases hsep : p.sep with
        | none =>
            have hmz : sepMatch p.sep ((u' ++ cz :: z').dropWhile p.cls1) =
                some (u'.dropWhile p.cls1 ++ cz :: z') := by rw [hsep, hdz]; rfl
            have hmw : sepMatch p.sep ((u' ++ cw :: w').dropWhile p.cls1) =
                some (u'.dropWhile p.cls1 ++ cw :: w') := by rw [hsep, hdw]; rfl
            have hemp2 := takeWhile_isEmpty_cong p.cls2 (u'.dropWhile p.cls1)
              z' w' cz cw hc2
            by_cases he2 : ((u'.dropWhile p.cls1 ++ cz :: z').takeWhile p.cls2).isEmpty = true
            · rw [tryMatchG_none_of_empty2 p _ _ _ hz' he hmz he2,
                tryMatchG_none_of_empty2 p _ _ _ hw' hew hmw (by rw [← hemp2]; exact he2)]
            · rw [tryMatchG_mk p _ _ _ hz' he hmz he2,
                tryMatchG_mk p _ _ _ hw' hew hmw (by rw [← hemp2]; exact he2)]
              rfl
        | some s =>
            cases hvv : u'.dropWhile p.cls1 with
            | nil =>
                have hmz : sepMatch p.sep ((u' ++ cz :: z').dropWhile p.cls1) = none := by
                  rw [hsep, hdz, hvv]
                  show (if cz = s then some z' else none) = none
                  rw [if_neg (hsepz s hsep)]
                have hmw : sepMatch p.sep ((u' ++ cw :: w').dropWhile p.cls1) = none := by
                  rw [hsep, hdw, hvv]
                  show (if cw = s then some w' else none) = none
                  rw [if_neg (hsepw s hsep)]
                rw [tryMatchG_none_of_sep p _ _ hz' he hmz,
                  tryMatchG_none_of_sep p _ _ hw' hew hmw]
            | cons d v' =>
                by_cases hd : d = s
                · have hmz : sepMatch p.sep ((u' ++ cz :: z').dropWhile p.cls1) =
                      some (v' ++ cz :: z') := by
                    rw [hsep, hdz, hvv]
                    show (if d = s then some (v' ++ cz :: z') else none) = _
                    rw [if_pos hd]
                  have hmw : sepMatch p.sep ((u' ++ cw :: w').dropWhile p.cls1) =
                      some (v' ++ cw :: w') := by
                    rw [hsep, hdw, hvv]
                    show (if d = s then some (v' ++ cw :: w') else none) = _
                    rw [if_pos hd]
                  have hemp2 := takeWhile_isEmpty_cong p.cls2 v' z' w' cz cw hc2
                  by_cases he2 : ((v' ++ cz :: z').takeWhile p.cls2).isEmpty = true
                  · rw [tryMatchG_none_of_empty2 p _ _ _ hz' he hmz he2,
                      tryMatchG_none_of_empty2 p _ _ _ hw' hew hmw
                        (by rw [← hemp2]; exact he2)]
                  · rw [tryMatchG_mk p _ _ _ hz' he hmz he2,
                      tryMatchG_mk p _ _ _ hw' hew hmw (by rw [← hemp2]; exact he2)]
                    rfl
                · have hmz : sepMatch p.sep ((u' ++ cz :: z').dropWhile p.cls1) = none := by
                    rw [hsep, hdz, hvv]
                    show (if d = s then some (v' ++ cz :: z') else none) = none
                    rw [if_neg hd]
                  have hmw : sepMatch p.sep ((u' ++ cw :: w').dropWhile p.cls1) = none := by
                    rw [hsep, hdw, hvv]
                    show (if d = s then some (v' ++ cw :: w') else none) = none
                    rw [if_neg hd]
                  rw [tryMatchG_none_of_sep p _ _ hz' he hmz,
                    tryMatchG_none_of_sep p _ _ hw' hew hmw]

/-- Blocking: a junction character that no stage of the pattern accepts
cannot rescue a match attempt that fails against the real continuation; if
the attempt fails on `u ++ w`, it also fails on `u ++ c :: X`. -/
theorem tryMatchG_block (p : Pat) (u X w : List Char) (c : Char)
    (hlitall : ∀ q ∈ p.lit, q ≠ lowerChar c)
    (hc1 : p.cls1 c = false)
    (hseps : ∀ s, p.sep = some s → c ≠ s)
    (hc2 : p.cls2 c = false)
    (hnone : tryMatchG p (u ++ w) = none) :
    tryMatchG p (u ++ c :: X) = none := by
  have hz := stripCI_append p.lit u (c :: X)
  have hw := stripCI_append p.lit u w
  cases hsr : stripRem p.lit u with
  | mismatch =>
      rw [hsr] at hz
      exact tryMatchG_none_of_strip p _ hz
  | leftover ps =>
      rw [hsr] at hz
      cases hps : ps with
      | nil =>
          rw [hps] at hz
          exact tryMatchG_none_of_empty1 p _ _ hz
            (by rw [takeWhile_cons_isEmpty, hc1]; rfl)
      | cons q ps' =>
          have hqmem : q ∈ p.lit := by
            have hdrop := stripRem_leftover p.lit u ps hsr
            have h1 : q ∈ ps := by rw [hps]; exact List.mem_cons_self q ps'
            rw [hdrop] at h1
            exact List.mem_of_mem_drop h1
          have hnz : stripCI (q :: ps') (c :: X) = none := by
            show (if lowerChar c = q then stripCI ps' X else none) = none
            rw [if_neg (fun hh => hlitall q hqmem hh.symm)]
          rw [hps] at hz
          exact tryMatchG_none_of_strip p _ (hz.trans hnz)
  | done u' =>
      rw [hsr] at hz hw
      have hz' : stripCI p.lit (u ++ c :: X) = some (u' ++ c :: X) := hz
      have hw' : stripCI p.lit (u ++ w) = some (u' ++ w) := hw
      cases hu' : u' with
      | nil =>
          rw [hu'] at hz'
          exact tryMatchG_none_of_empty1 p _ _ hz'
            (by rw [List.nil_append, takeWhile_cons_isEmpty, hc1]; rfl)
      | cons x u'' =>
          rw [hu'] at hz' hw'
          by_cases hx : p.cls1 x = true
          · have hne1 : ¬(((x :: u'') ++ c :: X).takeWhile p.cls1).isEmpty = true := by
              rw [List.cons_append, takeWhile_cons_isEmpty, hx]
              simp
            have hdz : ((x :: u'') ++ c :: X).dropWhile p.cls1 =
                (x :: u'').dropWhile p.cls1 ++ c :: X :=
              dropWhile_append_cons _ _ _ _ hc1
            cases hvv : (x :: u'').dropWhile p.cls1 with
            | nil =>
                rw [hvv, List.nil_append] at hdz
                cases hsep : p.sep with
                | none =>
                    have hmz : sepMatch p.sep (((x :: u'') ++ c :: X).dropWhile p.cls1) =
                        some (c :: X) := by rw [hsep, hdz]; rfl
                    exact tryMatchG_none_of_empty2 p _ _ _ hz' hne1 hmz
                      (by rw [takeWhile_cons_isEmpty, hc2]; rfl)
                | some s =>
                    have hmz : sepMatch p.sep (((x :: u'') ++ c :: X).dropWhile p.cls1) =
                        none := by
                      rw [hsep, hdz]
                      show (if c = s then some X else none) = none
                      rw [if_neg (hseps s hsep)]
                    exact tryMatchG_none_of_sep p _ _ hz' hne1 hmz
            | cons d v' =>
                rw [hvv] at hdz
                have hstop := takeWhile_append_stop p.cls1 (x :: u'') w (by rw [hvv]; simp)
                have hdw : ((x :: u'') ++ w).dropWhile p.cls1 =
                    (d :: v') ++ w := by rw [hstop.2, hvv]
                have hne1w : ¬(((x :: u'') ++ w).takeWhile p.cls1).isEmpty = true := by
                  rw [List.cons_append, takeWhile_cons_isEmpty, hx]
                  simp
                cases hsep : p.sep with
                | none =>
                    have hmz : sepMatch p.sep (((x :: u'') ++ c :: X).dropWhile p.cls1) =
                        some ((d :: v') ++ c :: X) := by rw [hsep, hdz]; rfl
                    by_cases hd2 : p.cls2 d = true
                    · exfalso
                      have hmw : sepMatch p.sep (((x :: u'') ++ w).dropWhile p.cls1) =
                          some ((d :: v') ++ w) := by rw [hsep, hdw]; rfl
                      have hne2w : ¬(((d :: v') ++ w).takeWhile p.cls2).isEmpty = true := by
                        rw [List.cons_append, takeWhile_cons_isEmpty, hd2]
                        simp
                      have := tryMatchG_mk p _ _ _ hw' hne1w hmw hne2w
                      rw [hnone] at this
                      cases this
                    · rw [Bool.not_eq_true] at hd2
                      exact tryMatchG_none_of_empty2 p _ _ _ hz' hne1 hmz
                        (by rw [List.cons_append, takeWhile_cons_isEmpty, hd2]; rfl)
                | some s =>
                    by_cases hd : d = s
                    · have hmz : sepMatch p.sep (((x :: u'') ++ c :: X).dropWhile p.cls1) =
                          some (v' ++ c :: X) := by
                        rw [hsep, hdz]
                        show (if d = s then some (v' ++ c :: X) else none) = _
                        rw [if_pos hd]
                      cases hv' : v' with
                      | nil =>
                          rw [hv'] at hmz
                          exact tryMatchG_none_of_empty2 p _ _ _ hz' hne1 hmz
                            (by rw [List.nil_append, takeWhile_cons_isEmpty, hc2]; rfl)
                      | cons e v'' =>
                          rw [hv'] at hmz
                          by_cases he2 : p.cls2 e = true
                          · exfalso
                            have hmw : sepMatch p.sep (((x :: u'') ++ w).dropWhile p.cls1) =
                                some ((e :: v'') ++ w) := by
                              rw [hsep, hdw]
                              show (if d = s then some (v' ++ w) else none) = _
                              rw [if_pos hd, hv']
                            have hne2w : ¬(((e :: v'') ++ w).takeWhile p.cls2).isEmpty = true := by
                              rw [List.cons_append, takeWhile_cons_isEmpty, he2]
                              simp
                            have := tryMatchG_mk p _ _ _ hw' hne1w hmw hne2w
                            rw [hnone] at this
                            cases this
                          · rw [Bool.not_eq_true] at he2
                            exact tryMatchG_none_of_empty2 p _ _ _ hz' hne1 hmz
                              (by rw [List.cons_append, takeWhile_cons_isEmpty, he2]; rfl)
                    · have hmz : sepMatch p.sep (((x :: u'') ++ c :: X).dropWhile p.cls1) =
                          none := by
                        rw [hsep, hdz]
                        show (if d = s then some (v' ++ c :: X) else none) = none
                        rw [if_neg hd]
                      exact tryMatchG_none_of_sep p _ _ hz' hne1 hmz
          · rw [Bool.not_eq_true] at hx
            exact tryMatchG_none_of_empty1 p _ _ hz'
              (by rw [List.cons_append, takeWhile_cons_isEmpty, hx]; rfl)

theorem tryMatchG_nil_any (p : Pat) : tryMatchG p [] = none := by
  unfold tryMatchG
  cases hl : p.lit with
  | nil => rfl
  | cons l0 ls => rfl

theorem suffix_append_self (a b c : List Char) (h : a <:+ b) : a ++ c <:+ b ++ c := by
  obtain ⟨t, ht⟩ := h
  exact ⟨t, by rw [← ht, List.append_assoc]⟩

theorem suffix_append_cases (X A B : List Char) (h : X <:+ A ++ B) :
    X <:+ B ∨ ∃ u, u <:+ A ∧ u ≠ [] ∧ X = u ++ B := by
  induction A with
  | nil => exact Or.inl (by simpa using h)
  | cons a A' ih =>
      rw [List.cons_append, List.suffix_cons_iff] at h
      rcases h with rfl | h'
      · exact Or.inr ⟨a :: A', List.suffix_refl _, by simp, by rw [List.cons_append]⟩
      · rcases ih h' with hB | ⟨u, hu, hne, rfl⟩
        · exact Or.inl hB
        · exact Or.inr ⟨u, hu.trans (List.suffix_cons a A'), hne, rfl⟩

/-- Decomposition of a replacement scan at its first match (if any). -/
theorem replaceG_decomp (p : Pat) (mask cs : List Char) :
    (noM p cs ∧ replaceG p mask cs = cs) ∨
    ∃ pre suf rest, cs = pre ++ suf ∧ tryMatchG p suf = some rest ∧
      (∀ X, X <:+ cs → suf.length < X.length → tryMatchG p X = none) ∧
      replaceG p mask cs = pre ++ (mask ++ replaceG p mask rest) := by
  induction cs with
  | nil =>
      left
      constructor
      · intro X hX
        have : X = [] := List.eq_nil_of_suffix_nil hX
        rw [this]
        exact tryMatchG_nil_any p
      · exact replaceG_nil p mask
  | cons c cs' ih =>
      cases hm : tryMatchG p (c :: cs') with
      | some rest =>
          right
          refine ⟨[], c :: cs', rest, by simp, hm, ?_, ?_⟩
          · intro X hX hlen
            have := hX.length_le
            omega
          · rw [replaceG_cons_some p mask c cs' rest hm, List.nil_append]
      | none =>
          rcases ih with ⟨hnoM, hid⟩ | ⟨pre, suf, rest, hcs, hsm, hmax, hrepl⟩
          · left
            constructor
            · intro X hX
              rcases List.suffix_cons_iff.mp hX with rfl | hX'
              · exact hm
              · exact hnoM X hX'
            · rw [replaceG_cons_none p mask c cs' hm, hid]
          · right
            refine ⟨c :: pre, suf, rest, by rw [List.cons_append, ← hcs], hsm, ?_, ?_⟩
            · intro X hX hlen
              rcases List.suffix_cons_iff.mp hX with rfl | hX'
              · exact hm
              · exact hmax X (hcs ▸ hX') hlen
            · rw [replaceG_cons_none p mask c cs' hm, hrepl, List.cons_append]

/-- One block of the replaced text — a match-free copied stretch, the mask,
and a match-free remainder — is itself match-free for a pattern `P` whose
stages all reject the junction letter `h`. -/
theorem noM_concat_mask (P : Pat) (pre suf maskQ R : List Char) (h : Char)
    (hpre : ∀ u, u <:+ pre → u ≠ [] → tryMatchG P (u ++ suf) = none)
    (hsufhead : ∃ c t, suf = c :: t ∧ lowerChar c = h)
    (hmaskHead : ∃ cm m', maskQ = cm :: m' ∧ lowerChar cm = h)
    (hmaskBlock : ∀ m X, m <:+ maskQ → m ≠ [] → tryMatchG P (m ++ X) = none)
    (htail : ∀ q ∈ P.lit.tail, q ≠ h)
    (hc1 : ∀ c, lowerChar c = h → P.cls1 c = false)
    (hsep : ∀ s, P.sep = some s → ∀ c, lowerChar c = h → c ≠ s)
    (hc2 : ∀ c d, lowerChar c = h → lowerChar d = h → P.cls2 c = P.cls2 d)
    (hR : noM P R) :
    noM P (pre ++ (maskQ ++ R)) := by
  intro X hX
  rcases suffix_append_cases X pre (maskQ ++ R) hX with hX1 | ⟨u, hu, hne, rfl⟩
  · rcases suffix_append_cases X maskQ R hX1 with hX2 | ⟨m, hmm, hmne, rfl⟩
    · exact hR X hX2
    · exact hmaskBlock m R hmm hmne
  · obtain ⟨cS, sufT, rfl, hcS⟩ := hsufhead
    obtain ⟨cm, m', rfl, hcm⟩ := hmaskHead
    have hcong := tryMatchG_cong P u (m' ++ R) sufT cm cS h hcm hcS
      (fun _ _ _ _ => hne) htail (hc1 cm hcm) (hc1 cS hcS)
      (fun s hs => hsep s hs cm hcm) (fun s hs => hsep s hs cS hcS)
      (hc2 cm cS hcm hcS)
    have hnone := hpre u hu hne
    rw [hnone] at hcong
    have : (tryMatchG P (u ++ cm :: (m' ++ R))).isSome = false := hcong
    cases ho : tryMatchG P (u ++ cm :: (m' ++ R)) with
    | none => rw [List.cons_append]; exact ho
    | some v => rw [ho] at this; cases this

/-- After a full self-scan no match of the scanned pattern remains anywhere
in the output. -/
theorem noM_replaceG_self (P : Pat) (maskP : List Char) (l0 : Char) (ls : List Char)
    (hlit : P.lit = l0 :: ls)
    (hmaskHead : ∃ cm m', maskP = cm :: m' ∧ lowerChar cm = l0)
    (hmaskBlock : ∀ m X, m <:+ maskP → m ≠ [] → tryMatchG P (m ++ X) = none)
    (htail : ∀ q ∈ P.lit.tail, q ≠ l0)
    (hc1 : ∀ c, lowerChar c = l0 → P.cls1 c = false)
    (hsep : ∀ s, P.sep = some s → ∀ c, lowerChar c = l0 → c ≠ s)
    (hc2 : ∀ c d, lowerChar c = l0 → lowerChar d = l0 → P.cls2 c = P.cls2 d) :
    ∀ cs, noM P (replaceG P maskP cs) := by
  have main : ∀ n cs, cs.length ≤ n → noM P (replaceG P maskP cs) := by
    intro n
    induction n with
    | zero =>
        intro cs hlen
        have hnil : cs = [] := List.eq_nil_of_length_eq_zero (by omega)
        rw [hnil, replaceG_nil]
        intro X hX
        rw [List.eq_nil_of_suffix_nil hX]
        exact tryMatchG_nil_any P
    | succ n ih =>
        intro cs hlen
        rcases replaceG_decomp P maskP cs with ⟨hnoM, hid⟩ |
          ⟨pre, suf, rest, hcs, hsm, hmax, hrepl⟩
        · rw [hid]; exact hnoM
        · rw [hrepl]
          have hsuf_suffix : suf <:+ cs := ⟨pre, hcs.symm⟩
          have hrest := tryMatchG_rest P suf rest hsm
          apply noM_concat_mask P pre suf maskP (replaceG P maskP rest) l0
          · intro u hu hne
            apply hmax
            · rw [hcs]; exact suffix_append_self u pre suf hu
            · have hpos : 0 < u.length := List.length_pos.mpr hne
              rw [List.length_append]; omega
          · exact tryMatchG_some_head P suf rest l0 ls hlit hsm
          · exact hmaskHead
          · exact hmaskBlock
          · exact htail
          · exact hc1
          · exact hsep
          · exact hc2
          · apply ih
            have h1 : suf.length ≤ cs.length := hsuf_suffix.length_le
            omega
  intro cs
  exact main cs.length cs (Nat.le_refl _)

/-- Scanning with another pattern preserves freedom from this one, when this
pattern's stages all reject the other pattern's opening letter (which is also
the mask's opening letter). -/
theorem noM_replaceG_cross (P Q : Pat) (maskQ : List Char) (q0 : Char) (qs : List Char)
    (hlitQ : Q.lit = q0 :: qs)
    (hmaskHead : ∃ cm m', maskQ = cm :: m' ∧ lowerChar cm = q0)
    (hmaskBlock : ∀ m X, m <:+ maskQ → m ≠ [] → tryMatchG P (m ++ X) = none)
    (htail : ∀ q ∈ P.lit.tail, q ≠ q0)
    (hc1 : ∀ c, lowerChar c = q0 → P.cls1 c = false)
    (hsep : ∀ s, P.sep = some s → ∀ c, lowerChar c = q0 → c ≠ s)
    (hc2 : ∀ c d, lowerChar c = q0 → lowerChar d = q0 → P.cls2 c = P.cls2 d) :
    ∀ cs, noM P cs → noM P (replaceG Q maskQ cs) := by
  have main : ∀ n cs, cs.length ≤ n → noM P cs → noM P (replaceG Q maskQ cs) := by
    intro n
    induction n with
    | zero =>
        intro cs hlen hfree
        have hnil : cs = [] := List.eq_nil_of_length_eq_zero (by omega)
        rw [hnil, replaceG_nil]
        intro X hX
        rw [List.eq_nil_of_suffix_nil hX]
        exact tryMatchG_nil_any P
    | succ n ih =>
        intro cs hlen hfree
        rcases replaceG_decomp Q maskQ cs with ⟨hnoM, hid⟩ |
          ⟨pre, suf, rest, hcs, hsm, hmax, hrepl⟩
        · rw [hid]; exact hfree
        · rw [hrepl]
          have hsuf_suffix : suf <:+ cs := ⟨pre, hcs.symm⟩
          have hrest := tryMatchG_rest Q suf rest hsm
          apply noM_concat_mask P pre suf maskQ (replaceG Q maskQ rest) q0
          · intro u hu hne
            apply hfree
            rw [hcs]
            exact suffix_append_self u pre suf hu
          · exact tryMatchG_some_head Q suf rest q0 qs hlitQ hsm
          · exact hmaskHead
          · exact hmaskBlock
          · exact htail
          · exact hc1
          · exact hsep
          · exact hc2
          · apply ih
            · have h1 : suf.length ≤ cs.length := hsuf_suffix.length_le
              omega
            · exact noM_suffix P cs rest hfree (hrest.1.trans hsuf_suffix)
  intro cs
  exact main cs.length cs (Nat.le_refl _)

theorem suffix_eq_drop (m l : List Char) (h : m <:+ l) :
    m = l.drop (l.length - m.length) := by
  obtain ⟨t, ht⟩ := h
  rw [← ht]
  have hl : (t ++ m).length - m.length = t.length := by
    rw [List.length_append]; omega
  rw [hl, List.drop_left]

theorem skMask_block_sk : ∀ m X, m <:+ skMask → m ≠ [] →
    tryMatchG skPat (m ++ X) = none := by
  intro m X hm hne
  have h10 : skMask.length = 10 := rfl
  have hlen : m.length ≤ 10 := by have := hm.length_le; omega
  have hpos : 0 < m.length := List.length_pos.mpr hne
  obtain ⟨k, hk9, hmeq⟩ : ∃ k, k ≤ 9 ∧ m = skMask.drop k :=
    ⟨skMask.length - m.length, by omega, suffix_eq_drop m skMask hm⟩
  rw [hmeq]
  interval_cases k <;> rfl

theorem skMask_block_bearer : ∀ m X, m <:+ skMask → m ≠ [] →
    tryMatchG bearerPat (m ++ X) = none := by
  intro m X hm hne
  have h10 : skMask.length = 10 := rfl
  have hlen : m.length ≤ 10 := by have := hm.length_le; omega
  have hpos : 0 < m.length := List.length_pos.mpr hne
  obtain ⟨k, hk9, hmeq⟩ : ∃ k, k ≤ 9 ∧ m = skMask.drop k :=
    ⟨skMask.length - m.length, by omega, suffix_eq_drop m skMask hm⟩
  rw [hmeq]
  interval_cases k <;> rfl

theorem bearerMask_block_sk : ∀ m X, m <:+ bearerMask → m ≠ [] →
    tryMatchG skPat (m ++ X) = none := by
  intro m X hm hne
  have h10 : bearerMask.length = 10 := rfl
  have hlen : m.length ≤ 10 := by have := hm.length_le; omega
  have hpos : 0 < m.length := List.length_pos.mpr hne
  obtain ⟨k, hk9, hmeq⟩ : ∃ k, k ≤ 9 ∧ m = bearerMask.drop k :=
    ⟨bearerMask.length - m.length, by omega, suffix_eq_drop m bearerMask hm⟩
  rw [hmeq]
  interval_cases k <;> rfl

theorem bearerMask_block_bearer : ∀ m X, m <:+ bearerMask → m ≠ [] →
    tryMatchG bearerPat (m ++ X) = none := by
  intro m X hm hne
  have h10 : bearerMask.length = 10 := rfl
  have hlen : m.length ≤ 10 := by have := hm.length_le; omega
  have hpos : 0 < m.length := List.length_pos.mpr hne
  obtain ⟨k, hk9, hmeq⟩ : ∃ k, k ≤ 9 ∧ m = bearerMask.drop k :=
    ⟨bearerMask.length - m.length, by omega, suffix_eq_drop m bearerMask hm⟩
  rw [hmeq]
  interval_cases k <;> rfl

theorem lower_ne_sep (c t s : Char) (ht : 97 ≤ t.toNat ∧ t.toNat ≤ 122)
    (hs : s.toNat ≠ t.toNat ∧ s.toNat ≠ t.toNat - 32)
    (h : lowerChar c = t) : c ≠ s := by
  intro he
  rcases lowerChar_eq_elim c t ht h with h1 | h1 <;>
    · rw [char_eq_iff_toNat] at he
      omega

theorem sk_hc1 (t : Char) (ht : 97 ≤ t.toNat ∧ t.toNat ≤ 122) :
    ∀ c, lowerChar c = t → skPat.cls1 c = false :=
  fun c hc => isDigitC_eq_false_of_lower c t ht hc

theorem bearer_hc1 (t : Char) (ht : 97 ≤ t.toNat ∧ t.toNat ≤ 122) :
    ∀ c, lowerChar c = t → bearerPat.cls1 c = false :=
  fun c hc => jsIsWs_eq_false_of_lower c t ht hc

theorem wordDash_hc2 (p : Pat) (hp : p.cls2 = isWordDashC) (t : Char)
    (ht : 97 ≤ t.toNat ∧ t.toNat ≤ 122) :
    ∀ c d, lowerChar c = t → lowerChar d = t → p.cls2 c = p.cls2 d := by
  intro c d hc hd
  rw [hp, isWordDashC_eq_true_of_lower c t ht hc, isWordDashC_eq_true_of_lower d t ht hd]

theorem sk_hsep (t : Char) (ht : 97 ≤ t.toNat ∧ t.toNat ≤ 122)
    (hd : (45 : Nat) ≠ t.toNat ∧ (45 : Nat) ≠ t.toNat - 32) :
    ∀ s, skPat.sep = some s → ∀ c, lowerChar c = t → c ≠ s := by
  intro s hs c hc
  have hs' : s = '-' := by
    have : (some '-' : Option Char) = some s := hs
    cases this
    rfl
  rw [hs']
  have h45 : ('-' : Char).toNat = 45 := rfl
  exact lower_ne_sep c t '-' ht (by rw [h45]; exact hd) hc

theorem bearer_hsep (t : Char) :
    ∀ s, bearerPat.sep = some s → ∀ c, lowerChar c = t → c ≠ s := by
  intro s hs
  cases hs

/-- After both replacements no API-key pattern match remains. -/
theorem noM_sk_masked (s : List Char) : noM skPat (maskedStr s) := by
  have h1 : noM skPat (replaceSk s) := by
    have := noM_replaceG_self skPat skMask 's' "k-ant-api".data rfl
      ⟨'s', "k-ant-***".data, rfl, by decide⟩ skMask_block_sk
      (by decide) (sk_hc1 's' (by decide)) (sk_hsep 's' (by decide) (by decide))
      (wordDash_hc2 skPat rfl 's' (by decide)) s
    exact this
  have h2 := noM_replaceG_cross skPat bearerPat bearerMask 'b' "earer".data rfl
    ⟨'B', "earer ***".data, rfl, by decide⟩ bearerMask_block_sk
    (by decide) (sk_hc1 'b' (by decide)) (sk_hsep 'b' (by decide) (by decide))
    (wordDash_hc2 skPat rfl 'b' (by decide)) (replaceSk s) h1
  exact h2

/-- After both replacements no bearer-token pattern match remains. -/
theorem noM_bearer_masked (s : List Char) : noM bearerPat (maskedStr s) := by
  exact noM_replaceG_self bearerPat bearerMask 'b' "earer".data rfl
    ⟨'B', "earer ***".data, rfl, by decide⟩ bearerMask_block_bearer
    (by decide) (bearer_hc1 'b' (by decide)) (bearer_hsep 'b')
    (wordDash_hc2 bearerPat rfl 'b' (by decide)) (replaceSk s)

/-- On a fully masked string both replacements are the identity. -/
theorem maskedStr_idem (s : List Char) : maskedStr (maskedStr s) = maskedStr s := by
  unfold maskedStr
  have h1 : noM skPat (maskedStr s) := noM_sk_masked s
  have h2 : noM bearerPat (maskedStr s) := noM_bearer_masked s
  unfold maskedStr at h1 h2
  rw [show replaceSk (replaceBearer (replaceSk s)) = replaceBearer (replaceSk s) from
    replaceG_id _ _ _ h1]
  exact replaceG_id _ _ _ h2

theorem sepMatch_some_length (s : Char) (l r : List Char)
    (h : sepMatch (some s) l = some r) : r.length + 1 = l.length := by
  cases l with
  | nil => cases h
  | cons a l' =>
      have h' : (if a = s then some l' else none) = some r := h
      by_cases ha : a = s
      · rw [if_pos ha] at h'; cases h'; rfl
      · rw [if_neg ha] at h'; cases h'

theorem tryMatch_consume_sk (cs r : List Char) (h : tryMatchG skPat cs = some r) :
    r.length + 13 ≤ cs.length := by
  obtain ⟨r1, r3, hs, he1, hsm, he2, hr⟩ := tryMatchG_inv skPat cs r h
  have l1 : r1.length + 10 = cs.length := stripCI_length _ _ _ hs
  have l2 : (r1.dropWhile skPat.cls1).length < r1.length :=
    takeWhile_nonempty_drop_lt _ _ he1
  have l3 : r3.length + 1 = (r1.dropWhile skPat.cls1).length :=
    sepMatch_some_length '-' _ _ hsm
  have l4 : r.length < r3.length := by
    rw [hr]; exact takeWhile_nonempty_drop_lt _ _ he2
  omega

theorem tryMatch_consume_bearer (cs r : List Char)
    (h : tryMatchG bearerPat cs = some r) : r.length + 8 ≤ cs.length := by
  obtain ⟨r1, r3, hs, he1, hsm, he2, hr⟩ := tryMatchG_inv bearerPat cs r h
  have l1 : r1.length + 6 = cs.length := stripCI_length _ _ _ hs
  have l2 : (r1.dropWhile bearerPat.cls1).length < r1.length :=
    takeWhile_nonempty_drop_lt _ _ he1
  have l3 : r3 = r1.dropWhile bearerPat.cls1 := by
    have h' : some (r1.dropWhile bearerPat.cls1) = some r3 := hsm
    cases h'
    rfl
  have l3' : r3.length = (r1.dropWhile bearerPat.cls1).length := by rw [l3]
  have l4 : r.length < r3.length := by
    rw [hr]; exact takeWhile_nonempty_drop_lt _ _ he2
  omega

theorem replaceG_length_le (p : Pat) (mask : List Char) (k f : Nat)
    (hcons : ∀ cs r, tryMatchG p cs = some r → r.length + k ≤ cs.length)
    (hk : 1 ≤ k) (hf : 1 ≤ f) (hmask : mask.length ≤ f * k) :
    ∀ cs, (replaceG p mask cs).length ≤ f * cs.length := by
  have main : ∀ n cs, cs.length ≤ n → (replaceG p mask cs).length ≤ f * cs.length := by
    intro n
    induction n with
    | zero =>
        intro cs hlen
        have hnil : cs = [] := List.eq_nil_of_length_eq_zero (by omega)
        rw [hnil, replaceG_nil]
        simp
    | succ n ih =>
        intro cs hlen
        cases cs with
        | nil => rw [replaceG_nil]; simp
        | cons c cs' =>
            cases hm : tryMatchG p (c :: cs') with
            | some rest =>
                rw [replaceG_cons_some p mask c cs' rest hm]
                have hc := hcons _ _ hm
                have hr : (replaceG p mask rest).length ≤ f * rest.length := by
                  apply ih
                  simp only [List.length_cons] at hlen hc
                  omega
                rw [List.length_append]
                have : f * (rest.length + k) ≤ f * (c :: cs').length :=
                  Nat.mul_le_mul_left f (by omega)
                rw [Nat.mul_add] at this
                omega
            | none =>
                rw [replaceG_cons_none p mask c cs' hm]
                have hr : (replaceG p mask cs').length ≤ f * cs'.length := by
                  apply ih
                  simp only [List.length_cons] at hlen
                  omega
                simp only [List.length_cons]
                have : f * cs'.length + f ≤ f * (cs'.length + 1) := by
                  rw [Nat.mul_add, Nat.mul_one]
                rw [Nat.mul_add, Nat.mul_one]
                omega
  intro cs
  exact main cs.length cs (Nat.le_refl _)

theorem replaceSk_length_le (s : List Char) : (replaceSk s).length ≤ s.length := by
  have := replaceG_length_le skPat skMask 13 1 tryMatch_consume_sk (by omega)
    (Nat.le_refl 1) (by decide) s
  simpa using this

theorem replaceBearer_length_le (s : List Char) :
    (replaceBearer s).length ≤ 2 * s.length :=
  replaceG_length_le bearerPat bearerMask 8 2 tryMatch_consume_bearer
    (by omega) (by omega) (by decide) s

theorem maskedStr_length_le (s : List Char) : (maskedStr s).length ≤ 2 * s.length := by
  unfold maskedStr
  have h1 := replaceBearer_length_le (replaceSk s)
  have h2 := replaceSk_length_le s
  omega

theorem natDigitsF_invariant :
    ∀ f g n, n ≤ f → n ≤ g → natDigitsF f n = natDigitsF g n := by
  intro f
  induction f with
  | zero =>
      intro g n hf hg
      have h0 : n = 0 := by omega
      subst h0
      cases g with
      | zero => rfl
      | succ g' =>
          show [digitChar 0] =
            if (0 : Nat) < 10 then [digitChar 0]
            else natDigitsF g' (0 / 10) ++ [digitChar (0 % 10)]
          rw [if_pos (by omega)]
  | succ f ih =>
      intro g n hf hg
      cases g with
      | zero =>
          have h0 : n = 0 := by omega
          subst h0
          show (if (0 : Nat) < 10 then [digitChar 0]
              else natDigitsF f (0 / 10) ++ [digitChar (0 % 10)]) = [digitChar 0]
          rw [if_pos (by omega)]
      | succ g' =>
          show (if n < 10 then [digitChar n]
              else natDigitsF f (n / 10) ++ [digitChar (n % 10)]) =
            (if n < 10 then [digitChar n]
              else natDigitsF g' (n / 10) ++ [digitChar (n % 10)])
          by_cases h10 : n < 10
          · rw [if_pos h10, if_pos h10]
          · rw [if_neg h10, if_neg h10]
            have hd : n / 10 < n := Nat.div_lt_self (by omega) (by omega)
            rw [ih g' (n / 10) (by omega) (by omega)]

theorem natDigits_eq (n : Nat) :
    natDigits n = if n < 10 then [digitChar n]
      else natDigits (n / 10) ++ [digitChar (n % 10)] := by
  unfold natDigits
  cases n with
  | zero =>
      show [digitChar 0] =
        if (0 : Nat) < 10 then [digitChar 0]
        else natDigitsF (0 / 10) (0 / 10) ++ [digitChar (0 % 10)]
      rw [if_pos (by omega)]
  | succ m =>
      show (if m + 1 < 10 then [digitChar (m + 1)]
          else natDigitsF m ((m + 1) / 10) ++ [digitChar ((m + 1) % 10)]) = _
      by_cases h10 : m + 1 < 10
      · rw [if_pos h10, if_pos h10]
      · rw [if_neg h10, if_neg h10]
        have hd : (m + 1) / 10 < m + 1 := Nat.div_lt_self (by omega) (by omega)
        rw [natDigitsF_invariant m ((m + 1) / 10) ((m + 1) / 10) (by omega)
          (Nat.le_refl _)]

theorem digitChar_isDigit (n : Nat) : isDigitC (digitChar n) = true := by
  unfold digitChar isDigitC
  have hm : n % 10 < 10 := Nat.mod_lt n (by omega)
  rw [char_toNat_ofNat (48 + n % 10) (by omega)]
  simp only [decide_eq_true_eq]
  omega

theorem natDigits_all_digits (n : Nat) : ∀ c ∈ natDigits n, isDigitC c = true := by
  have main : ∀ m n, n ≤ m → ∀ c ∈ natDigits n, isDigitC c = true := by
    intro m
    induction m with
    | zero =>
        intro n hn c hc
        have h0 : n = 0 := by omega
        rw [h0, natDigits_eq] at hc
        simp only [if_pos (by omega : (0:Nat) < 10)] at hc
        rw [List.mem_singleton] at hc
        rw [hc]
        exact digitChar_isDigit 0
    | succ m ih =>
        intro n hn c hc
        rw [natDigits_eq] at hc
        by_cases h10 : n < 10
        · rw [if_pos h10, List.mem_singleton] at hc
          rw [hc]; exact digitChar_isDigit n
        · rw [if_neg h10, List.mem_append] at hc
          rcases hc with hc | hc
          · exact ih (n / 10) (by omega) c hc
          · rw [List.mem_singleton] at hc
            rw [hc]; exact digitChar_isDigit (n % 10)
  intro c hc
  exact main n n (Nat.le_refl _) c hc

theorem natDigits_length_le (k : Nat) (hk : 1 ≤ k) :
    ∀ n, n < 10 ^ k → (natDigits n).length ≤ k := by
  induction k with
  | zero => omega
  | succ k ih =>
      intro n hn
      rw [natDigits_eq]
      by_cases h10 : n < 10
      · rw [if_pos h10]
        simp only [List.length_singleton]
        omega
      · rw [if_neg h10]
        rw [List.length_append, List.length_singleton]
        have hk1 : 1 ≤ k := by
          by_contra hk0
          have : k = 0 := by omega
          rw [this] at hn
          simp at hn
          omega
        have hdiv : n / 10 < 10 ^ k := by
          rw [Nat.div_lt_iff_lt_mul (by omega : 0 < 10)]
          calc n < 10 ^ (k + 1) := hn
          _ = 10 ^ k * 10 := by rw [Nat.pow_succ]
        have := ih hk1 (n / 10) hdiv
        omega

/-- A text assembled from a blocked stretch, digits, another blocked stretch
and a match-free remainder is match-free. -/
theorem noM_of_parts (P : Pat) (A ds T C : List Char)
    (hA : ∀ u rest, u <:+ A → u ≠ [] → tryMatchG P (u ++ rest) = none)
    (hds : ∀ d, d ∈ ds → ∀ rest, tryMatchG P (d :: rest) = none)
    (hT : ∀ u rest, u <:+ T → u ≠ [] → tryMatchG P (u ++ rest) = none)
    (hC : noM P C) :
    noM P (A ++ (ds ++ (T ++ C))) := by
  intro X hX
  rcases suffix_append_cases X A (ds ++ (T ++ C)) hX with hX1 | ⟨u, hu, hne, rfl⟩
  · rcases suffix_append_cases X ds (T ++ C) hX1 with hX2 | ⟨w, hw, hwne, rfl⟩
    · rcases suffix_append_cases X T C hX2 with hX3 | ⟨v, hv, hvne, rfl⟩
      · exact hC X hX3
      · exact hT v C hv hvne
    · cases w with
      | nil => cases hwne rfl
      | cons d w' =>
          have hd : d ∈ ds := by
            obtain ⟨t, ht⟩ := hw
            rw [← ht]
            exact List.mem_append_right t (List.mem_cons_self d w')
          rw [List.cons_append]
          exact hds d hd (w' ++ (T ++ C))
  · exact hA u (ds ++ (T ++ C)) hu hne

theorem digit_head_sk (d : Char) (rest : List Char) (hd : isDigitC d = true) :
    tryMatchG skPat (d :: rest) = none := by
  apply tryMatchG_headfail skPat d rest 's' "k-ant-api".data rfl
  unfold isDigitC at hd
  simp only [decide_eq_true_eq] at hd
  apply lowerChar_ne_of_toNat
  have hs : ('s' : Char).toNat = 115 := rfl
  rw [hs]
  omega

theorem digit_head_bearer (d : Char) (rest : List Char) (hd : isDigitC d = true) :
    tryMatchG bearerPat (d :: rest) = none := by
  apply tryMatchG_headfail bearerPat d rest 'b' "earer".data rfl
  unfold isDigitC at hd
  simp only [decide_eq_true_eq] at hd
  apply lowerChar_ne_of_toNat
  have hb : ('b' : Char).toNat = 98 := rfl
  rw [hb]
  omega

theorem dots_block_sk : ∀ u rest, u <:+ "...[".data → u ≠ [] →
    tryMatchG skPat (u ++ rest) = none := by
  intro u rest hu hne
  have h4 : "...[".data.length = 4 := rfl
  have hlen : u.length ≤ 4 := by have := hu.length_le; omega
  have hpos : 0 < u.length := List.length_pos.mpr hne
  obtain ⟨k, hk, hmeq⟩ : ∃ k, k ≤ 3 ∧ u = "...[".data.drop k :=
    ⟨"...[".data.length - u.length, by omega, suffix_eq_drop u "...[".data hu⟩
  rw [hmeq]
  interval_cases k <;> rfl

theorem dots_block_bearer : ∀ u rest, u <:+ "...[".data → u ≠ [] →
    tryMatchG bearerPat (u ++ rest) = none := by
  intro u rest hu hne
  have h4 : "...[".data.length = 4 := rfl
  have hlen : u.length ≤ 4 := by have := hu.length_le; omega
  have hpos : 0 < u.length := List.length_pos.mpr hne
  obtain ⟨k, hk, hmeq⟩ : ∃ k, k ≤ 3 ∧ u = "...[".data.drop k :=
    ⟨"...[".data.length - u.length, by omega, suffix_eq_drop u "...[".data hu⟩
  rw [hmeq]
  interval_cases k <;> rfl

theorem markerTail_block_sk : ∀ u rest, u <:+ " chars total]...".data → u ≠ [] →
    tryMatchG skPat (u ++ rest) = none := by
  intro u rest hu hne
  have h16 : " chars total]...".data.length = 16 := rfl
  have hlen : u.length ≤ 16 := by have := hu.length_le; omega
  have hpos : 0 < u.length := List.length_pos.mpr hne
  obtain ⟨k, hk, hmeq⟩ : ∃ k, k ≤ 15 ∧ u = " chars total]...".data.drop k :=
    ⟨" chars total]...".data.length - u.length, by omega,
      suffix_eq_drop u " chars total]...".data hu⟩
  rw [hmeq]
  interval_cases k <;> rfl

theorem markerTail_block_bearer : ∀ u rest, u <:+ " chars total]...".data → u ≠ [] →
    tryMatchG bearerPat (u ++ rest) = none := by
  intro u rest hu hne
  have h16 : " chars total]...".data.length = 16 := rfl
  have hlen : u.length ≤ 16 := by have := hu.length_le; omega
  have hpos : 0 < u.length := List.length_pos.mpr hne
  obtain ⟨k, hk, hmeq⟩ : ∃ k, k ≤ 15 ∧ u = " chars total]...".data.drop k :=
    ⟨" chars total]...".data.length - u.length, by omega,
      suffix_eq_drop u " chars total]...".data hu⟩
  rw [hmeq]
  interval_cases k <;> rfl

theorem charsTail_block_sk : ∀ u rest, u <:+ " chars]".data → u ≠ [] →
    tryMatchG skPat (u ++ rest) = none := by
  intro u rest hu hne
  have h7 : " chars]".data.length = 7 := rfl
  have hlen : u.length ≤ 7 := by have := hu.length_le; omega
  have hpos : 0 < u.length := List.length_pos.mpr hne
  obtain ⟨k, hk, hmeq⟩ : ∃ k, k ≤ 6 ∧ u = " chars]".data.drop k :=
    ⟨" chars]".data.length - u.length, by omega, suffix_eq_drop u " chars]".data hu⟩
  rw [hmeq]
  interval_cases k <;> rfl

theorem charsTail_block_bearer : ∀ u rest, u <:+ " chars]".data → u ≠ [] →
    tryMatchG bearerPat (u ++ rest) = none := by
  intro u rest hu hne
  have h7 : " chars]".data.length = 7 := rfl
  have hlen : u.length ≤ 7 := by have := hu.length_le; omega
  have hpos : 0 < u.length := List.length_pos.mpr hne
  obtain ⟨k, hk, hmeq⟩ : ∃ k, k ≤ 6 ∧ u = " chars]".data.drop k :=
    ⟨" chars]".data.length - u.length, by omega, suffix_eq_drop u " chars]".data hu⟩
  rw [hmeq]
  interval_cases k <;> rfl

theorem bracket_block_sk : ∀ u rest, u <:+ "[".data → u ≠ [] →
    tryMatchG skPat (u ++ rest) = none := by
  intro u rest hu hne
  have h1 : "[".data.length = 1 := rfl
  have hlen : u.length ≤ 1 := by have := hu.length_le; omega
  have hpos : 0 < u.length := List.length_pos.mpr hne
  obtain ⟨k, hk, hmeq⟩ : ∃ k, k ≤ 0 ∧ u = "[".data.drop k :=
    ⟨"[".data.length - u.length, by omega, suffix_eq_drop u "[".data hu⟩
  rw [hmeq]
  interval_cases k
  rfl

theorem bracket_block_bearer : ∀ u rest, u <:+ "[".data → u ≠ [] →
    tryMatchG bearerPat (u ++ rest) = none := by
  intro u rest hu hne
  have h1 : "[".data.length = 1 := rfl
  have hlen : u.length ≤ 1 := by have := hu.length_le; omega
  have hpos : 0 < u.length := List.length_pos.mpr hne
  obtain ⟨k, hk, hmeq⟩ : ∃ k, k ≤ 0 ∧ u = "[".data.drop k :=
    ⟨"[".data.length - u.length, by omega, suffix_eq_drop u "[".data hu⟩
  rw [hmeq]
  interval_cases k
  rfl

theorem dot_block_sk : ∀ u X w, tryMatchG skPat (u ++ w) = none →
    tryMatchG skPat (u ++ '.' :: X) = none := by
  intro u X w hnone
  exact tryMatchG_block skPat u X w '.' (by decide) (by decide)
    (by intro s hs; cases hs; decide) (by decide) hnone

theorem dot_block_bearer : ∀ u X w, tryMatchG bearerPat (u ++ w) = none →
    tryMatchG bearerPat (u ++ '.' :: X) = none := by
  intro u X w hnone
  exact tryMatchG_block bearerPat u X w '.' (by decide) (by decide)
    (by intro s hs; cases hs) (by decide) hnone

theorem take_suffix_drop (u m : List Char) (n : Nat) (hu : u <:+ m.take n) :
    u ++ m.drop n <:+ m := by
  obtain ⟨t, ht⟩ := hu
  refine ⟨t, ?_⟩
  rw [← List.append_assoc, ht, List.take_append_drop]

/-- The truncated form of a match-free string is match-free, for a pattern
whose stages reject dots, digits and the marker text. -/
theorem noM_trunc (P : Pat) (m : List Char) (N : Nat) (hm : noM P m)
    (hdot : ∀ u X w, tryMatchG P (u ++ w) = none → tryMatchG P (u ++ '.' :: X) = none)
    (hA : ∀ u rest, u <:+ "...[".data → u ≠ [] → tryMatchG P (u ++ rest) = none)
    (hdig : ∀ d rest, isDigitC d = true → tryMatchG P (d :: rest) = none)
    (hT : ∀ u rest, u <:+ " chars total]...".data → u ≠ [] →
      tryMatchG P (u ++ rest) = none) :
    noM P (m.take 100 ++ (truncMarker N ++ m.drop (m.length - 50))) := by
  intro X hX
  rcases suffix_append_cases X (m.take 100)
    (truncMarker N ++ m.drop (m.length - 50)) hX with hX1 | ⟨u, hu, hne, rfl⟩
  · have hre : truncMarker N ++ m.drop (m.length - 50) =
        "...[".data ++ (natDigits N ++ (" chars total]...".data ++
          m.drop (m.length - 50))) := by
      unfold truncMarker
      rw [List.append_assoc, List.append_assoc]
    rw [hre] at hX1
    refine noM_of_parts P "...[".data (natDigits N) " chars total]...".data
      (m.drop (m.length - 50)) hA ?_ hT ?_ X hX1
    · intro d hd rest
      exact hdig d rest (natDigits_all_digits N d hd)
    · exact noM_suffix P m _ hm (List.drop_suffix _ m)
  · have hcons : truncMarker N ++ m.drop (m.length - 50) =
        '.' :: ("..[".data ++ (natDigits N ++ (" chars total]...".data ++
          m.drop (m.length - 50)))) := by
      unfold truncMarker
      rw [List.append_assoc, List.append_assoc]
      rfl
    rw [hcons]
    apply hdot u _ (m.drop 100)
    exact hm _ (take_suffix_drop u m 100 hu)

/-- The `[N chars]` data-field marker is match-free. -/
theorem noM_dataMarker (P : Pat) (N : Nat)
    (hA : ∀ u rest, u <:+ "[".data → u ≠ [] → tryMatchG P (u ++ rest) = none)
    (hdig : ∀ d rest, isDigitC d = true → tryMatchG P (d :: rest) = none)
    (hT : ∀ u rest, u <:+ " chars]".data → u ≠ [] → tryMatchG P (u ++ rest) = none) :
    noM P ("[".data ++ (natDigits N ++ " chars]".data)) := by
  have h0 : noM P ("[".data ++ (natDigits N ++ (" chars]".data ++ []))) := by
    refine noM_of_parts P "[".data (natDigits N) " chars]".data [] hA ?_ hT ?_
    · intro d hd rest
      exact hdig d rest (natDigits_all_digits N d hd)
    · intro X hX
      rw [List.eq_nil_of_suffix_nil hX]
      exact tryMatchG_nil_any P
  rw [List.append_nil] at h0
  exact h0

theorem maskedStr_of_noM (s : List Char) (h1 : noM skPat s) (h2 : noM bearerPat s) :
    maskedStr s = s := by
  unfold maskedStr
  rw [show replaceSk s = s from replaceG_id _ _ _ h1]
  exact replaceG_id _ _ _ h2

theorem truncMarker_length (N : Nat) :
    (truncMarker N).length = 20 + (natDigits N).length := by
  unfold truncMarker
  rw [List.length_append, List.length_append]
  have h4 : "...[".data.length = 4 := rfl
  have h16 : " chars total]...".data.length = 16 := rfl
  omega

theorem maskedStr_length_lt_pow (s : List Char) (h : s.length < 2 ^ 53) :
    (maskedStr s).length < 10 ^ 17 := by
  have h1 := maskedStr_length_le s
  have h53 : (2 : Nat) ^ 53 = 9007199254740992 := by norm_num
  have h17 : (10 : Nat) ^ 17 = 100000000000000000 := by norm_num
  omega

theorem sanitizeStr_length_le (s : List Char) (h : s.length < 2 ^ 53) :
    (sanitizeStr s).length ≤ 200 := by
  unfold sanitizeStr
  by_cases hc : 200 < (maskedStr s).length
  · rw [if_pos hc]
    rw [List.length_append, List.length_append, List.length_take, List.length_drop,
      truncMarker_length]
    have hd : (natDigits (maskedStr s).length).length ≤ 17 :=
      natDigits_length_le 17 (by omega) _ (maskedStr_length_lt_pow s h)
    omega
  · rw [if_neg hc]
    omega

theorem sanitizeStr_id_of (t : List Char) (h1 : noM skPat t) (h2 : noM bearerPat t)
    (h3 : t.length ≤ 200) : sanitizeStr t = t := by
  unfold sanitizeStr
  rw [maskedStr_of_noM t h1 h2]
  rw [if_neg (by omega)]

theorem noM_sanitizeStr_sk (s : List Char) : noM skPat (sanitizeStr s) := by
  unfold sanitizeStr
  by_cases hc : 200 < (maskedStr s).length
  · rw [if_pos hc, List.append_assoc]
    exact noM_trunc skPat (maskedStr s) (maskedStr s).length (noM_sk_masked s)
      dot_block_sk dots_block_sk digit_head_sk markerTail_block_sk
  · rw [if_neg hc]
    exact noM_sk_masked s

theorem noM_sanitizeStr_bearer (s : List Char) : noM bearerPat (sanitizeStr s) := by
  unfold sanitizeStr
  by_cases hc : 200 < (maskedStr s).length
  · rw [if_pos hc, List.append_assoc]
    exact noM_trunc bearerPat (maskedStr s) (maskedStr s).length (noM_bearer_masked s)
      dot_block_bearer dots_block_bearer digit_head_bearer markerTail_block_bearer
  · rw [if_neg hc]
    exact noM_bearer_masked s

/-- Idempotence of the string branch of `sanitizeForLogging`, for strings of
JS-representable length. -/
theorem sanitizeStr_idem (s : List Char) (h : s.length < 2 ^ 53) :
    sanitizeStr (sanitizeStr s) = sanitizeStr s :=
  sanitizeStr_id_of (sanitizeStr s) (noM_sanitizeStr_sk s) (noM_sanitizeStr_bearer s)
    (sanitizeStr_length_le s h)

theorem dataMarker_id (N : Nat) (hN : N < 2 ^ 53) :
    sanitizeStr ("[".data ++ (natDigits N ++ " chars]".data)) =
      "[".data ++ (natDigits N ++ " chars]".data) := by
  apply sanitizeStr_id_of
  · exact noM_dataMarker skPat N bracket_block_sk digit_head_sk charsTail_block_sk
  · exact noM_dataMarker bearerPat N bracket_block_bearer digit_head_bearer
      charsTail_block_bearer
  · rw [List.length_append, List.length_append]
    have h1 : "[".data.length = 1 := rfl
    have h7 : " chars]".data.length = 7 := rfl
    have hd : (natDigits N).length ≤ 17 := by
      apply natDigits_length_le 17 (by omega)
      have h53 : (2 : Nat) ^ 53 = 9007199254740992 := by norm_num
      have h17 : (10 : Nat) ^ 17 = 100000000000000000 := by norm_num
      omega
    omega

theorem sanitizeVal_str (s : List Char) :
    sanitizeVal (.str s) = .str (sanitizeStr s) := by
  rw [sanitizeVal]

theorem sanitizeVal_num (n : Int) : sanitizeVal (.num n) = .num n := by
  rw [sanitizeVal]

theorem sanitizeVal_bool (b : Bool) : sanitizeVal (.bool b) = .bool b := by
  rw [sanitizeVal]

theorem sanitizeVal_null : sanitizeVal .null = .null := by
  rw [sanitizeVal]

theorem sanitizeList_eq (xs : List JsValue) :
    sanitizeList xs = xs.map sanitizeVal := by
  induction xs with
  | nil => rfl
  | cons x xs ih =>
      show sanitizeVal x :: sanitizeList xs = _
      rw [ih]
      rfl

theorem sanitizeKvs_eq (kvs : List (List Char × JsValue)) :
    sanitizeKvs kvs = kvs.map fun kv => (kv.1, fieldOut kv.1 kv.2 (sanitizeVal kv.2)) := by
  induction kvs with
  | nil => rfl
  | cons kv kvs ih =>
      cases kv with
      | mk k v =>
          show (k, fieldOut k v (sanitizeVal v)) :: sanitizeKvs kvs = _
          rw [ih]
          rfl

theorem sanitizeVal_arr (xs : List JsValue) :
    sanitizeVal (.arr xs) = .arr (xs.map sanitizeVal) := by
  show JsValue.arr (sanitizeList xs) = _
  rw [sanitizeList_eq]

theorem sanitizeVal_obj (kvs : List (List Char × JsValue)) :
    sanitizeVal (.obj kvs) =
      .obj (kvs.map fun kv => (kv.1, fieldOut kv.1 kv.2 (sanitizeVal kv.2))) := by
  show JsValue.obj (sanitizeKvs kvs) = _
  rw [sanitizeKvs_eq]

theorem smallStrs_str_elim (s : List Char) (h : smallStrs (.str s) = true) :
    s.length < 2 ^ 53 := by
  have h' : decide (s.length < 2 ^ 53) = true := h
  exact of_decide_eq_true h'

theorem smallStrs_arr_elim (xs : List JsValue) (h : smallStrs (.arr xs) = true) :
    ∀ x ∈ xs, smallStrs x = true := by
  have h' : smallStrsList xs = true := h
  clear h
  induction xs with
  | nil => intro x hx; cases hx
  | cons a as ih =>
      have h2 : (smallStrs a && smallStrsList as) = true := h'
      rw [Bool.and_eq_true] at h2
      intro x hx
      rcases List.mem_cons.mp hx with rfl | hx2
      · exact h2.1
      · exact ih h2.2 x hx2

theorem smallStrs_obj_elim (kvs : List (List Char × JsValue))
    (h : smallStrs (.obj kvs) = true) : ∀ kv ∈ kvs, smallStrs kv.2 = true := by
  have h' : smallStrsKvs kvs = true := h
  clear h
  induction kvs with
  | nil => intro kv hkv; cases hkv
  | cons a as ih =>
      cases a with
      | mk k v =>
          have h2 : (smallStrs v && smallStrsKvs as) = true := h'
          rw [Bool.and_eq_true] at h2
          intro kv hkv
          rcases List.mem_cons.mp hkv with rfl | hkv2
          · exact h2.1
          · exact ih h2.2 kv hkv2

theorem dataMarker_length_le (N : Nat) (hN : N < 2 ^ 53) :
    ("[".data ++ natDigits N ++ " chars]".data).length ≤ 200 := by
  rw [List.length_append, List.length_append]
  have h1 : "[".data.length = 1 := rfl
  have h7 : " chars]".data.length = 7 := rfl
  have hd : (natDigits N).length ≤ 17 := by
    apply natDigits_length_le 17 (by omega)
    have h53 : (2 : Nat) ^ 53 = 9007199254740992 := by norm_num
    have h17 : (10 : Nat) ^ 17 = 100000000000000000 := by norm_num
    omega
  omega

theorem fieldOut_sensitive (k : List Char) (v rec : JsValue)
    (h : sensitiveKey k = true) : fieldOut k v rec = .str "***".data := by
  unfold fieldOut
  rw [if_pos h]

theorem fieldOut_data_str_long (k s : List Char) (rec : JsValue)
    (h1 : sensitiveKey k = false) (h2 : k.map lowerChar = "data".data)
    (h3 : 200 < s.length) :
    fieldOut k (.str s) rec = .str ("[".data ++ natDigits s.length ++ " chars]".data) := by
  unfold fieldOut
  rw [if_neg (by rw [h1]; exact Bool.false_ne_true), if_pos h2]
  show (if 200 < s.length then
      JsValue.str ("[".data ++ natDigits s.length ++ " chars]".data) else rec) = _
  rw [if_pos h3]

theorem fieldOut_data_str_short (k s : List Char) (rec : JsValue)
    (h1 : sensitiveKey k = false) (h2 : k.map lowerChar = "data".data)
    (h3 : ¬200 < s.length) : fieldOut k (.str s) rec = rec := by
  unfold fieldOut
  rw [if_neg (by rw [h1]; exact Bool.false_ne_true), if_pos h2]
  show (if 200 < s.length then
      JsValue.str ("[".data ++ natDigits s.length ++ " chars]".data) else rec) = _
  rw [if_neg h3]

theorem fieldOut_data_notstr (k : List Char) (v rec : JsValue)
    (h1 : sensitiveKey k = false) (h2 : k.map lowerChar = "data".data)
    (hv : ∀ s, v ≠ .str s) : fieldOut k v rec = rec := by
  unfold fieldOut
  rw [if_neg (by rw [h1]; exact Bool.false_ne_true), if_pos h2]
  cases v with
  | str s => exact absurd rfl (hv s)
  | num n => rfl
  | bool b => rfl
  | null => rfl
  | arr xs => rfl
  | obj kvs => rfl

theorem fieldOut_other (k : List Char) (v rec : JsValue)
    (h1 : sensitiveKey k = false) (h2 : ¬k.map lowerChar = "data".data) :
    fieldOut k v rec = rec := by
  unfold fieldOut
  rw [if_neg (by rw [h1]; exact Bool.false_ne_true), if_neg h2]

theorem fieldOut_idem (k : List Char) (v : JsValue) (hsm : smallStrs v = true)
    (hrec : sanitizeVal (sanitizeVal v) = sanitizeVal v) :
    fieldOut k (fieldOut k v (sanitizeVal v))
        (sanitizeVal (fieldOut k v (sanitizeVal v))) =
      fieldOut k v (sanitizeVal v) := by
  by_cases hsens : sensitiveKey k = true
  · rw [fieldOut_sensitive k v _ hsens, fieldOut_sensitive k _ _ hsens]
  · have hsens' : sensitiveKey k = false := by
      cases hs : sensitiveKey k
      · rfl
      · exact absurd hs hsens
    by_cases hdata : k.map lowerChar = "data".data
    · cases v with
      | str s =>
          by_cases hlong : 200 < s.length
          · rw [fieldOut_data_str_long k s _ hsens' hdata hlong]
            have hmlen : ¬200 <
                ("[".data ++ natDigits s.length ++ " chars]".data).length := by
              have := dataMarker_length_le s.length (smallStrs_str_elim s hsm)
              omega
            rw [fieldOut_data_str_short k _ _ hsens' hdata hmlen]
            rw [sanitizeVal_str]
            congr 1
            have hid := dataMarker_id s.length (smallStrs_str_elim s hsm)
            rw [← List.append_assoc] at hid
            exact hid
          · rw [fieldOut_data_str_short k s _ hsens' hdata hlong]
            rw [sanitizeVal_str]
            have hslen : ¬200 < (sanitizeStr s).length := by
              have := sanitizeStr_length_le s (smallStrs_str_elim s hsm)
              omega
            rw [fieldOut_data_str_short k _ _ hsens' hdata hslen]
            rw [← sanitizeVal_str]
            exact hrec
      | num n =>
          rw [fieldOut_data_notstr k (JsValue.num n) (sanitizeVal (JsValue.num n))
            hsens' hdata (by intro s h; cases h), sanitizeVal_num,
            fieldOut_data_notstr k (JsValue.num n) (sanitizeVal (JsValue.num n))
              hsens' hdata (by intro s h; cases h), sanitizeVal_num]
      | bool b =>
          rw [fieldOut_data_notstr k (JsValue.bool b) (sanitizeVal (JsValue.bool b))
            hsens' hdata (by intro s h; cases h), sanitizeVal_bool,
            fieldOut_data_notstr k (JsValue.bool b) (sanitizeVal (JsValue.bool b))
              hsens' hdata (by intro s h; cases h), sanitizeVal_bool]
      | null =>
          rw [fieldOut_data_notstr k JsValue.null (sanitizeVal JsValue.null)
            hsens' hdata (by intro s h; cases h), sanitizeVal_null,
            fieldOut_data_notstr k JsValue.null (sanitizeVal JsValue.null)
              hsens' hdata (by intro s h; cases h), sanitizeVal_null]
      | arr xs =>
          rw [fieldOut_data_notstr k (JsValue.arr xs) (sanitizeVal (JsValue.arr xs))
            hsens' hdata (by intro s h; cases h)]
          rw [sanitizeVal_arr]
          rw [fieldOut_data_notstr k (JsValue.arr (xs.map sanitizeVal))
            (sanitizeVal (JsValue.arr (xs.map sanitizeVal)))
            hsens' hdata (by intro s h; cases h)]
          rw [sanitizeVal_arr] at hrec
          exact hrec
      | obj kvs =>
          rw [fieldOut_data_notstr k (JsValue.obj kvs) (sanitizeVal (JsValue.obj kvs))
            hsens' hdata (by intro s h; cases h)]
          rw [sanitizeVal_obj]
          rw [fieldOut_data_notstr k
            (JsValue.obj (kvs.map fun kv => (kv.1, fieldOut kv.1 kv.2 (sanitizeVal kv.2))))
            (sanitizeVal (JsValue.obj
              (kvs.map fun kv => (kv.1, fieldOut kv.1 kv.2 (sanitizeVal kv.2)))))
            hsens' hdata (by intro s h; cases h)]
          rw [sanitizeVal_obj] at hrec
          exact hrec
    · rw [fieldOut_other k v _ hsens' hdata, fieldOut_other k _ _ hsens' hdata]
      exact hrec

theorem sizeOf_pos_js (v : JsValue) : 1 ≤ sizeOf v := by
  cases v <;> simp

/-- `sanitizeForLogging` is idempotent on values all of whose strings have
JS-representable length. -/
theorem sanitizeVal_idem (v : JsValue) (h : smallStrs v = true) :
    sanitizeVal (sanitizeVal v) = sanitizeVal v := by
  have main : ∀ n w, sizeOf w ≤ n → smallStrs w = true →
      sanitizeVal (sanitizeVal w) = sanitizeVal w := by
    intro n
    induction n with
    | zero =>
        intro w hw _
        have := sizeOf_pos_js w
        omega
    | succ n ih =>
        intro w hw hsm
        cases w with
        | str s =>
            rw [sanitizeVal_str, sanitizeVal_str]
            congr 1
            exact sanitizeStr_idem s (smallStrs_str_elim s hsm)
        | num m => rw [sanitizeVal_num, sanitizeVal_num]
        | bool b => rw [sanitizeVal_bool, sanitizeVal_bool]
        | null => rw [sanitizeVal_null, sanitizeVal_null]
        | arr xs =>
            rw [sanitizeVal_arr, sanitizeVal_arr, List.map_map]
            congr 1
            apply List.map_congr_left
            intro x hx
            show sanitizeVal (sanitizeVal x) = sanitizeVal x
            have hsx : sizeOf x ≤ n := by
              have h1 : 1 + sizeOf xs ≤ n + 1 := by
                have : sizeOf (JsValue.arr xs) = 1 + sizeOf xs := by simp
                omega
              have h2 := List.sizeOf_lt_of_mem hx
              omega
            exact ih x hsx (smallStrs_arr_elim xs hsm x hx)
        | obj kvs =>
            rw [sanitizeVal_obj, sanitizeVal_obj, List.map_map]
            congr 1
            apply List.map_congr_left
            intro kv hkv
            show (kv.1, fieldOut kv.1 (fieldOut kv.1 kv.2 (sanitizeVal kv.2))
                (sanitizeVal (fieldOut kv.1 kv.2 (sanitizeVal kv.2)))) =
              (kv.1, fieldOut kv.1 kv.2 (sanitizeVal kv.2))
            have hsv : sizeOf kv.2 ≤ n := by
              have h1 : 1 + sizeOf kvs ≤ n + 1 := by
                have : sizeOf (JsValue.obj kvs) = 1 + sizeOf kvs := by simp
                omega
              have h2 := List.sizeOf_lt_of_mem hkv
              have h3 : sizeOf kv.2 < sizeOf kv := by
                cases kv with
                | mk a b => simp
              omega
            exact congrArg (Prod.mk kv.1)
              (fieldOut_idem kv.1 kv.2 (smallStrs_obj_elim kvs hsm kv hkv)
                (ih kv.2 hsv (smallStrs_obj_elim kvs hsm kv hkv)))
  exact main (sizeOf v) v (Nat.le_refl _) h

/-- C9: `sanitizeForLogging` is idempotent: for every value (strings, nested
objects, arrays, other primitives) whose strings have JS-representable
lengths, applying it twice equals applying it once — mask tokens
(`sk-ant-***`, `Bearer ***`), truncation markers and `[N chars]` field
markers produced by one application are left unchanged by a second. -/
theorem C9_sanitize_idempotent (v : JsValue) (h : smallStrs v = true) :
    sanitizeVal (sanitizeVal v) = sanitizeVal v :=
  sanitizeVal_idem v h

theorem C9_witness :
    smallStrs (JsValue.obj
      [("apiKey".data, .str "sk-ant-api03-topsecret".data),
       ("msg".data, .str "use Bearer abc123 here".data),
       ("n".data, .num 5),
       ("items".data, .arr [.str "sk-ant-api03-AAA bbb".data, .null])]) = true ∧
    sanitizeVal (sanitizeVal (JsValue.obj
      [("apiKey".data, .str "sk-ant-api03-topsecret".data),
       ("msg".data, .str "use Bearer abc123 here".data),
       ("n".data, .num 5),
       ("items".data, .arr [.str "sk-ant-api03-AAA bbb".data, .null])])) =
      sanitizeVal (JsValue.obj
      [("apiKey".data, .str "sk-ant-api03-topsecret".data),
       ("msg".data, .str "use Bearer abc123 here".data),
       ("n".data, .num 5),
       ("items".data, .arr [.str "sk-ant-api03-AAA bbb".data, .null])]) :=
  ⟨rfl, C9_sanitize_idempotent (JsValue.obj
      [("apiKey".data, .str "sk-ant-api03-topsecret".data),
       ("msg".data, .str "use Bearer abc123 here".data),
       ("n".data, .num 5),
       ("items".data, .arr [.str "sk-ant-api03-AAA bbb".data, .null])]) rfl⟩

end CAMS
